import Mathlib

/-!
Shallow embedding of the Path ORAM implementation
(src/src/path_oram.rs, src/src/stash.rs) and the parts of its data model
that the repository's spec describes (bucket.rs, utils.rs, position_map.rs
are not part of the provided sources; the definitions modelled from the
spec are marked as such in their doc comments).

Machine integers (u64 addresses, tree indices) are modelled as Nat; the
sentinel values u64::MAX and u64::MAX - 1 are written out explicitly.
Constant-time primitives (conditional_select, conditional_assign, ct_eq)
are translated to their functional meaning.
-/

namespace Oram

/-- Modelled from the spec: the reserved sentinel address carried by dummy
blocks (the all-ones 64-bit value; bucket.rs is not in the sources). -/
def dummyAddress : Nat := 2 ^ 64 - 1

/-- The sentinel assignment key for unassigned stash slots, TreeIndex::MAX
(src/src/stash.rs line 49). -/
def unassignedKey : Nat := 2 ^ 64 - 1

/-- The sentinel assignment key for overflowing real blocks,
TreeIndex::MAX - 1 (src/src/stash.rs line 86). -/
def overflowKey : Nat := 2 ^ 64 - 2

/-- STASH_GROWTH_INCREMENT from src/src/stash.rs line 18. -/
def stashGrowthIncrement : Nat := 10

/-- OVERFLOW_SIZE from src/src/path_oram.rs line 41. -/
def overflowSize : Nat := 40

/-- A Path ORAM block record (PathOramBlock in the crate): a logical
address, an assigned tree leaf, and a payload value. -/
structure Block (V : Type) where
  address : Nat
  position : Nat
  value : V
deriving DecidableEq, Repr

variable {V : Type}

/-- Modelled from the spec: a dummy block carries the reserved sentinel
address and the reserved position 0 and a default payload. -/
def Block.dummy [Inhabited V] : Block V := ⟨dummyAddress, 0, default⟩

/-- Modelled from the spec: a block is a dummy exactly when its position is
the reserved value 0 (ct_is_dummy). -/
def Block.isDummy (b : Block V) : Bool := b.position == 0

/-- Modelled from the spec: the ancestor at depth d of the leaf in a
complete binary tree of height h, equal to leaf right-shifted by h - d
(ct_node_on_path / ancestor_at_depth; utils.rs is not in the sources).
Only used with d at most h; Nat subtraction truncates otherwise. -/
def nodeOnPath (leaf d h : Nat) : Nat := leaf >>> (h - d)

/-- Fuelled floor base-2 logarithm; the fuel makes the recursion
structural so that the definition evaluates inside the kernel. -/
def log2Aux : Nat → Nat → Nat
  | 0, _ => 0
  | fuel + 1, n => if 2 ≤ n then log2Aux fuel (n / 2) + 1 else 0

/-- Modelled from the spec: the depth of a tree node is the floor of its
base-2 logarithm (ct_depth). -/
def depthOf (n : Nat) : Nat := log2Aux n n

/-- A tree index is a leaf of the height-h tree when it lies in
[2^h, 2^(h+1)). -/
def IsLeaf (p h : Nat) : Prop := 2 ^ h ≤ p ∧ p < 2 ^ (h + 1)

instance (p h : Nat) : Decidable (IsLeaf p h) := by
  unfold IsLeaf; infer_instance

/-- Rust's u64::is_power_of_two, characterised via the floor logarithm. -/
def isPow2 (n : Nat) : Bool := n != 0 && 2 ^ (depthOf n) == n

/-- The Path ORAM stash (ObliviousStash in src/src/stash.rs): a vector of
blocks whose first path_size slots mirror the most recently handled
root-to-leaf path. -/
structure Stash (V : Type) where
  blocks : List (Block V)
  pathSize : Nat
deriving DecidableEq, Repr

/-- ObliviousStash::new (src/src/stash.rs lines 34-41): path_size plus
overflow_size dummy blocks. -/
def ObliviousStash.new (V : Type) [Inhabited V] (pathSize overflow : Nat) : Stash V :=
  ⟨List.replicate (pathSize + overflow) (Block.dummy : Block V), pathSize⟩

/-- ObliviousStash::read_from_path (src/src/stash.rs lines 227-243): the
buckets on the root-to-leaf path of position overwrite the first
path_size slots of the stash, deepest bucket first slot-wise; the rest of
the stash is kept. Buckets have exactly Z slots in every reachable state;
the replicate default only pads degenerate inputs. -/
def ObliviousStash.readFromPath [Inhabited V] (Z : Nat) (stash : Stash V)
    (mem : List (List (Block V))) (position : Nat) : Stash V :=
  let h := depthOf position
  let n := stash.pathSize / Z
  let pathBlocks :=
    ((List.range n).map
      (fun i => mem.getD (nodeOnPath position i h) (List.replicate Z (Block.dummy : Block V)))).foldr
      (fun a b => a ++ b) []
  { stash with blocks := pathBlocks ++ stash.blocks.drop (Z * n) }

/-- The scan of ObliviousStash::access over the stash (src/src/stash.rs
lines 180-195): for each block in order, under a constant-time address
match the block's value is copied into the running result, its position
is set to new_position, and its value is replaced by the callback applied
to the result. Returns the updated blocks, the result, and whether any
block matched. -/
def stashScan (addr newPos : Nat) (f : V → V) :
    List (Block V) → V → Bool → List (Block V) × V × Bool
  | [], res, found => ([], res, found)
  | b :: bs, res, found =>
    let hit := b.address == addr
    let res' := if hit then b.value else res
    let b' := if hit then { b with position := newPos, value := f res' } else b
    let (bs', res'', found') := stashScan addr newPos f bs res' (found || hit)
    (b' :: bs', res'', found')

/-- ObliviousStash::access (src/src/stash.rs lines 170-214): scan the whole
stash; if no block matched, overwrite the last stash slot with a fresh
block for the requested address. -/
def ObliviousStash.access [Inhabited V] (stash : Stash V) (addr newPos : Nat)
    (f : V → V) : V × Stash V :=
  let (bs, res, found) := stashScan addr newPos f stash.blocks default false
  let bs' := if found then bs else bs.set (bs.length - 1) ⟨addr, newPos, f res⟩
  (res, { stash with blocks := bs' })

/-- The assertion guarding the write-on-miss slot in ObliviousStash::access
(src/src/stash.rs line 202): the last stash slot must be a dummy. -/
def lastSlotDummy [Inhabited V] (stash : Stash V) : Bool :=
  (stash.blocks.getLastD (Block.dummy : Block V)).isDummy

/-- One real block's reversed level scan in the first assignment pass of
ObliviousStash::write_to_path (src/src/stash.rs lines 63-86): levels are
scanned from the leaf level h down to the root, with a latching assigned
flag; the block is assigned to the first level that lies on both the
block's path and the eviction path and whose occupancy counter is not yet
Z, incrementing that counter. An unassignable real block receives the
overflow sentinel. Returns the assignment key and updated counters. -/
def assignStep (Z h posTarget bpos : Nat) (st : Nat × List Nat × Bool)
    (level : Nat) : Nat × List Nat × Bool :=
  let full := st.2.1.getD level 0 == Z
  let elig := nodeOnPath bpos level h == nodeOnPath posTarget level h
  if elig && !full && !st.2.2 then
    (level, st.2.1.set level (st.2.1.getD level 0 + 1), true)
  else st

/-- See the doc comment above assignStep: the reversed level scan. -/
def assignRealScan (Z h posTarget bpos : Nat) (counts : List Nat) : Nat × List Nat :=
  let r := ((List.range (h + 1)).reverse).foldl (assignStep Z h posTarget bpos)
    (unassignedKey, counts, false)
  (if r.2.2 then r.1 else overflowKey, r.2.1)

/-- The first assignment pass of ObliviousStash::write_to_path
(src/src/stash.rs lines 52-87) over the whole stash: dummies keep the
unassigned sentinel and leave the counters unchanged (all their
constant-time updates are gated on not being a dummy); real blocks are
assigned by the reversed level scan. -/
def assignPass (Z h posTarget : Nat) :
    List (Block V) → List Nat → List Nat × List Nat
  | [], counts => ([], counts)
  | b :: bs, counts =>
    if b.isDummy then
      let (ks, cts) := assignPass Z h posTarget bs counts
      (unassignedKey :: ks, cts)
    else
      let (k, cts₁) := assignRealScan Z h posTarget b.position counts
      let (ks, cts₂) := assignPass Z h posTarget bs cts₁
      (k :: ks, cts₂)

/-- One dummy block's forward level scan in the dummy-fill sweep of
ObliviousStash::write_to_path (src/src/stash.rs lines 113-121): the
block is assigned to the first level (from the root down) whose counter
is below Z. -/
def fillStep (Z : Nat) (st : Option Nat × List Nat) (level : Nat) :
    Option Nat × List Nat :=
  if st.1.isSome then st
  else if st.2.getD level 0 == Z then st
  else (some level, st.2.set level (st.2.getD level 0 + 1))

/-- See the doc comment above fillStep: the forward level scan. -/
def fillScan (Z : Nat) (counts : List Nat) : Option Nat × List Nat :=
  (List.range counts.length).foldl (fillStep Z) (none, counts)

/-- The dummy-fill sweep over a segment of the stash (src/src/stash.rs
lines 100-122): every dummy block in the segment is assigned to the
first unfilled level if one remains; real blocks are untouched. -/
def fillSweep (Z : Nat) :
    List (Block V × Nat) → List Nat → List (Block V × Nat) × List Nat
  | [], cts => ([], cts)
  | (b, k) :: rest, cts =>
    if b.isDummy then
      match fillScan Z cts with
      | (some lvl, cts') =>
        let (r, c) := fillSweep Z rest cts'
        ((b, lvl) :: r, c)
      | (none, cts') =>
        let (r, c) := fillSweep Z rest cts'
        ((b, k) :: r, c)
    else
      let (r, c) := fillSweep Z rest cts
      ((b, k) :: r, c)

/-- One round of the dummy-fill loop (src/src/stash.rs lines 98-152): the
sweep processes the slots from first up to, but excluding, the last slot
(which is reserved for write-on-miss handling). -/
def fillRound (Z first : Nat) (pairs : List (Block V × Nat)) (cts : List Nat) :
    List (Block V × Nat) × List Nat :=
  let front := pairs.take first
  let back := pairs.drop first
  let body := back.dropLast
  let lastPart := back.drop body.length
  let (body', cts') := fillSweep Z body cts
  (front ++ body' ++ lastPart, cts')

/-- The dummy-fill while-loop of ObliviousStash::write_to_path
(src/src/stash.rs lines 90-152), fuelled: after a sweep, if some level is
still unfilled the stash is extended by STASH_GROWTH_INCREMENT dummy
blocks (with unassigned keys), the next sweep starts at the old last
index, and the process repeats. The fuel is chosen by the caller large
enough that it is never exhausted. -/
def fillLoop [Inhabited V] (Z : Nat) :
    Nat → Nat → List (Block V × Nat) → List Nat → List (Block V × Nat) × List Nat
  | 0, _, pairs, cts => (pairs, cts)
  | fuel + 1, first, pairs, cts =>
    let (pairs', cts') := fillRound Z first pairs cts
    if cts'.all (fun c => c == Z) then (pairs', cts')
    else
      fillLoop Z fuel (pairs'.length - 1)
        (pairs' ++ List.replicate stashGrowthIncrement ((Block.dummy : Block V), unassignedKey))
        cts'

/-- The comparison key used to sort the stash: the level-assignment key of
each (block, key) pair. -/
def keyLe (p q : Block V × Nat) : Prop := p.2 ≤ q.2

instance : DecidableRel (@keyLe V) := fun p q => by
  unfold keyLe; infer_instance

instance : IsTotal (Block V × Nat) keyLe :=
  ⟨fun p q => Nat.le_total p.2 q.2⟩

instance : IsTrans (Block V × Nat) keyLe :=
  ⟨fun _ _ _ h h' => Nat.le_trans h h'⟩

/-- ObliviousStash::write_to_path (src/src/stash.rs lines 43-168): assign
all stash blocks to levels of the eviction path or to sentinels, fill the
levels up with dummy blocks (growing the stash on overflow), sort the
stash by assignment key (bitonic_sort_by_keys is modelled from the spec
as a stable sort of the payloads by the keys, utils.rs not being in the
sources), and write the first Z blocks of each level back into the path
buckets. Returns the updated stash and physical memory. -/
def ObliviousStash.writeToPath [Inhabited V] (Z : Nat) (stash : Stash V)
    (mem : List (List (Block V))) (position : Nat) :
    Stash V × List (List (Block V)) :=
  let h := depthOf position
  let (keys, cts) := assignPass Z h position stash.blocks (List.replicate (h + 1) 0)
  let pairs := stash.blocks.zip keys
  let (pairs₂, _) := fillLoop Z (Z * (h + 1) + 1) 0 pairs cts
  let sorted := List.insertionSort keyLe pairs₂
  let sortedBlocks := sorted.map Prod.fst
  let mem' := (List.range (h + 1)).foldl
    (fun m d => m.set (nodeOnPath position d h) ((sortedBlocks.drop (Z * d)).take Z)) mem
  ({ stash with blocks := sortedBlocks }, mem')

/-- The error kinds of the crate that the embedded operations can signal
(OramError in src/src/lib.rs; integer-conversion errors cannot occur in
the Nat model since all in-range conversions succeed). -/
inductive OErr
  | addressOutOfBounds
  | invalidConfiguration
deriving DecidableEq, Repr

/-- The Path ORAM client state: physical memory (one bucket per tree
node), the stash, the position map, and the tree height. The position
map is modelled from the spec (position_map.rs is not in the sources) as
the flat array of leaf labels it implements: write returns the previous
entry and installs the new one. -/
structure PState (V : Type) where
  mem : List (List (Block V))
  stash : Stash V
  posMap : List Nat
  height : Nat
deriving DecidableEq, Repr

/-- Modelled from the spec: inverting a permutation
(invert_permutation_oblivious; utils.rs is not in the sources): entry a
of the inverse is the index at which a occurs. -/
def invPerm (π : List Nat) : List Nat :=
  (List.range π.length).map (fun a => π.indexOf a)

/-- The bucket PathOram::new writes into the leaf with offset k from the
first leaf FL (src/src/path_oram.rs lines 147-160): two real blocks with
permuted addresses, default values and position equal to the leaf, then
dummies. -/
def initLeafBucket [Inhabited V] (Z FL : Nat) (π : List Nat) (k : Nat) : List (Block V) :=
  (⟨π.getD (2 * k) 0, FL + k, (default : V)⟩ : Block V) ::
    (⟨π.getD (2 * k + 1) 0, FL + k, (default : V)⟩ : Block V) ::
    List.replicate (Z - 2) (Block.dummy : Block V)

/-- The physical memory PathOram::new builds: C all-dummy buckets, then
each of the FL leaf buckets is written in turn. -/
def initMem (Z : Nat) (V : Type) [Inhabited V] (FL C : Nat) (π : List Nat) :
    List (List (Block V)) :=
  (List.range FL).foldl
    (fun m k => m.set (FL + k) (initLeafBucket Z FL π k))
    (List.replicate C (List.replicate Z (Block.dummy : Block V)))

/-- The position map PathOram::new builds (src/src/path_oram.rs lines
162-180): one AB-sized position block at a time, entry i holding
FL + invPerm(π)[i] / 2, the inverse permutation being padded with zeros
when AB does not divide C. -/
def initPosMap (AB FL C : Nat) (π : List Nat) : List Nat :=
  let padded := invPerm π ++ List.replicate AB 0
  let numBlocks := C / AB + (if C % AB > 0 then 1 else 0)
  (List.range (numBlocks * AB)).map (fun i => FL + (padded.getD i 0) / 2)

/-- PathOram::new (src/src/path_oram.rs lines 106-188), with the random
permutation drawn from the rng passed in explicitly as π. Rejects a
capacity that is not a power of two or is at most 1; otherwise builds the
tree of C buckets whose leaves hold two real default-valued blocks each
(addresses permuted by π), and the position map sending each address a to
the leaf 2^h + π⁻¹(a)/2, written one AB-sized position block at a time
with zero padding when AB does not divide C. -/
def PathOram.new (Z AB : Nat) (V : Type) [Inhabited V] (C : Nat) (π : List Nat) :
    Except OErr (PState V) :=
  if !(isPow2 C) || C ≤ 1 then .error .invalidConfiguration
  else
    let h := depthOf C - 1
    let pathSize := Z * (h + 1)
    let stash := ObliviousStash.new V pathSize overflowSize
    let firstLeaf := 2 ^ h
    .ok ⟨initMem Z V firstLeaf C π, stash, initPosMap AB firstLeaf C π, h⟩

/-- PathOram::access (src/src/path_oram.rs lines 73-104), with the fresh
random leaf passed in explicitly as newPos. The bounds check is the
code's literal comparison: an error exactly when address exceeds
block_capacity (the number of buckets). -/
def PathOram.access [Inhabited V] (Z : Nat) (st : PState V) (addr : Nat)
    (f : V → V) (newPos : Nat) : Except OErr (V × PState V) :=
  if addr > st.mem.length then .error .addressOutOfBounds
  else
    let oldPos := st.posMap.getD addr 0
    let posMap' := st.posMap.set addr newPos
    let stash₁ := ObliviousStash.readFromPath Z st.stash st.mem oldPos
    let (result, stash₂) := ObliviousStash.access stash₁ addr newPos f
    let (stash₃, mem') := ObliviousStash.writeToPath Z stash₂ st.mem oldPos
    .ok (result, ⟨mem', stash₃, posMap', st.height⟩)

/-- One client operation: an address, the access callback, and the fresh
random leaf the rng produces for this access. read is the identity
callback, write v the constant callback. -/
structure Op (V : Type) where
  addr : Nat
  f : V → V
  newPos : Nat

/-- Executing a list of operations from a state, collecting the returned
values. -/
def execTrace [Inhabited V] (Z : Nat) :
    PState V → List (Op V) → Except OErr (List V × PState V)
  | st, [] => .ok ([], st)
  | st, op :: ops =>
    match PathOram.access Z st op.addr op.f op.newPos with
    | .error e => .error e
    | .ok (v, st') =>
      match execTrace Z st' ops with
      | .error e => .error e
      | .ok (vs, stF) => .ok (v :: vs, stF)

/-- A placeholder state used only as the default of Except.toOption.getD
on constructions that are proved to succeed. -/
def emptyState (V : Type) : PState V := ⟨[], ⟨[], 0⟩, [], 0⟩

/-- The concrete default-parameter ORAM of capacity 64 (Z = 4, AB = 4096)
built from the identity permutation, used to exhibit the behaviour of the
bounds check at address = capacity. -/
def st64 : PState Nat :=
  (PathOram.new 4 4096 Nat 64 (List.range 64)).toOption.getD (emptyState Nat)

/-- The level the claim's description of the first assignment pass picks
for a real block: scanning levels from h down to 0, the first (that is,
deepest) level whose node on the eviction path is an ancestor of the
block's position and whose running occupancy counter is below Z. -/
def deepestFit (Z h posTarget bpos : Nat) (counts : List Nat) : Option Nat :=
  ((List.range (h + 1)).reverse).find?
    (fun d => (nodeOnPath bpos d h == nodeOnPath posTarget d h)
      && !(counts.getD d 0 == Z))

/-- The first assignment pass as the claim describes it: slots in index
order; dummies keep the unassigned sentinel; a real block goes to its
deepest eligible unfilled level, incrementing that level's counter, or to
the overflow sentinel when no level fits. -/
def assignPassSpec (Z h posTarget : Nat) :
    List (Block V) → List Nat → List Nat × List Nat
  | [], counts => ([], counts)
  | b :: bs, counts =>
    if b.isDummy then
      let (ks, cts) := assignPassSpec Z h posTarget bs counts
      (unassignedKey :: ks, cts)
    else
      match deepestFit Z h posTarget b.position counts with
      | some d =>
        let (ks, cts) := assignPassSpec Z h posTarget bs
          (counts.set d (counts.getD d 0 + 1))
        (d :: ks, cts)
      | none =>
        let (ks, cts) := assignPassSpec Z h posTarget bs counts
        (overflowKey :: ks, cts)

/-- The total shortfall of the per-level occupancy counters from Z. -/
def deficit (Z : Nat) (counts : List Nat) : Nat :=
  (counts.map (fun c => Z - c)).sum

/-- The well-formedness of one (block, assignment key) pair during the
eviction of write_to_path towards the leaf posTarget of depth h: a dummy
is unassigned or assigned to a path level; a real block is in overflow or
assigned to a level of the path on which it belongs; and the unassigned
sentinel occurs only on dummies. -/
def goodKey (h posTarget : Nat) (p : Block V × Nat) : Prop :=
  (p.1.isDummy = true → p.2 = unassignedKey ∨ p.2 ≤ h)
  ∧ (p.1.isDummy = false →
      p.2 = overflowKey
      ∨ (p.2 ≤ h ∧ nodeOnPath p.1.position p.2 h = nodeOnPath posTarget p.2 h))
  ∧ (p.2 = unassignedKey → p.1.isDummy = true)

/-- All blocks stored in a physical memory, bucket by bucket. -/
def allBlocks (mem : List (List (Block V))) : List (Block V) :=
  mem.foldr (fun bkt acc => bkt ++ acc) []

/-- Whether a block is a real (non-dummy) block with the given address. -/
def realWithAddr (a : Nat) (b : Block V) : Bool := !b.isDummy && (b.address == a)

/-- The number of real blocks with the given address in a list of blocks. -/
def realCountAddr (a : Nat) (l : List (Block V)) : Nat := l.countP (realWithAddr a)

/-- The number of real (non-dummy) blocks in a list of blocks. -/
def realCount (l : List (Block V)) : Nat := l.countP (fun b => !b.isDummy)

/-- The overflow region of the stash: the slots past the path-sized
front that survive between accesses (ObliviousStash::occupancy counts
exactly these slots). -/
def stashOverflowRegion (stash : Stash V) : List (Block V) :=
  stash.blocks.drop stash.pathSize

/-- The logical content of a Path ORAM state: the blocks stored in the
bucket tree together with the overflow region of the stash (the stash
slots that survive between accesses). -/
def logicalContent (st : PState V) : List (Block V) :=
  allBlocks st.mem ++ stashOverflowRegion st.stash

/-- The reference memory after one client operation: the accessed address
now holds the callback applied to its previous value. -/
def refUpd (ref : Nat → V) (op : Op V) : Nat → V :=
  fun a => if a = op.addr then op.f (ref a) else ref a

/-- The values a trace of operations must return according to the Oram
trait contract: each access returns the reference value of its address
just before the access. -/
def outsSpec (ref : Nat → V) : List (Op V) → List V
  | [] => []
  | op :: ops => ref op.addr :: outsSpec (refUpd ref op) ops

/-- A well-formed client operation: an in-bounds address, and a fresh
position that is a leaf of the tree (as random_leaf always produces). -/
def validOp (C h : Nat) (op : Op V) : Prop :=
  op.addr < C ∧ IsLeaf op.newPos h

/-- The blocks stored on the root-to-leaf path of pos, bucket by bucket
from the root (depth 0) to the leaf (depth h). -/
def pathConcat (mem : List (List (Block V))) (pos h : Nat) : List (Block V) :=
  ((List.range (h + 1)).map (fun d => mem.getD (nodeOnPath pos d h) [])).foldr
    (fun a b => a ++ b) []

/-- The key-sorted stash that ObliviousStash::write_to_path builds from
the stash contents B before writing the per-level slices back. -/
def wtpSorted [Inhabited V] (Z h pos : Nat) (B : List (Block V)) :
    List (Block V × Nat) :=
  List.insertionSort keyLe
    (fillLoop Z (Z * (h + 1) + 1) 0
      (B.zip (assignPass Z h pos B (List.replicate (h + 1) 0)).1)
      (assignPass Z h pos B (List.replicate (h + 1) 0)).2).1

/-- The physical memory ObliviousStash::write_to_path leaves behind: each
bucket on the path to pos is overwritten with its level's slice of the
sorted stash. -/
def wtpMem [Inhabited V] (Z h pos : Nat) (B : List (Block V))
    (mem : List (List (Block V))) : List (List (Block V)) :=
  (List.range (h + 1)).foldl
    (fun m d => m.set (nodeOnPath pos d h)
      ((((wtpSorted Z h pos B).map Prod.fst).drop (Z * d)).take Z)) mem

/-- The capacity-2 ORAM (Z = 2, AB = 1, permutation (0, 1)) used to
exhibit the double counting of the claim that counts the whole stash. -/
def c6New : PState Nat := (PathOram.new 2 1 Nat 2 [0, 1]).toOption.getD (emptyState Nat)

/-- The state of c6New after one access of address 0 (identity callback,
fresh position 1). -/
def c6After : PState Nat :=
  ((PathOram.access 2 c6New 0 id 1).toOption.getD ((0 : Nat), emptyState Nat)).2

/-- The invariant of Path ORAM states reachable by the protocol, relative
to the reference memory ref: the tree has 2^(h+1) buckets of Z blocks;
the stash front covers a path and at least one slot follows it; position
map entries of in-bounds addresses are leaves; each in-bounds address
owns exactly one real block of the logical content; every real block of
the logical content is in bounds, carries the reference value of its
address, and sits at its position-map leaf; dummy blocks everywhere carry
the reserved dummy address; real blocks of the tree reside on the
root-to-leaf path of their position; and the last stash slot is a dummy. -/
def Inv [Inhabited V] (Z h : Nat) (ref : Nat → V) (st : PState V) : Prop :=
  st.height = h
  ∧ st.mem.length = 2 ^ (h + 1)
  ∧ (∀ bkt ∈ st.mem, bkt.length = Z)
  ∧ st.stash.pathSize = Z * (h + 1)
  ∧ Z * (h + 1) + 1 ≤ st.stash.blocks.length
  ∧ (∀ a, a < 2 ^ (h + 1) → IsLeaf (st.posMap.getD a 0) h)
  ∧ 2 ^ (h + 1) ≤ st.posMap.length
  ∧ (∀ a, a < 2 ^ (h + 1) → realCountAddr a (logicalContent st) = 1)
  ∧ (∀ b ∈ logicalContent st, b.isDummy = false →
      b.address < 2 ^ (h + 1)
      ∧ b.value = ref b.address
      ∧ b.position = st.posMap.getD b.address 0)
  ∧ (∀ b ∈ allBlocks st.mem ++ st.stash.blocks, b.isDummy = true →
      b.address = dummyAddress)
  ∧ (∀ i, i < st.mem.length → ∀ b ∈ st.mem.getD i [], b.isDummy = false →
      ∃ d, d ≤ h ∧ i = nodeOnPath b.position d h)
  ∧ lastSlotDummy st.stash = true

end Oram

set_option maxRecDepth 1000000

namespace Oram

variable {V : Type}

/-! ## Arithmetic facts about the fuelled logarithm and tree indices -/

theorem log2Aux_bounds :
    ∀ fuel n : Nat, 1 ≤ n → n ≤ fuel →
      2 ^ log2Aux fuel n ≤ n ∧ n < 2 ^ (log2Aux fuel n + 1) := by
  intro fuel
  induction fuel with
  | zero => intro n h1 h2; omega
  | succ f ih =>
    intro n h1 h2
    by_cases h : 2 ≤ n
    · have hhalf : 1 ≤ n / 2 := by omega
      have hle : n / 2 ≤ f := by omega
      obtain ⟨hl, hr⟩ := ih (n / 2) hhalf hle
      simp only [log2Aux, if_pos h]
      constructor
      · calc 2 ^ (log2Aux f (n / 2) + 1) = 2 ^ log2Aux f (n / 2) * 2 := by ring
        _ ≤ (n / 2) * 2 := by omega
        _ ≤ n := by omega
      · have : n / 2 + 1 ≤ 2 ^ (log2Aux f (n / 2) + 1) := hr
        calc n < (n / 2 + 1) * 2 := by omega
        _ ≤ 2 ^ (log2Aux f (n / 2) + 1) * 2 := by omega
        _ = 2 ^ (log2Aux f (n / 2) + 1 + 1) := by ring
    · have hn : n = 1 := by omega
      subst hn
      simp [log2Aux]

theorem depthOf_bounds {n : Nat} (h : 1 ≤ n) :
    2 ^ depthOf n ≤ n ∧ n < 2 ^ (depthOf n + 1) :=
  log2Aux_bounds n n h le_rfl

theorem pow2_interval_unique {a b n : Nat}
    (ha1 : 2 ^ a ≤ n) (ha2 : n < 2 ^ (a + 1))
    (hb1 : 2 ^ b ≤ n) (hb2 : n < 2 ^ (b + 1)) : a = b := by
  by_contra hne
  rcases Nat.lt_or_ge a b with hab | hab
  · have : 2 ^ (a + 1) ≤ 2 ^ b := Nat.pow_le_pow_right (by omega) (by omega)
    omega
  · have hba : b < a := by omega
    have : 2 ^ (b + 1) ≤ 2 ^ a := Nat.pow_le_pow_right (by omega) (by omega)
    omega

theorem depthOf_eq_of_bounds {n h : Nat} (h1 : 2 ^ h ≤ n) (h2 : n < 2 ^ (h + 1)) :
    depthOf n = h := by
  have hn : 1 ≤ n := le_trans (Nat.one_le_two_pow) h1
  obtain ⟨hl, hr⟩ := depthOf_bounds hn
  exact pow2_interval_unique hl hr h1 h2

theorem depthOf_pow (k : Nat) : depthOf (2 ^ k) = k :=
  depthOf_eq_of_bounds le_rfl (Nat.pow_lt_pow_right (by omega) (by omega))

theorem depthOf_leaf {p h : Nat} (hp : IsLeaf p h) : depthOf p = h :=
  depthOf_eq_of_bounds hp.1 hp.2

theorem isPow2_iff {n : Nat} : isPow2 n = true ↔ ∃ k, n = 2 ^ k := by
  unfold isPow2
  rw [Bool.and_eq_true, bne_iff_ne, beq_iff_eq]
  constructor
  · rintro ⟨_, h⟩
    exact ⟨depthOf n, h.symm⟩
  · rintro ⟨k, rfl⟩
    refine ⟨by positivity, ?_⟩
    rw [depthOf_pow]

theorem nodeOnPath_eq_div (leaf d h : Nat) :
    nodeOnPath leaf d h = leaf / 2 ^ (h - d) := by
  unfold nodeOnPath
  exact Nat.shiftRight_eq_div_pow leaf (h - d)

theorem nodeOnPath_self (leaf h : Nat) : nodeOnPath leaf h h = leaf := by
  rw [nodeOnPath_eq_div, Nat.sub_self, pow_zero, Nat.div_one]

theorem nodeOnPath_isLeaf {p h d : Nat} (hp : IsLeaf p h) (hd : d ≤ h) :
    IsLeaf (nodeOnPath p d h) d := by
  obtain ⟨h1, h2⟩ := hp
  rw [nodeOnPath_eq_div]
  constructor
  · have : 2 ^ d * 2 ^ (h - d) ≤ p := by
      rw [← pow_add]
      have : d + (h - d) = h := by omega
      rw [this]; exact h1
    exact (Nat.le_div_iff_mul_le (by positivity)).2 this
  · rw [Nat.div_lt_iff_lt_mul (by positivity), ← pow_add]
    have : d + 1 + (h - d) = h + 1 := by omega
    rw [this]; exact h2

theorem depthOf_nodeOnPath {p h d : Nat} (hp : IsLeaf p h) (hd : d ≤ h) :
    depthOf (nodeOnPath p d h) = d :=
  depthOf_leaf (nodeOnPath_isLeaf hp hd)

theorem nodeOnPath_lt {p h d : Nat} (hp : IsLeaf p h) (hd : d ≤ h) :
    nodeOnPath p d h < 2 ^ (h + 1) := by
  have := (nodeOnPath_isLeaf hp hd).2
  have h2 : (2 : Nat) ^ (d + 1) ≤ 2 ^ (h + 1) := Nat.pow_le_pow_right (by omega) (by omega)
  omega

theorem nodeOnPath_pos {p h d : Nat} (hp : IsLeaf p h) (hd : d ≤ h) :
    1 ≤ nodeOnPath p d h :=
  le_trans Nat.one_le_two_pow (nodeOnPath_isLeaf hp hd).1

/-! ## C3: configuration validation in PathOram::new -/

/-- The construction guard of PathOram::new, related to the claim's side
condition. -/
theorem newGuard_iff {C : Nat} :
    (!(isPow2 C) || decide (C ≤ 1)) = true ↔ (¬ (∃ k, C = 2 ^ k) ∨ C < 2) := by
  rw [Bool.or_eq_true, Bool.not_eq_true', decide_eq_true_eq]
  constructor
  · rintro (h | h)
    · left
      intro hk
      rw [← isPow2_iff] at hk
      simp [h] at hk
    · right; omega
  · rintro (h | h)
    · left
      rw [Bool.eq_false_iff]
      intro hk
      exact h (isPow2_iff.mp hk)
    · right; omega

/-- C3: PathOram::new(block_capacity, rng) returns InvalidConfigurationError
exactly when block_capacity is not a power of two or is below 2, and for
every power of two capacity of at least 2 the construction succeeds. -/
theorem new_invalidConfiguration_iff (V : Type) [Inhabited V] (Z AB C : Nat)
    (π : List Nat) :
    (PathOram.new Z AB V C π = .error .invalidConfiguration ↔
      (¬ (∃ k, C = 2 ^ k) ∨ C < 2))
    ∧ ((∃ st, PathOram.new Z AB V C π = .ok st) ↔
      ((∃ k, C = 2 ^ k) ∧ 2 ≤ C)) := by
  unfold PathOram.new
  by_cases hc : (!(isPow2 C) || decide (C ≤ 1)) = true
  · rw [if_pos hc]
    rw [newGuard_iff] at hc
    refine ⟨⟨fun _ => hc, fun _ => rfl⟩, ?_, ?_⟩
    · rintro ⟨st, hst⟩
      simp at hst
    · rintro ⟨hk, h2⟩
      rcases hc with h | h
      · exact absurd hk h
      · omega
  · rw [if_neg hc]
    have hng : (∃ k, C = 2 ^ k) ∧ 2 ≤ C := by
      have h' : ¬ (¬ (∃ k, C = 2 ^ k) ∨ C < 2) := fun h => hc (newGuard_iff.mpr h)
      push_neg at h'
      exact ⟨h'.1, by omega⟩
    refine ⟨⟨?_, ?_⟩, ?_, ?_⟩
    · intro h; simp at h
    · intro h
      rcases h with h | h
      · exact absurd hng.1 h
      · omega
    · intro _; exact hng
    · intro _; exact ⟨_, rfl⟩

end Oram

namespace Oram

/-! ## C2: the access bounds check -/

/-- C2 (code bug): the bounds check in PathOram::access compares with
strict greater-than, so on a freshly constructed capacity-64 ORAM the
access at address 64 is NOT rejected: it runs an ordinary access and
returns Ok, and AddressOutOfBoundsError is produced exactly for
addresses strictly greater than 64, contradicting the claimed rejection
of every address at or above the capacity. -/
theorem access_at_capacity_not_rejected :
    (PathOram.new 4 4096 Nat 64 (List.range 64) = .ok st64)
    ∧ (PathOram.access 4 st64 64 id 32).isOk = true
    ∧ (∀ addr : Nat, ∀ f : Nat → Nat, ∀ np : Nat,
        (PathOram.access 4 st64 addr f np = .error .addressOutOfBounds ↔ 64 < addr)) := by
  refine ⟨by rfl, by decide, ?_⟩
  intro addr f np
  have hlen : st64.mem.length = 64 := by decide
  unfold PathOram.access
  rw [hlen]
  by_cases hcm : 64 < addr
  · rw [if_pos (by simpa using hcm)]
    simp [hcm]
  · rw [if_neg (by simpa using hcm)]
    simp [hcm]

end Oram

namespace Oram

variable {V : Type}

/-! ## The stash access scan -/

theorem stashScan_no_match {addr newPos : Nat} {f : V → V} :
    ∀ (bs : List (Block V)) (res : V) (found : Bool),
      (∀ b ∈ bs, b.address ≠ addr) →
      stashScan addr newPos f bs res found = (bs, res, found) := by
  intro bs
  induction bs with
  | nil => intro res found _; rfl
  | cons b bs ih =>
    intro res found h
    have hb : (b.address == addr) = false := by
      simp only [beq_eq_false_iff_ne]
      exact h b (by simp)
    simp only [stashScan, hb, if_neg Bool.false_ne_true, Bool.or_false,
      ih _ _ (fun b' hb' => h b' (by simp [hb']))]

theorem stashScan_unique_match {addr newPos : Nat} {f : V → V}
    (l₁ : List (Block V)) (b : Block V) (l₂ : List (Block V))
    (hb : b.address = addr)
    (h₁ : ∀ b' ∈ l₁, b'.address ≠ addr) (h₂ : ∀ b' ∈ l₂, b'.address ≠ addr) :
    ∀ (res : V) (found : Bool),
      stashScan addr newPos f (l₁ ++ b :: l₂) res found =
        (l₁ ++ ({ b with position := newPos, value := f b.value }) :: l₂,
          b.value, true) := by
  induction l₁ with
  | nil =>
    intro res found
    simp [stashScan, hb, stashScan_no_match l₂ b.value true h₂]
  | cons a l₁ ih =>
    intro res found
    have ha : (a.address == addr) = false := by
      simp only [beq_eq_false_iff_ne]
      exact h₁ a (by simp)
    have ihh := ih (fun b' hb' => h₁ b' (by simp [hb']))
    simp [stashScan, ha, ihh]

/-- C7 (counterexample): a stash state satisfying the claim's hypotheses
(no slot holds a real block with address 5; the last slot is a dummy) on
which ObliviousStash::access does not behave as claimed: a dummy slot
whose address field happens to equal the requested address is matched by
the address-only comparison, so the call returns that slot's value 7
instead of the default 0, and the last slot is not overwritten with the
claimed fresh block. -/
theorem stash_access_dummy_address_collision :
    (let s : Stash Nat := ⟨[⟨5, 0, 7⟩, ⟨dummyAddress, 0, 0⟩], 0⟩
     ((s.blocks.countP (fun b => !b.isDummy && b.address == 5)) = 0
      ∧ lastSlotDummy s = true)
     ∧ ¬ ((ObliviousStash.access s 5 2 id).1 = 0
          ∧ (ObliviousStash.access s 5 2 id).2.blocks
              = s.blocks.set (s.blocks.length - 1) ⟨5, 2, 0⟩)) := by
  decide

/-- C7 (amended): for every stash state in which at most one slot holds a
real block with address addr, the last slot is a dummy, and no dummy
slot's address field equals addr (as in every stash the protocol builds,
where dummies carry the reserved dummy address): access(addr, new_pos, f)
returns the value v of the matching block if one exists (else the default
value); afterwards the matching block has position new_pos and value
f(v); if no slot matched, the last stash slot instead holds the block
(addr, new_pos, f(default)); all other slots are unchanged. -/
theorem stash_access_correct [Inhabited V] (stash : Stash V)
    (addr newPos : Nat) (f : V → V)
    (hreal : (stash.blocks.countP (fun b => !b.isDummy && b.address == addr)) ≤ 1)
    (hdum : ∀ b ∈ stash.blocks, b.isDummy = true → b.address ≠ addr)
    (hlast : lastSlotDummy stash = true) :
    (∀ l₁ b l₂, stash.blocks = l₁ ++ b :: l₂ → b.address = addr →
        (∀ b' ∈ l₁, b'.address ≠ addr) → (∀ b' ∈ l₂, b'.address ≠ addr) →
      (ObliviousStash.access stash addr newPos f).1 = b.value ∧
      (ObliviousStash.access stash addr newPos f).2.blocks
        = l₁ ++ ({ b with position := newPos, value := f b.value }) :: l₂ ∧
      (ObliviousStash.access stash addr newPos f).2.pathSize = stash.pathSize)
    ∧ ((∀ b ∈ stash.blocks, b.address ≠ addr) →
      (ObliviousStash.access stash addr newPos f).1 = default ∧
      (ObliviousStash.access stash addr newPos f).2.blocks
        = stash.blocks.set (stash.blocks.length - 1) ⟨addr, newPos, f default⟩ ∧
      (ObliviousStash.access stash addr newPos f).2.pathSize = stash.pathSize) := by
  constructor
  · intro l₁ b l₂ hsplit hb h₁ h₂
    unfold ObliviousStash.access
    rw [hsplit, stashScan_unique_match l₁ b l₂ hb h₁ h₂ default false]
    simp
  · intro hnone
    unfold ObliviousStash.access
    rw [stashScan_no_match stash.blocks default false hnone]
    simp

end Oram

namespace Oram

/-- Witness for the amended stash access theorem at a concrete stash. -/
theorem stash_access_correct_witness :
    ((((⟨[⟨0, 1, 5⟩, ⟨dummyAddress, 0, 0⟩], 0⟩ : Stash Nat)).blocks.countP
        (fun b => !b.isDummy && b.address == 0)) ≤ 1)
    ∧ (∀ b ∈ ((⟨[⟨0, 1, 5⟩, ⟨dummyAddress, 0, 0⟩], 0⟩ : Stash Nat)).blocks,
        b.isDummy = true → b.address ≠ 0)
    ∧ lastSlotDummy (⟨[⟨0, 1, 5⟩, ⟨dummyAddress, 0, 0⟩], 0⟩ : Stash Nat) = true
    ∧ (ObliviousStash.access (⟨[⟨0, 1, 5⟩, ⟨dummyAddress, 0, 0⟩], 0⟩ : Stash Nat)
        0 2 id).1 = 5 := by
  refine ⟨by decide, by decide, by decide, ?_⟩
  have h := (stash_access_correct (⟨[⟨0, 1, 5⟩, ⟨dummyAddress, 0, 0⟩], 0⟩ : Stash Nat)
    0 2 id (by decide) (by decide) (by decide)).1
    [] ⟨0, 1, 5⟩ [⟨dummyAddress, 0, 0⟩] rfl rfl (by simp) (by decide)
  exact h.1

end Oram

namespace Oram

variable {V : Type}

/-! ## Generic list helpers -/

theorem getD_set_self {α : Type} (l : List α) (i : Nat) (a d : α)
    (h : i < l.length) : (l.set i a).getD i d = a := by
  simp [List.getD, List.getElem?_set_self', h]

theorem getD_set_other {α : Type} (l : List α) {i j : Nat} (h : i ≠ j)
    (a d : α) : (l.set i a).getD j d = l.getD j d := by
  simp [List.getD, List.getElem?_set_ne h]

theorem getD_range_map (f : Nat → Nat) {n a : Nat} (h : a < n) :
    ((List.range n).map f).getD a 0 = f a := by
  simp [List.getD, List.getElem?_map, List.getElem?_range h]

theorem getD_append_left {α : Type} {l₁ : List α} (l₂ : List α) {a : Nat}
    (h : a < l₁.length) (d : α) : (l₁ ++ l₂).getD a d = l₁.getD a d := by
  simp [List.getD, List.getElem?_append_left h]

theorem getD_map_range_blocks (g : Nat → List (Block V)) {n a : Nat}
    (h : a < n) (d : List (Block V)) :
    ((List.range n).map g).getD a d = g a := by
  simp [List.getD, List.getElem?_map, List.getElem?_range h]

theorem allBlocks_nil : allBlocks ([] : List (List (Block V))) = [] := rfl

theorem allBlocks_cons (bkt : List (Block V)) (mem : List (List (Block V))) :
    allBlocks (bkt :: mem) = bkt ++ allBlocks mem := rfl

theorem allBlocks_append (m₁ m₂ : List (List (Block V))) :
    allBlocks (m₁ ++ m₂) = allBlocks m₁ ++ allBlocks m₂ := by
  induction m₁ with
  | nil => rfl
  | cons b m₁ ih => simp [allBlocks_cons, ih]

theorem mem_allBlocks {b : Block V} {mem : List (List (Block V))} :
    b ∈ allBlocks mem ↔ ∃ bkt ∈ mem, b ∈ bkt := by
  induction mem with
  | nil => simp [allBlocks_nil]
  | cons bkt mem ih => simp [allBlocks_cons, ih]

theorem countP_allBlocks (p : Block V → Bool) (mem : List (List (Block V))) :
    (allBlocks mem).countP p = (mem.map (fun bkt => bkt.countP p)).sum := by
  induction mem with
  | nil => rfl
  | cons bkt mem ih => simp [allBlocks_cons, List.countP_append, ih]


theorem countP_eq_sum_range {α : Type} (p : α → Bool) (l : List α) (d : α) :
    l.countP p =
      ((List.range l.length).map (fun i => if p (l.getD i d) = true then 1 else 0)).sum := by
  induction l with
  | nil => rfl
  | cons x l ih =>
    rw [List.countP_cons]
    simp only [List.length_cons, List.range_succ_eq_map, List.map_cons, List.sum_cons,
      List.map_map]
    have h2 : ((fun i => if p ((x :: l).getD i d) = true then 1 else 0) ∘ Nat.succ)
        = fun i => if p (l.getD i d) = true then 1 else 0 := by
      funext i
      rfl
    have h1 : (x :: l).getD 0 d = x := rfl
    rw [h1, h2, ← ih]
    by_cases hx : p x = true
    · simp [hx]
      omega
    · simp [hx]

theorem sum_range_pair (f : Nat → Nat) (n : Nat) :
    ((List.range n).map (fun k => f (2 * k) + f (2 * k + 1))).sum
      = ((List.range (2 * n)).map f).sum := by
  induction n with
  | zero => rfl
  | succ n ih =>
    have h2 : 2 * (n + 1) = (2 * n + 1) + 1 := by omega
    rw [List.range_succ, h2, List.range_succ, List.range_succ]
    simp only [List.map_append, List.sum_append, ih]
    simp only [List.map_cons, List.map_nil, List.sum_cons, List.sum_nil]
    omega


theorem initMem_partial (Z : Nat) (V : Type) [Inhabited V] (FL : Nat) (π : List Nat) :
    ∀ n, n ≤ FL →
      (List.range n).foldl (fun m k => m.set (FL + k) (initLeafBucket Z FL π k))
        (List.replicate (FL + FL) (List.replicate Z (Block.dummy : Block V)))
      = List.replicate FL (List.replicate Z (Block.dummy : Block V))
        ++ (List.range n).map (initLeafBucket Z FL π)
        ++ List.replicate (FL - n) (List.replicate Z (Block.dummy : Block V)) := by
  intro n
  induction n with
  | zero =>
    intro _
    simp only [List.range_zero, List.foldl_nil, List.map_nil, List.append_nil, Nat.sub_zero,
      List.nil_append]
    rw [List.replicate_add]
  | succ n ih =>
    intro hn
    rw [List.range_succ, List.foldl_append, ih (by omega)]
    simp only [List.foldl_cons, List.foldl_nil]
    rw [List.append_assoc]
    rw [List.set_append_right (FL + n) (initLeafBucket Z FL π n) (by simp)]
    have hidx : FL + n - (List.replicate FL (List.replicate Z (Block.dummy : Block V))).length
        = n := by
      simp
    rw [hidx]
    rw [List.set_append_right n (initLeafBucket Z FL π n) (by simp)]
    have hlen2 : n - ((List.range n).map (initLeafBucket Z FL π : Nat → List (Block V))).length = 0 := by
      simp
    rw [hlen2]
    have hrep : List.replicate (FL - n) (List.replicate Z (Block.dummy : Block V))
        = List.replicate Z (Block.dummy : Block V)
          :: List.replicate (FL - (n + 1)) (List.replicate Z (Block.dummy : Block V)) := by
      have he : FL - n = (FL - (n + 1)) + 1 := by omega
      rw [he, List.replicate_succ]
    rw [hrep]
    have hset : (List.replicate Z (Block.dummy : Block V)
          :: List.replicate (FL - (n + 1)) (List.replicate Z (Block.dummy : Block V))).set 0
          (initLeafBucket Z FL π n)
        = initLeafBucket Z FL π n
          :: List.replicate (FL - (n + 1)) (List.replicate Z (Block.dummy : Block V)) := rfl
    rw [hset]
    simp only [List.map_append, List.map_cons, List.map_nil, List.append_assoc,
      List.cons_append, List.nil_append]




theorem initMem_eq (Z : Nat) (V : Type) [Inhabited V] {FL C : Nat} (π : List Nat)
    (hC : C = FL + FL) :
    initMem Z V FL C π
      = List.replicate FL (List.replicate Z (Block.dummy : Block V))
        ++ (List.range FL).map (initLeafBucket Z FL π) := by
  unfold initMem
  rw [hC, initMem_partial Z V FL π FL le_rfl]
  simp

theorem initMem_length (Z : Nat) (V : Type) [Inhabited V] {FL C : Nat} (π : List Nat)
    (hC : C = FL + FL) : (initMem Z V FL C π).length = C := by
  rw [initMem_eq Z V π hC]
  simp [hC]

theorem getD_append_right {α : Type} {l₁ : List α} (l₂ : List α) {a : Nat}
    (h : l₁.length ≤ a) (d : α) :
    (l₁ ++ l₂).getD a d = l₂.getD (a - l₁.length) d := by
  simp [List.getD, List.getElem?_append_right h]

theorem initMem_getD_leaf (Z : Nat) (V : Type) [Inhabited V] {FL C : Nat} (π : List Nat)
    (hC : C = FL + FL) {j : Nat} (h1 : FL ≤ j) (h2 : j < FL + FL) (d : List (Block V)) :
    (initMem Z V FL C π).getD j d = initLeafBucket Z FL π (j - FL) := by
  rw [initMem_eq Z V π hC, getD_append_right _ (by simp [h1]) d]
  rw [List.length_replicate]
  exact getD_map_range_blocks _ (by omega) d

theorem initMem_getD_nonleaf (Z : Nat) (V : Type) [Inhabited V] {FL C : Nat} (π : List Nat)
    (hC : C = FL + FL) {j : Nat} (h1 : j < FL) (d : List (Block V)) :
    (initMem Z V FL C π).getD j d = List.replicate Z (Block.dummy : Block V) := by
  rw [initMem_eq Z V π hC, getD_append_left _ (by simp [h1]) d]
  simp [List.getD, List.getElem?_replicate, h1]

theorem numBlocks_bound {AB : Nat} (hAB : 1 ≤ AB) (C : Nat) :
    C ≤ (C / AB + if C % AB > 0 then 1 else 0) * AB := by
  have hdm := Nat.div_add_mod C AB
  have hmod : C % AB < AB := Nat.mod_lt C (by omega)
  by_cases h : C % AB > 0
  · rw [if_pos h, Nat.add_mul, Nat.one_mul]
    rw [Nat.mul_comm] at hdm
    omega
  · rw [if_neg h, Nat.add_zero]
    rw [Nat.mul_comm] at hdm
    omega

theorem invPerm_getD {π : List Nat} {a : Nat} (h : a < π.length) :
    (invPerm π).getD a 0 = π.indexOf a := by
  unfold invPerm
  exact getD_range_map _ h

theorem initPosMap_getD {AB FL C a : Nat} (hAB : 1 ≤ AB) (ha : a < C) (π : List Nat)
    (hlen : π.length = C) :
    (initPosMap AB FL C π).getD a 0 = FL + ((invPerm π).getD a 0) / 2 := by
  unfold initPosMap
  have hlt : a < (C / AB + if C % AB > 0 then 1 else 0) * AB :=
    lt_of_lt_of_le ha (numBlocks_bound hAB C)
  rw [getD_range_map _ hlt]
  congr 2
  rw [getD_append_left]
  simp [invPerm, hlen]
  omega

theorem perm_indexOf_lt {π : List Nat} {C a : Nat} (hπ : π.Perm (List.range C))
    (ha : a < C) : π.indexOf a < C := by
  have hmem : a ∈ π := hπ.mem_iff.mpr (List.mem_range.mpr ha)
  have h := List.indexOf_lt_length.mpr hmem
  rwa [hπ.length_eq, List.length_range] at h

theorem perm_getD_indexOf {π : List Nat} {C a : Nat} (hπ : π.Perm (List.range C))
    (ha : a < C) : π.getD (π.indexOf a) 0 = a := by
  have hmem : a ∈ π := hπ.mem_iff.mpr (List.mem_range.mpr ha)
  have hlt := List.indexOf_lt_length.mpr hmem
  have hg := List.getElem_indexOf hlt
  simp [List.getD, List.getElem?_eq_getElem hlt, hg]

theorem perm_count_eq_one {π : List Nat} {C a : Nat} (hπ : π.Perm (List.range C))
    (ha : a < C) : π.count a = 1 := by
  rw [hπ.count_eq]
  exact List.count_eq_one_of_mem (List.nodup_range C) (List.mem_range.mpr ha)




theorem countP_dummy_replicate [Inhabited V] (n : Nat) (a : Nat) :
    (List.replicate n (Block.dummy : Block V)).countP (realWithAddr a) = 0 := by
  apply List.countP_eq_zero.mpr
  intro b hb
  rw [List.eq_of_mem_replicate hb]
  simp [realWithAddr, Block.isDummy, Block.dummy]

theorem countP_initLeafBucket [Inhabited V] {Z FL : Nat} (hFL : 1 ≤ FL) (π : List Nat)
    (a k : Nat) :
    ((initLeafBucket Z FL π k : List (Block V)).countP (realWithAddr a))
      = (if (π.getD (2 * k) 0 == a) = true then 1 else 0)
        + (if (π.getD (2 * k + 1) 0 == a) = true then 1 else 0) := by
  unfold initLeafBucket
  rw [List.countP_cons, List.countP_cons, countP_dummy_replicate]
  have hnz : FL + k ≠ 0 := by omega
  have h1 : realWithAddr a (⟨π.getD (2 * k) 0, FL + k, (default : V)⟩ : Block V)
      = (π.getD (2 * k) 0 == a) := by
    simp [realWithAddr, Block.isDummy, hnz]
  have h2 : realWithAddr a (⟨π.getD (2 * k + 1) 0, FL + k, (default : V)⟩ : Block V)
      = (π.getD (2 * k + 1) 0 == a) := by
    simp [realWithAddr, Block.isDummy, hnz]
  rw [h1, h2]
  rw [Nat.zero_add, Nat.add_comm]

theorem initMem_realCountAddr (V : Type) [Inhabited V] {Z FL C : Nat}
    (hFL : 1 ≤ FL) (hC : C = FL + FL) {π : List Nat} (hπlen : π.length = C) (a : Nat) :
    realCountAddr a (allBlocks (initMem Z V FL C π)) = π.count a := by
  rw [initMem_eq Z V π hC]
  unfold realCountAddr
  rw [allBlocks_append, List.countP_append]
  have h1 : (allBlocks (List.replicate FL (List.replicate Z (Block.dummy : Block V)))).countP
      (realWithAddr a) = 0 := by
    apply List.countP_eq_zero.mpr
    intro b hb
    rw [mem_allBlocks] at hb
    obtain ⟨bkt, hbkt, hbb⟩ := hb
    rw [List.eq_of_mem_replicate hbkt] at hbb
    rw [List.eq_of_mem_replicate hbb]
    simp [realWithAddr, Block.isDummy, Block.dummy]
  rw [h1, Nat.zero_add]
  rw [countP_allBlocks, List.map_map]
  have h2 : (List.range FL).map
        ((fun bkt => List.countP (realWithAddr a) bkt) ∘ (initLeafBucket Z FL π : Nat → List (Block V)))
      = (List.range FL).map (fun k =>
          (if (π.getD (2 * k) 0 == a) = true then 1 else 0)
          + (if (π.getD (2 * k + 1) 0 == a) = true then 1 else 0)) := by
    apply List.map_congr_left
    intro k _
    exact countP_initLeafBucket hFL π a k
  rw [h2, sum_range_pair (fun i => if (π.getD i 0 == a) = true then 1 else 0) FL]
  have h3 : π.count a = List.countP (fun x => x == a) π := by
    simp [List.count_eq_countP]
  rw [h3, countP_eq_sum_range (fun x => x == a) π 0, hπlen, hC]
  have h4 : 2 * FL = FL + FL := by omega
  rw [h4]




theorem initMem_block_mem (V : Type) [Inhabited V] {Z FL C : Nat} (hFL : 1 ≤ FL)
    (hC : C = FL + FL) {π : List Nat} (hπ : π.Perm (List.range C)) {a : Nat}
    (ha : a < C) :
    (⟨a, FL + (π.indexOf a) / 2, (default : V)⟩ : Block V)
      ∈ (initMem Z V FL C π).getD (FL + (π.indexOf a) / 2) [] := by
  have hiC : π.indexOf a < C := perm_indexOf_lt hπ ha
  have hdiv : π.indexOf a / 2 < FL := by omega
  rw [initMem_getD_leaf Z V π hC (by omega) (by omega)]
  have hsub : FL + π.indexOf a / 2 - FL = π.indexOf a / 2 := by omega
  rw [hsub]
  unfold initLeafBucket
  rcases Nat.mod_two_eq_zero_or_one (π.indexOf a) with hm | hm
  · have h2 : 2 * (π.indexOf a / 2) = π.indexOf a := by omega
    rw [h2, perm_getD_indexOf hπ ha]
    exact List.mem_cons_self _ _
  · have h2 : 2 * (π.indexOf a / 2) + 1 = π.indexOf a := by omega
    rw [h2, perm_getD_indexOf hπ ha]
    exact List.mem_cons_of_mem _ (List.mem_cons_self _ _)

theorem realCount_initLeafBucket (V : Type) [Inhabited V] {Z FL : Nat} (hFL : 1 ≤ FL)
    (π : List Nat) (k : Nat) :
    realCount (initLeafBucket Z FL π k : List (Block V)) = 2 := by
  unfold realCount initLeafBucket
  rw [List.countP_cons, List.countP_cons]
  have hnz : FL + k ≠ 0 := by omega
  have hzero : (List.replicate (Z - 2) (Block.dummy : Block V)).countP
      (fun b => !b.isDummy) = 0 := by
    apply List.countP_eq_zero.mpr
    intro b hb
    rw [List.eq_of_mem_replicate hb]
    simp [Block.isDummy, Block.dummy]
  rw [hzero]
  simp [Block.isDummy, hnz]



theorem new_ok (V : Type) [Inhabited V] (Z AB C : Nat) (π : List Nat)
    (hk : ∃ k, C = 2 ^ k) (h2 : 2 ≤ C) :
    PathOram.new Z AB V C π = .ok ⟨initMem Z V (2 ^ (depthOf C - 1)) C π,
      ObliviousStash.new V (Z * (depthOf C - 1 + 1)) overflowSize,
      initPosMap AB (2 ^ (depthOf C - 1)) C π, depthOf C - 1⟩ := by
  unfold PathOram.new
  rw [if_neg]
  intro hcond
  rw [newGuard_iff] at hcond
  rcases hcond with hcc | hcc
  · exact hcc hk
  · omega

/-- C4: after a successful PathOram::new(C, rng) drawing the permutation π:
every address a in [0, C) has exactly one real block in physical memory;
that block has the default value and position equal to its containing
leaf 2^h + invPerm(π)(a)/2, where it is stored; each leaf bucket is
exactly its two real initialization blocks followed by dummies (so it
holds exactly two real blocks); non-leaf buckets hold only dummies; and
the position map entry of a equals that same leaf. -/
theorem new_initial_state (V : Type) [Inhabited V] (Z AB C h : Nat) (π : List Nat)
    (hC : C = 2 ^ (h + 1)) (hZ : 2 ≤ Z) (hAB : 1 ≤ AB)
    (hπ : π.Perm (List.range C)) :
    ∃ st, PathOram.new Z AB V C π = .ok st ∧ st.height = h ∧
      (∀ a, a < C → realCountAddr a (allBlocks st.mem) = 1) ∧
      (∀ a, a < C →
        (⟨a, 2 ^ h + ((invPerm π).getD a 0) / 2, (default : V)⟩ : Block V)
            ∈ st.mem.getD (2 ^ h + ((invPerm π).getD a 0) / 2) []
        ∧ st.posMap.getD a 0 = 2 ^ h + ((invPerm π).getD a 0) / 2) ∧
      (∀ L, 2 ^ h ≤ L → L < 2 ^ (h + 1) →
        st.mem.getD L [] = initLeafBucket Z (2 ^ h) π (L - 2 ^ h)
        ∧ realCount (st.mem.getD L []) = 2
        ∧ ∀ b ∈ (st.mem.getD L []).drop 2, b = (Block.dummy : Block V)) ∧
      (∀ j, j < 2 ^ h → st.mem.getD j [] = List.replicate Z (Block.dummy : Block V)) := by
  have hdC : depthOf C = h + 1 := by rw [hC]; exact depthOf_pow (h + 1)
  have hd1 : depthOf C - 1 = h := by omega
  have hCsum : C = 2 ^ h + 2 ^ h := by
    rw [hC, pow_succ, Nat.mul_two]
  have hFL : 1 ≤ 2 ^ h := Nat.one_le_two_pow
  have hπlen : π.length = C := by rw [hπ.length_eq, List.length_range]
  have h2C : 2 ≤ C := by
    rw [hC]
    calc (2 : Nat) = 2 ^ 1 := by omega
    _ ≤ 2 ^ (h + 1) := Nat.pow_le_pow_right (by omega) (by omega)
  refine ⟨_, new_ok V Z AB C π ⟨h + 1, hC⟩ h2C, ?_, ?_, ?_, ?_, ?_⟩
  · exact hd1
  · intro a ha
    simp only [hd1]
    rw [initMem_realCountAddr V hFL hCsum hπlen a]
    exact perm_count_eq_one hπ ha
  · intro a ha
    simp only [hd1]
    rw [invPerm_getD (by omega : a < π.length)]
    constructor
    · exact initMem_block_mem V hFL hCsum hπ ha
    · rw [initPosMap_getD hAB ha π hπlen, invPerm_getD (by omega : a < π.length)]
  · intro L hL1 hL2
    simp only [hd1]
    have hgot : (initMem Z V (2 ^ h) C π).getD L []
        = initLeafBucket Z (2 ^ h) π (L - 2 ^ h) := by
      apply initMem_getD_leaf Z V π hCsum hL1
      omega
    refine ⟨hgot, ?_, ?_⟩
    · rw [hgot]
      exact realCount_initLeafBucket V hFL π _
    · rw [hgot]
      unfold initLeafBucket
      intro b hb
      simp only [List.drop_succ_cons, List.drop_zero] at hb
      exact List.eq_of_mem_replicate hb
  · intro j hj
    simp only [hd1]
    exact initMem_getD_nonleaf Z V π hCsum hj []

/-- Witness for the initialization theorem at C = 4, Z = 4, AB = 4,
h = 1, and the permutation (2, 0, 3, 1). -/
theorem new_initial_state_witness :
    (4 = 2 ^ (1 + 1) ∧ 2 ≤ 4 ∧ 1 ≤ 4 ∧ ([2, 0, 3, 1] : List Nat).Perm (List.range 4))
    ∧ ∃ st, PathOram.new 4 4 Nat 4 [2, 0, 3, 1] = .ok st ∧ st.height = 1 ∧
      (∀ a, a < 4 → realCountAddr a (allBlocks st.mem) = 1) ∧
      (∀ a, a < 4 →
        (⟨a, 2 ^ 1 + ((invPerm [2, 0, 3, 1]).getD a 0) / 2, (default : Nat)⟩ : Block Nat)
            ∈ st.mem.getD (2 ^ 1 + ((invPerm [2, 0, 3, 1]).getD a 0) / 2) []
        ∧ st.posMap.getD a 0 = 2 ^ 1 + ((invPerm [2, 0, 3, 1]).getD a 0) / 2) ∧
      (∀ L, 2 ^ 1 ≤ L → L < 2 ^ (1 + 1) →
        st.mem.getD L [] = initLeafBucket 4 (2 ^ 1) [2, 0, 3, 1] (L - 2 ^ 1)
        ∧ realCount (st.mem.getD L []) = 2
        ∧ ∀ b ∈ (st.mem.getD L []).drop 2, b = (Block.dummy : Block Nat)) ∧
      (∀ j, j < 2 ^ 1 → st.mem.getD j [] = List.replicate 4 (Block.dummy : Block Nat)) :=
  ⟨⟨by decide, by decide, by decide, by decide⟩,
    new_initial_state Nat 4 4 4 1 [2, 0, 3, 1] (by decide) (by decide) (by decide)
      (by decide)⟩




/-! ## The latching level scans as first-fit searches -/

theorem assignStep_latched (Z h posTarget bpos : Nat) (k level : Nat) (cts : List Nat) :
    assignStep Z h posTarget bpos (k, cts, true) level = (k, cts, true) := by
  simp [assignStep]

theorem foldl_assignStep_latched (Z h posTarget bpos : Nat) :
    ∀ (ls : List Nat) (k : Nat) (cts : List Nat),
      ls.foldl (assignStep Z h posTarget bpos) (k, cts, true) = (k, cts, true) := by
  intro ls
  induction ls with
  | nil => intro k cts; rfl
  | cons l ls ih =>
    intro k cts
    rw [List.foldl_cons, assignStep_latched, ih]

theorem foldl_assignStep_eq_find (Z h posTarget bpos : Nat) :
    ∀ (ls : List Nat) (counts : List Nat) (key : Nat),
      ls.foldl (assignStep Z h posTarget bpos) (key, counts, false)
      = match ls.find? (fun d => (nodeOnPath bpos d h == nodeOnPath posTarget d h)
          && !(counts.getD d 0 == Z)) with
        | some d => (d, counts.set d (counts.getD d 0 + 1), true)
        | none => (key, counts, false) := by
  intro ls
  induction ls with
  | nil => intro counts key; rfl
  | cons l ls ih =>
    intro counts key
    by_cases hcond : ((nodeOnPath bpos l h == nodeOnPath posTarget l h)
        && !(counts.getD l 0 == Z)) = true
    · have hcond' : ((fun d => (nodeOnPath bpos d h == nodeOnPath posTarget d h)
          && !(counts.getD d 0 == Z)) l) = true := hcond
      rw [List.find?_cons_of_pos ls hcond', List.foldl_cons]
      have hstep : assignStep Z h posTarget bpos (key, counts, false) l
          = (l, counts.set l (counts.getD l 0 + 1), true) := by
        unfold assignStep
        simp only [Bool.not_false, Bool.and_true]
        rw [if_pos hcond]
      rw [hstep, foldl_assignStep_latched]
    · have hcond' : ¬ ((fun d => (nodeOnPath bpos d h == nodeOnPath posTarget d h)
          && !(counts.getD d 0 == Z)) l) = true := hcond
      rw [List.find?_cons_of_neg ls hcond', List.foldl_cons]
      have hstep : assignStep Z h posTarget bpos (key, counts, false) l
          = (key, counts, false) := by
        unfold assignStep
        simp only [Bool.not_false, Bool.and_true]
        rw [if_neg hcond]
      rw [hstep, ih]

theorem assignRealScan_eq_deepestFit (Z h posTarget bpos : Nat) (counts : List Nat) :
    assignRealScan Z h posTarget bpos counts =
      match deepestFit Z h posTarget bpos counts with
      | some d => (d, counts.set d (counts.getD d 0 + 1))
      | none => (overflowKey, counts) := by
  unfold assignRealScan deepestFit
  rw [foldl_assignStep_eq_find Z h posTarget bpos ((List.range (h + 1)).reverse)
    counts unassignedKey]
  cases hfind : ((List.range (h + 1)).reverse).find?
      (fun d => (nodeOnPath bpos d h == nodeOnPath posTarget d h)
        && !(counts.getD d 0 == Z)) with
  | none => simp
  | some d => simp

theorem fillStep_latched (Z : Nat) (k level : Nat) (cts : List Nat) :
    fillStep Z (some k, cts) level = (some k, cts) := by
  simp [fillStep]

theorem foldl_fillStep_latched (Z : Nat) :
    ∀ (ls : List Nat) (k : Nat) (cts : List Nat),
      ls.foldl (fillStep Z) (some k, cts) = (some k, cts) := by
  intro ls
  induction ls with
  | nil => intro k cts; rfl
  | cons l ls ih => intro k cts; rw [List.foldl_cons, fillStep_latched, ih]

theorem foldl_fillStep_eq_find (Z : Nat) :
    ∀ (ls : List Nat) (counts : List Nat),
      ls.foldl (fillStep Z) (none, counts)
      = match ls.find? (fun l => !(counts.getD l 0 == Z)) with
        | some l => (some l, counts.set l (counts.getD l 0 + 1))
        | none => (none, counts) := by
  intro ls
  induction ls with
  | nil => intro counts; rfl
  | cons l ls ih =>
    intro counts
    by_cases hcond : (!(counts.getD l 0 == Z)) = true
    · have hcond' : ((fun l => !(counts.getD l 0 == Z)) l) = true := hcond
      rw [List.find?_cons_of_pos ls hcond', List.foldl_cons]
      have hstep : fillStep Z (none, counts) l
          = (some l, counts.set l (counts.getD l 0 + 1)) := by
        unfold fillStep
        simp only [Option.isSome_none, Bool.false_eq_true, if_false]
        rw [if_neg (by simpa using hcond)]
      rw [hstep, foldl_fillStep_latched]
    · have hcond' : ¬ ((fun l => !(counts.getD l 0 == Z)) l) = true := hcond
      rw [List.find?_cons_of_neg ls hcond', List.foldl_cons]
      have hstep : fillStep Z (none, counts) l = (none, counts) := by
        unfold fillStep
        simp only [Option.isSome_none, Bool.false_eq_true, if_false]
        rw [if_pos (by simpa using hcond)]
      rw [hstep, ih]

theorem fillScan_eq_find (Z : Nat) (counts : List Nat) :
    fillScan Z counts
      = match (List.range counts.length).find? (fun l => !(counts.getD l 0 == Z)) with
        | some l => (some l, counts.set l (counts.getD l 0 + 1))
        | none => (none, counts) :=
  foldl_fillStep_eq_find Z (List.range counts.length) counts




theorem assignPass_eq_spec (Z h posTarget : Nat) :
    ∀ (blocks : List (Block V)) (counts : List Nat),
      assignPass Z h posTarget blocks counts
        = assignPassSpec Z h posTarget blocks counts := by
  intro blocks
  induction blocks with
  | nil => intro counts; rfl
  | cons b bs ih =>
    intro counts
    by_cases hd : b.isDummy = true
    · simp only [assignPass, assignPassSpec, hd, if_pos, ih]
    · simp only [assignPass, assignPassSpec, hd, if_neg,
        assignRealScan_eq_deepestFit, Bool.false_eq_true]
      cases hfit : deepestFit Z h posTarget b.position counts with
      | some d => simp [ih]
      | none => simp [ih]

theorem find?_reverse_range_eq_some {p : Nat → Bool} :
    ∀ {n d : Nat},
      (((List.range n).reverse).find? p = some d
        ↔ (d < n ∧ p d = true ∧ ∀ d', d < d' → d' < n → p d' = false)) := by
  intro n
  induction n with
  | zero => intro d; simp
  | succ n ih =>
    intro d
    have hrev : (List.range (n + 1)).reverse = n :: (List.range n).reverse := by
      rw [List.range_succ, List.reverse_append]
      rfl
    rw [hrev]
    by_cases hp : p n = true
    · have hfind : (n :: (List.range n).reverse).find? p = some n :=
        List.find?_cons_of_pos _ hp
      rw [hfind]
      constructor
      · intro hsome
        have hd : d = n := by
          cases hsome
          rfl
        subst hd
        exact ⟨by omega, hp, fun d' h1 h2 => by omega⟩
      · rintro ⟨h1, h2, h3⟩
        by_cases hdn : d = n
        · rw [hdn]
        · have hlt : d < n := by omega
          have := h3 n hlt (by omega)
          rw [hp] at this
          cases this
    · have hfind : (n :: (List.range n).reverse).find? p
          = ((List.range n).reverse).find? p := by
        apply List.find?_cons_of_neg
        simp [hp]
      rw [hfind, ih]
      constructor
      · rintro ⟨h1, h2, h3⟩
        refine ⟨by omega, h2, fun d' hd1 hd2 => ?_⟩
        by_cases hdn : d' = n
        · subst hdn
          simpa using hp
        · exact h3 d' hd1 (by omega)
      · rintro ⟨h1, h2, h3⟩
        have hdn : d ≠ n := by
          intro hc
          subst hc
          rw [h2] at hp
          exact hp rfl
        refine ⟨by omega, h2, fun d' hd1 hd2 => h3 d' hd1 (by omega)⟩

/-- C8: the first assignment pass of write_to_path equals the pass the
claim describes: slots are processed in index order; every dummy keeps
the unassigned sentinel TreeIndex::MAX and leaves the counters untouched;
a real block is assigned to the deepest level d (scanned from h down to
0) whose level-d node on the eviction path equals the level-d ancestor of
the block's position and whose running occupancy counter differs from Z
(hence is below Z), incrementing that counter; and a real block with no
such level receives the overflow sentinel TreeIndex::MAX - 1. -/
theorem first_assignment_pass_spec (V : Type) [Inhabited V] (Z h posTarget : Nat) :
    (∀ (blocks : List (Block V)) (counts : List Nat),
      assignPass Z h posTarget blocks counts
        = assignPassSpec Z h posTarget blocks counts)
    ∧ (∀ (bpos : Nat) (counts : List Nat) (d : Nat),
        deepestFit Z h posTarget bpos counts = some d ↔
          (d ≤ h
            ∧ nodeOnPath bpos d h = nodeOnPath posTarget d h
            ∧ counts.getD d 0 ≠ Z
            ∧ ∀ d', d < d' → d' ≤ h →
                ¬(nodeOnPath bpos d' h = nodeOnPath posTarget d' h
                  ∧ counts.getD d' 0 ≠ Z)))
    ∧ unassignedKey = 2 ^ 64 - 1 ∧ overflowKey = 2 ^ 64 - 2 := by
  refine ⟨assignPass_eq_spec Z h posTarget, ?_, rfl, rfl⟩
  intro bpos counts d
  unfold deepestFit
  rw [find?_reverse_range_eq_some]
  constructor
  · rintro ⟨h1, h2, h3⟩
    rw [Bool.and_eq_true, beq_iff_eq, Bool.not_eq_true', beq_eq_false_iff_ne] at h2
    refine ⟨by omega, h2.1, h2.2, fun d' hd1 hd2 => ?_⟩
    rintro ⟨hc1, hc2⟩
    have := h3 d' hd1 (by omega)
    rw [Bool.and_eq_false_iff] at this
    rcases this with hx | hx
    · rw [beq_eq_false_iff_ne] at hx
      exact hx hc1
    · rw [Bool.not_eq_false', beq_iff_eq] at hx
      exact hc2 hx
  · rintro ⟨h1, h2, h3, h4⟩
    refine ⟨by omega, ?_, fun d' hd1 hd2 => ?_⟩
    · rw [Bool.and_eq_true, beq_iff_eq, Bool.not_eq_true', beq_eq_false_iff_ne]
      exact ⟨h2, h3⟩
    · have := h4 d' hd1 (by omega)
      rw [Bool.and_eq_false_iff]
      by_cases hc1 : nodeOnPath bpos d' h = nodeOnPath posTarget d' h
      · right
        rw [Bool.not_eq_false', beq_iff_eq]
        by_contra hc2
        exact this ⟨hc1, fun he => hc2 (by rw [he])⟩
      · left
        rw [beq_eq_false_iff_ne]
        exact hc1




/-! ## Deficit bookkeeping for the dummy-fill loop -/

theorem getD_mem_or_default {α : Type} (l : List α) (i : Nat) (d : α) :
    l.getD i d ∈ l ∨ l.getD i d = d := by
  by_cases h : i < l.length
  · left
    rw [List.getD_eq_getElem l d h]
    exact l.getElem_mem h
  · right
    rw [List.getD_eq_default l d (by omega)]

theorem mem_iff_getD {α : Type} {l : List α} {b : α} (d : α) :
    b ∈ l → ∃ i, i < l.length ∧ l.getD i d = b := by
  intro hb
  obtain ⟨i, hi, hbi⟩ := List.mem_iff_getElem.mp hb
  exact ⟨i, hi, by rw [List.getD_eq_getElem l d hi]; exact hbi⟩

theorem sum_map_set (f : Nat → Nat) :
    ∀ (l : List Nat) (i v : Nat), i < l.length →
      ((l.set i v).map f).sum + f (l.getD i 0) = (l.map f).sum + f v := by
  intro l
  induction l with
  | nil => intro i v h; simp at h
  | cons c l ih =>
    intro i v h
    cases i with
    | zero => simp [List.getD]; omega
    | succ i =>
      have h' : i < l.length := by simpa using h
      have := ih i v h'
      simp only [List.set_cons_succ, List.map_cons, List.sum_cons]
      have hgd : (c :: l).getD (i + 1) 0 = l.getD i 0 := rfl
      rw [hgd]
      omega

theorem deficit_set_succ {Z : Nat} {counts : List Nat} {i : Nat}
    (hi : i < counts.length) (hlt : counts.getD i 0 < Z) :
    deficit Z (counts.set i (counts.getD i 0 + 1)) + 1 = deficit Z counts := by
  unfold deficit
  have h := sum_map_set (fun c => Z - c) counts i (counts.getD i 0 + 1) hi
  simp only at h
  omega

theorem deficit_zero_of_full {Z : Nat} {counts : List Nat}
    (h : ∀ c ∈ counts, c = Z) : deficit Z counts = 0 := by
  unfold deficit
  induction counts with
  | nil => rfl
  | cons c l ih =>
    simp only [List.map_cons, List.sum_cons]
    have hc := h c (by simp)
    have hl := ih (fun c hc => h c (by simp [hc]))
    omega

theorem full_of_deficit_zero {Z : Nat} {counts : List Nat}
    (hb : ∀ c ∈ counts, c ≤ Z) (h : deficit Z counts = 0) :
    ∀ c ∈ counts, c = Z := by
  unfold deficit at h
  induction counts with
  | nil => simp
  | cons c l ih =>
    simp only [List.map_cons, List.sum_cons] at h
    intro x hx
    rcases List.mem_cons.mp hx with hx | hx
    · have := hb c (by simp)
      omega
    · exact ih (fun y hy => hb y (by simp [hy])) (by omega) x hx

theorem fillScan_spec {Z : Nat} (counts : List Nat)
    (hb : ∀ c ∈ counts, c ≤ Z) :
    ((∀ c ∈ counts, c = Z) ∧ fillScan Z counts = (none, counts))
    ∨ (∃ l, l < counts.length ∧ counts.getD l 0 < Z
        ∧ fillScan Z counts = (some l, counts.set l (counts.getD l 0 + 1))) := by
  rw [fillScan_eq_find]
  cases hfind : (List.range counts.length).find? (fun l => !(counts.getD l 0 == Z)) with
  | none =>
    left
    refine ⟨?_, rfl⟩
    have hall := List.find?_eq_none.mp hfind
    intro c hc
    obtain ⟨i, hi, hgd⟩ := mem_iff_getD 0 hc
    have hthis := hall i (List.mem_range.mpr hi)
    rw [← hgd]
    simpa using hthis
  | some l =>
    right
    have hpl := List.find?_some hfind
    have hmem := List.mem_of_find?_eq_some hfind
    have hl : l < counts.length := List.mem_range.mp hmem
    have hne : counts.getD l 0 ≠ Z := by simpa using hpl
    have hle : counts.getD l 0 ≤ Z := by
      rcases getD_mem_or_default counts l 0 with hm | hm
      · exact hb _ hm
      · omega
    exact ⟨l, hl, by omega, rfl⟩




theorem counts_le_set {Z : Nat} {counts : List Nat} (hb : ∀ c ∈ counts, c ≤ Z)
    {l : Nat} (hl : counts.getD l 0 < Z) :
    ∀ c ∈ counts.set l (counts.getD l 0 + 1), c ≤ Z := by
  intro c hc
  rcases List.mem_or_eq_of_mem_set hc with h | h
  · exact hb c h
  · omega

theorem fillSweep_counts (Z : Nat) :
    ∀ (seg : List (Block V × Nat)) (cts : List Nat), (∀ c ∈ cts, c ≤ Z) →
      (∀ c ∈ (fillSweep Z seg cts).2, c ≤ Z)
      ∧ deficit Z (fillSweep Z seg cts).2 ≤ deficit Z cts
      ∧ (fillSweep Z seg cts).1.length = seg.length
      ∧ (fillSweep Z seg cts).1.map Prod.fst = seg.map Prod.fst := by
  intro seg
  induction seg with
  | nil => intro cts hb; exact ⟨hb, le_rfl, rfl, rfl⟩
  | cons p rest ih =>
    intro cts hb
    obtain ⟨b, k⟩ := p
    by_cases hd : b.isDummy = true
    · rcases fillScan_spec cts hb with ⟨hfull, heq⟩ | ⟨l, hl, hlt, heq⟩
      · simp only [fillSweep, hd, if_pos, heq]
        obtain ⟨ih1, ih2, ih3, ih4⟩ := ih cts hb
        exact ⟨ih1, ih2, by simpa using ih3, by simpa using ih4⟩
      · simp only [fillSweep, hd, if_pos, heq]
        have hb' := counts_le_set hb hlt
        obtain ⟨ih1, ih2, ih3, ih4⟩ := ih (cts.set l (cts.getD l 0 + 1)) hb'
        have hdef := deficit_set_succ hl hlt
        exact ⟨ih1, by omega, by simpa using ih3, by simpa using ih4⟩
    · simp only [fillSweep, hd, Bool.false_eq_true, if_neg]
      obtain ⟨ih1, ih2, ih3, ih4⟩ := ih cts hb
      exact ⟨ih1, ih2, by simpa using ih3, by simpa using ih4⟩

theorem fillSweep_progress (Z : Nat) :
    ∀ (seg : List (Block V × Nat)) (cts : List Nat), (∀ c ∈ cts, c ≤ Z) →
      (∃ p ∈ seg, p.1.isDummy = true) → 0 < deficit Z cts →
      deficit Z (fillSweep Z seg cts).2 < deficit Z cts := by
  intro seg
  induction seg with
  | nil =>
    intro cts _ hmem _
    obtain ⟨p, hp, _⟩ := hmem
    simp at hp
  | cons p rest ih =>
    intro cts hb hmem hdef
    obtain ⟨b, k⟩ := p
    by_cases hd : b.isDummy = true
    · rcases fillScan_spec cts hb with ⟨hfull, heq⟩ | ⟨l, hl, hlt, heq⟩
      · have := deficit_zero_of_full hfull
        omega
      · simp only [fillSweep, hd, if_pos, heq]
        have hb' := counts_le_set hb hlt
        have hdef2 := deficit_set_succ hl hlt
        have hrest := (fillSweep_counts Z rest (cts.set l (cts.getD l 0 + 1)) hb').2.1
        omega
    · simp only [fillSweep, hd, Bool.false_eq_true, if_neg]
      apply ih cts hb _ hdef
      obtain ⟨q, hq, hqd⟩ := hmem
      rcases List.mem_cons.mp hq with hq | hq
      · rw [hq] at hqd
        simp only at hqd
        exact absurd hqd hd
      · exact ⟨q, hq, hqd⟩

theorem seg_decomposition {α : Type} (first : Nat) (l : List α) :
    l.take first ++ ((l.drop first).dropLast
      ++ (l.drop first).drop ((l.drop first).dropLast).length) = l := by
  have h1 : ((l.drop first).dropLast).length = (l.drop first).length - 1 :=
    List.length_dropLast _
  rw [h1]
  have h2 : (l.drop first).dropLast = (l.drop first).take ((l.drop first).length - 1) :=
    List.dropLast_eq_take _
  rw [h2, List.take_append_drop, List.take_append_drop]

theorem fillRound_counts (Z first : Nat) (pairs : List (Block V × Nat))
    (cts : List Nat) (hb : ∀ c ∈ cts, c ≤ Z) :
    (∀ c ∈ (fillRound Z first pairs cts).2, c ≤ Z)
    ∧ deficit Z (fillRound Z first pairs cts).2 ≤ deficit Z cts
    ∧ (fillRound Z first pairs cts).1.length = pairs.length
    ∧ (fillRound Z first pairs cts).1.map Prod.fst = pairs.map Prod.fst := by
  unfold fillRound
  obtain ⟨h1, h2, h3, h4⟩ :=
    fillSweep_counts Z ((pairs.drop first).dropLast) cts hb
  refine ⟨h1, h2, ?_, ?_⟩
  · simp only [List.length_append, h3]
    have := List.length_dropLast (pairs.drop first)
    have := List.length_drop first pairs
    simp
    omega
  · simp only [List.map_append, h4]
    rw [← List.map_append, ← List.map_append, List.append_assoc]
    congr 1
    exact seg_decomposition first pairs

theorem fillRound_progress (Z first : Nat) (pairs : List (Block V × Nat))
    (cts : List Nat) (hb : ∀ c ∈ cts, c ≤ Z)
    (hmem : ∃ p ∈ (pairs.drop first).dropLast, p.1.isDummy = true)
    (hdef : 0 < deficit Z cts) :
    deficit Z (fillRound Z first pairs cts).2 < deficit Z cts := by
  unfold fillRound
  exact fillSweep_progress Z _ cts hb hmem hdef




theorem growth_segment_has_dummy [Inhabited V] (pairs : List (Block V × Nat)) :
    ∃ p ∈ (((pairs ++ List.replicate stashGrowthIncrement
          ((Block.dummy : Block V), unassignedKey)).drop (pairs.length - 1)).dropLast),
      p.1.isDummy = true := by
  refine ⟨((Block.dummy : Block V), unassignedKey), ?_, by simp [Block.isDummy, Block.dummy]⟩
  have hrepl : List.replicate stashGrowthIncrement
      ((Block.dummy : Block V), unassignedKey)
      = List.replicate 9 ((Block.dummy : Block V), unassignedKey)
        ++ [((Block.dummy : Block V), unassignedKey)] :=
    List.replicate_succ' 9 _
  rw [hrepl, List.drop_append_eq_append_drop]
  have h9 : (List.replicate 9 ((Block.dummy : Block V), unassignedKey)
      ++ [((Block.dummy : Block V), unassignedKey)]).drop
        (pairs.length - 1 - pairs.length) = List.replicate 9 ((Block.dummy : Block V), unassignedKey)
      ++ [((Block.dummy : Block V), unassignedKey)] := by
    have : pairs.length - 1 - pairs.length = 0 := by omega
    rw [this, List.drop_zero]
  rw [h9, ← List.append_assoc, List.dropLast_concat]
  apply List.mem_append_right
  exact List.mem_replicate.mpr ⟨by omega, rfl⟩

theorem fillLoop_full_aux [Inhabited V] (Z : Nat) :
    ∀ (fuel : Nat) (first : Nat) (pairs : List (Block V × Nat)) (cts : List Nat),
      (∀ c ∈ cts, c ≤ Z) → deficit Z cts ≤ fuel →
      (∃ p ∈ (pairs.drop first).dropLast, p.1.isDummy = true) →
      ∀ c ∈ (fillLoop Z fuel first pairs cts).2, c = Z := by
  intro fuel
  induction fuel with
  | zero =>
    intro first pairs cts hb hdef _
    have h0 : deficit Z cts = 0 := by omega
    exact fun c hc => full_of_deficit_zero hb h0 c (by simpa [fillLoop] using hc)
  | succ n ih =>
    intro first pairs cts hb hdef hseg
    simp only [fillLoop]
    rcases hr : fillRound Z first pairs cts with ⟨pairs', cts'⟩
    simp only []
    have hb2 : ∀ c ∈ cts', c ≤ Z := by
      have hq := (fillRound_counts Z first pairs cts hb).1
      rw [hr] at hq
      exact hq
    have hdef2 : deficit Z cts' ≤ deficit Z cts := by
      have hq := (fillRound_counts Z first pairs cts hb).2.1
      rw [hr] at hq
      exact hq
    by_cases hfull : (cts'.all (fun c => c == Z)) = true
    · rw [if_pos hfull]
      intro c hc
      have := List.all_eq_true.mp hfull c hc
      simpa using this
    · rw [if_neg hfull]
      apply ih
      · exact hb2
      · have hpos : 0 < deficit Z cts := by
          by_contra hz
          have h0 : deficit Z cts' = 0 := by omega
          have hfc := full_of_deficit_zero hb2 h0
          apply hfull
          exact List.all_eq_true.mpr (fun c hc => by simp [hfc c hc])
        have hstrict := fillRound_progress Z first pairs cts hb hseg hpos
        rw [hr] at hstrict
        have hstrict2 : deficit Z cts' < deficit Z cts := hstrict
        omega
      · exact growth_segment_has_dummy pairs'

theorem fillLoop_counts_full [Inhabited V] (Z : Nat) (fuel first : Nat)
    (pairs : List (Block V × Nat)) (cts : List Nat)
    (hb : ∀ c ∈ cts, c ≤ Z) (hdef : deficit Z cts < fuel) :
    ∀ c ∈ (fillLoop Z fuel first pairs cts).2, c = Z := by
  cases fuel with
  | zero => omega
  | succ n =>
    simp only [fillLoop]
    rcases hr : fillRound Z first pairs cts with ⟨pairs', cts'⟩
    simp only []
    have hb2 : ∀ c ∈ cts', c ≤ Z := by
      have hq := (fillRound_counts Z first pairs cts hb).1
      rw [hr] at hq
      exact hq
    have hdef2 : deficit Z cts' ≤ deficit Z cts := by
      have hq := (fillRound_counts Z first pairs cts hb).2.1
      rw [hr] at hq
      exact hq
    by_cases hfull : (cts'.all (fun c => c == Z)) = true
    · rw [if_pos hfull]
      intro c hc
      have := List.all_eq_true.mp hfull c hc
      simpa using this
    · rw [if_neg hfull]
      apply fillLoop_full_aux Z n _ _ _ hb2
      · omega
      · exact growth_segment_has_dummy pairs'




/-! ## Counter and key bookkeeping of the first assignment pass -/

theorem deepestFit_le {Z h posTarget bpos : Nat} {counts : List Nat} {d : Nat}
    (hfit : deepestFit Z h posTarget bpos counts = some d) : d ≤ h := by
  unfold deepestFit at hfit
  have hm := List.mem_of_find?_eq_some hfit
  rw [List.mem_reverse, List.mem_range] at hm
  omega

theorem deepestFit_props {Z h posTarget bpos : Nat} {counts : List Nat} {d : Nat}
    (hfit : deepestFit Z h posTarget bpos counts = some d) :
    counts.getD d 0 ≠ Z ∧ nodeOnPath bpos d h = nodeOnPath posTarget d h := by
  unfold deepestFit at hfit
  have hp := List.find?_some hfit
  rw [Bool.and_eq_true, beq_iff_eq, Bool.not_eq_true', beq_eq_false_iff_ne] at hp
  exact ⟨hp.2, hp.1⟩

theorem getD_le_of_all_le {Z : Nat} {counts : List Nat}
    (hb : ∀ c ∈ counts, c ≤ Z) (i : Nat) : counts.getD i 0 ≤ Z := by
  rcases getD_mem_or_default counts i 0 with hm | hm
  · exact hb _ hm
  · omega

theorem assignRealScan_counts (Z h posTarget bpos : Nat) (counts : List Nat)
    (hb : ∀ c ∈ counts, c ≤ Z) :
    (∀ c ∈ (assignRealScan Z h posTarget bpos counts).2, c ≤ Z)
    ∧ (assignRealScan Z h posTarget bpos counts).2.length = counts.length := by
  rw [assignRealScan_eq_deepestFit]
  cases hfit : deepestFit Z h posTarget bpos counts with
  | none => exact ⟨hb, rfl⟩
  | some d =>
    have hne := (deepestFit_props hfit).1
    have hle := getD_le_of_all_le hb d
    exact ⟨counts_le_set hb (by omega), by simp⟩

theorem assignRealScan_getD (Z h posTarget bpos : Nat) (counts : List Nat)
    {d : Nat} (hd : d < counts.length) (hdo : d ≠ overflowKey) :
    (assignRealScan Z h posTarget bpos counts).2.getD d 0
      = counts.getD d 0
        + (if (assignRealScan Z h posTarget bpos counts).1 = d then 1 else 0) := by
  rw [assignRealScan_eq_deepestFit]
  cases hfit : deepestFit Z h posTarget bpos counts with
  | none =>
    simp only
    rw [if_neg (by omega : ¬ overflowKey = d)]
    omega
  | some l =>
    simp only
    by_cases hld : l = d
    · subst hld
      rw [getD_set_self _ _ _ _ hd, if_pos rfl]
    · rw [getD_set_other _ hld, if_neg hld]
      omega

theorem assignPass_bundle (Z h posTarget : Nat) :
    ∀ (blocks : List (Block V)) (counts : List Nat), (∀ c ∈ counts, c ≤ Z) →
      (∀ c ∈ (assignPass Z h posTarget blocks counts).2, c ≤ Z)
      ∧ (assignPass Z h posTarget blocks counts).2.length = counts.length
      ∧ (assignPass Z h posTarget blocks counts).1.length = blocks.length
      ∧ (∀ d, d < counts.length → d ≠ overflowKey → d ≠ unassignedKey →
          (assignPass Z h posTarget blocks counts).2.getD d 0
            = counts.getD d 0
              + (assignPass Z h posTarget blocks counts).1.countP (fun k => k == d)) := by
  intro blocks
  induction blocks with
  | nil =>
    intro counts hb
    exact ⟨hb, rfl, rfl, fun d _ _ _ => by simp [assignPass]⟩
  | cons b bs ih =>
    intro counts hb
    by_cases hdum : b.isDummy = true
    · simp only [assignPass, hdum, if_pos]
      obtain ⟨ih1, ih2, ih3, ih4⟩ := ih counts hb
      refine ⟨ih1, ih2, by simpa using ih3, ?_⟩
      intro d hd hdo hdu
      rw [List.countP_cons]
      have hkd : ((unassignedKey == d) : Bool) = false := by
        simp only [beq_eq_false_iff_ne]
        omega
      rw [hkd]
      simp only [if_neg Bool.false_ne_true, Nat.add_zero]
      exact ih4 d hd hdo hdu
    · simp only [assignPass, hdum, Bool.false_eq_true, if_false]
      rcases hr : assignRealScan Z h posTarget b.position counts with ⟨k, cts₁⟩
      dsimp only
      obtain ⟨hb1, hlen1⟩ := assignRealScan_counts Z h posTarget b.position counts hb
      rw [hr] at hb1 hlen1
      simp only at hb1 hlen1
      obtain ⟨ih1, ih2, ih3, ih4⟩ := ih cts₁ hb1
      refine ⟨ih1, by omega, by simpa using ih3, ?_⟩
      intro d hd hdo hdu
      rw [List.countP_cons]
      have hrg := assignRealScan_getD Z h posTarget b.position counts hd hdo
      rw [hr] at hrg
      simp only at hrg
      have hih := ih4 d (by omega) hdo hdu
      by_cases hkd : k = d
      · subst hkd
        rw [hih, hrg]
        simp only [beq_self_eq_true, if_pos rfl]
        omega
      · rw [hih, hrg]
        have : ((k == d) : Bool) = false := by
          simp only [beq_eq_false_iff_ne]
          exact hkd
        rw [this]
        simp only [if_neg Bool.false_ne_true, if_neg hkd]
        omega

theorem assignRealScan_fst_none {Z h posTarget bpos : Nat} {counts : List Nat}
    (hfit : deepestFit Z h posTarget bpos counts = none) :
    (assignRealScan Z h posTarget bpos counts).1 = overflowKey := by
  rw [assignRealScan_eq_deepestFit, hfit]

theorem assignRealScan_fst_some {Z h posTarget bpos : Nat} {counts : List Nat}
    {l : Nat} (hfit : deepestFit Z h posTarget bpos counts = some l) :
    (assignRealScan Z h posTarget bpos counts).1 = l := by
  rw [assignRealScan_eq_deepestFit, hfit]

theorem assignPass_keys (Z h posTarget : Nat) (hh : h < overflowKey) :
    ∀ (blocks : List (Block V)) (counts : List Nat),
      ∀ p ∈ blocks.zip (assignPass Z h posTarget blocks counts).1,
        (p.1.isDummy = true → p.2 = unassignedKey)
        ∧ (p.1.isDummy = false →
            p.2 = overflowKey
            ∨ (p.2 ≤ h ∧ nodeOnPath p.1.position p.2 h = nodeOnPath posTarget p.2 h))
        ∧ (p.2 = unassignedKey → p.1.isDummy = true) := by
  intro blocks
  induction blocks with
  | nil => intro counts p hp; simp [assignPass] at hp
  | cons b bs ih =>
    intro counts p hp
    by_cases hdum : b.isDummy = true
    · simp only [assignPass, hdum, if_pos, List.zip_cons_cons] at hp
      rcases List.mem_cons.mp hp with hpe | hpe
      · rw [hpe]
        refine ⟨fun _ => rfl, ?_, fun _ => hdum⟩
        intro hc
        exact absurd hdum (by simp [hc])
      · exact ih counts p hpe
    · simp only [assignPass, hdum, Bool.false_eq_true, if_false, List.zip_cons_cons] at hp
      rcases List.mem_cons.mp hp with hpe | hpe
      · rw [hpe]
        refine ⟨fun hc => absurd hc hdum, fun _ => ?_, fun hku => ?_⟩
        · cases hfit : deepestFit Z h posTarget b.position counts with
          | none =>
            left
            exact assignRealScan_fst_none hfit
          | some l =>
            right
            have hfst := assignRealScan_fst_some hfit
            dsimp only
            rw [hfst]
            exact ⟨deepestFit_le hfit, (deepestFit_props hfit).2⟩
        · exfalso
          cases hfit : deepestFit Z h posTarget b.position counts with
          | none =>
            have hfst := assignRealScan_fst_none hfit
            dsimp only at hku
            rw [hfst] at hku
            unfold overflowKey unassignedKey at hku
            omega
          | some l =>
            have hfst := assignRealScan_fst_some hfit
            dsimp only at hku
            rw [hfst] at hku
            have hle := deepestFit_le hfit
            have hlt : overflowKey < unassignedKey := by decide
            omega
      · exact ih _ p hpe




/-! ## Key bookkeeping of the dummy-fill sweep -/

theorem fillScan_some_lt {Z : Nat} {cts : List Nat} {l : Nat} {cts' : List Nat}
    (h : fillScan Z cts = (some l, cts')) :
    l < cts.length ∧ cts' = cts.set l (cts.getD l 0 + 1) := by
  rw [fillScan_eq_find] at h
  cases hfind : (List.range cts.length).find? (fun l => !(cts.getD l 0 == Z)) with
  | none =>
    rw [hfind] at h
    cases h
  | some l₀ =>
    rw [hfind] at h
    have hmem := List.mem_of_find?_eq_some hfind
    rw [List.mem_range] at hmem
    obtain ⟨h1, h2⟩ := Prod.mk.injEq .. ▸ h
    cases h1
    exact ⟨hmem, h2.symm ▸ rfl⟩

theorem fillScan_none_eq {Z : Nat} {cts cts' : List Nat}
    (h : fillScan Z cts = (none, cts')) : cts' = cts := by
  rw [fillScan_eq_find] at h
  cases hfind : (List.range cts.length).find? (fun l => !(cts.getD l 0 == Z)) with
  | none =>
    rw [hfind] at h
    cases h
    rfl
  | some l₀ =>
    rw [hfind] at h
    cases h

theorem fillSweep_cons_dummy_some {Z : Nat} {b : Block V} {k : Nat}
    {rest : List (Block V × Nat)} {cts cts' : List Nat} {l : Nat}
    (hdum : b.isDummy = true) (hscan : fillScan Z cts = (some l, cts')) :
    fillSweep Z ((b, k) :: rest) cts
      = ((b, l) :: (fillSweep Z rest cts').1, (fillSweep Z rest cts').2) := by
  simp only [fillSweep, hdum, if_pos, hscan]

theorem fillSweep_cons_dummy_none {Z : Nat} {b : Block V} {k : Nat}
    {rest : List (Block V × Nat)} {cts cts' : List Nat}
    (hdum : b.isDummy = true) (hscan : fillScan Z cts = (none, cts')) :
    fillSweep Z ((b, k) :: rest) cts
      = ((b, k) :: (fillSweep Z rest cts').1, (fillSweep Z rest cts').2) := by
  simp only [fillSweep, hdum, if_pos, hscan]

theorem fillSweep_cons_real {Z : Nat} {b : Block V} {k : Nat}
    {rest : List (Block V × Nat)} {cts : List Nat}
    (hdum : b.isDummy = false) :
    fillSweep Z ((b, k) :: rest) cts
      = ((b, k) :: (fillSweep Z rest cts).1, (fillSweep Z rest cts).2) := by
  simp only [fillSweep, hdum, Bool.false_eq_true, if_false]




theorem fillScan_counts_length (Z : Nat) (cts : List Nat) :
    (fillScan Z cts).2.length = cts.length := by
  rcases hscan : fillScan Z cts with ⟨o, cts'⟩
  cases o with
  | some l =>
    obtain ⟨_, hceq⟩ := fillScan_some_lt hscan
    rw [hceq]
    simp
  | none =>
    rw [fillScan_none_eq hscan]

theorem fillSweep_counts_length (Z : Nat) :
    ∀ (seg : List (Block V × Nat)) (cts : List Nat),
      (fillSweep Z seg cts).2.length = cts.length := by
  intro seg
  induction seg with
  | nil => intro cts; rfl
  | cons p rest ih =>
    intro cts
    obtain ⟨b, k⟩ := p
    by_cases hdum : b.isDummy = true
    · rcases hscan : fillScan Z cts with ⟨o, cts'⟩
      have hl : cts'.length = cts.length := by
        have hq := fillScan_counts_length Z cts
        rw [hscan] at hq
        exact hq
      cases o with
      | some l => rw [fillSweep_cons_dummy_some hdum hscan]; rw [ih]; exact hl
      | none => rw [fillSweep_cons_dummy_none hdum hscan]; rw [ih]; exact hl
    · rw [fillSweep_cons_real (by simpa using hdum)]
      exact ih cts

theorem fillSweep_keyCount (Z : Nat) :
    ∀ (seg : List (Block V × Nat)) (cts : List Nat),
      (∀ p ∈ seg, p.1.isDummy = true → p.2 = unassignedKey) →
      ∀ d, d < unassignedKey →
      (fillSweep Z seg cts).1.countP (fun p => p.2 == d) + cts.getD d 0
        = seg.countP (fun p => p.2 == d) + (fillSweep Z seg cts).2.getD d 0 := by
  intro seg
  induction seg with
  | nil => intro cts _ d _; rfl
  | cons p rest ih =>
    intro cts hseg d hd
    obtain ⟨b, k⟩ := p
    by_cases hdum : b.isDummy = true
    · have hk : k = unassignedKey := hseg (b, k) (by simp) hdum
      subst hk
      have hne : ((unassignedKey == d) : Bool) = false := by
        simp only [beq_eq_false_iff_ne]
        omega
      rcases hscan : fillScan Z cts with ⟨o, cts'⟩
      cases o with
      | none =>
        have hceq := fillScan_none_eq hscan
        rw [fillSweep_cons_dummy_none hdum hscan]
        simp only [List.countP_cons, hne, if_neg Bool.false_ne_true, Nat.add_zero]
        rw [hceq]
        exact ih cts (fun q hq => hseg q (by simp [hq])) d hd
      | some l =>
        obtain ⟨hl, hceq⟩ := fillScan_some_lt hscan
        rw [fillSweep_cons_dummy_some hdum hscan]
        simp only [List.countP_cons, hne, if_neg Bool.false_ne_true, Nat.add_zero]
        have hih := ih cts' (fun q hq => hseg q (by simp [hq])) d hd
        by_cases hld : l = d
        · subst hld
          have hgd : cts'.getD l 0 = cts.getD l 0 + 1 := by
            rw [hceq]
            exact getD_set_self _ _ _ _ hl
          have hcp : ((l == l) : Bool) = true := beq_self_eq_true l
          rw [hcp]
          simp only [if_true]
          omega
        · have hgd : cts'.getD d 0 = cts.getD d 0 := by
            rw [hceq]
            exact getD_set_other _ hld _ _
          have hlne : ((l == d) : Bool) = false := by
            simp only [beq_eq_false_iff_ne]
            exact hld
          rw [hlne]
          simp only [if_neg Bool.false_ne_true, Nat.add_zero]
          omega
    · have hdum' : b.isDummy = false := by simpa using hdum
      rw [fillSweep_cons_real hdum']
      simp only [List.countP_cons]
      have hih := ih cts (fun q hq => hseg q (by simp [hq])) d hd
      omega

theorem fillSweep_goodKeys (Z h posTarget : Nat) :
    ∀ (seg : List (Block V × Nat)) (cts : List Nat),
      cts.length ≤ h + 1 →
      (∀ p ∈ seg, goodKey h posTarget p) →
      ∀ p ∈ (fillSweep Z seg cts).1, goodKey h posTarget p := by
  intro seg
  induction seg with
  | nil => intro cts _ _ p hp; simp [fillSweep] at hp
  | cons q rest ih =>
    intro cts hlen hgood p hp
    obtain ⟨b, k⟩ := q
    by_cases hdum : b.isDummy = true
    · rcases hscan : fillScan Z cts with ⟨o, cts'⟩
      have hlen' : cts'.length = cts.length := by
        have hq := fillScan_counts_length Z cts
        rw [hscan] at hq
        exact hq
      cases o with
      | some l =>
        obtain ⟨hl, _⟩ := fillScan_some_lt hscan
        rw [fillSweep_cons_dummy_some hdum hscan] at hp
        rcases List.mem_cons.mp hp with hpe | hpe
        · rw [hpe]
          have hlh : l ≤ h := by omega
          refine ⟨fun _ => Or.inr hlh, fun hc => absurd hdum (by simp [hc]), ?_⟩
          intro hku
          exact hdum
        · exact ih cts' (by omega) (fun q hq => hgood q (by simp [hq])) p hpe
      | none =>
        rw [fillSweep_cons_dummy_none hdum hscan] at hp
        have hceq := fillScan_none_eq hscan
        rcases List.mem_cons.mp hp with hpe | hpe
        · rw [hpe]
          exact hgood (b, k) (by simp)
        · rw [hceq] at hpe
          exact ih cts (by omega) (fun q hq => hgood q (by simp [hq])) p hpe
    · have hdum' : b.isDummy = false := by simpa using hdum
      rw [fillSweep_cons_real hdum'] at hp
      rcases List.mem_cons.mp hp with hpe | hpe
      · rw [hpe]
        exact hgood (b, k) (by simp)
      · exact ih cts hlen (fun q hq => hgood q (by simp [hq])) p hpe


end Oram

namespace Oram

variable {V : Type}

/-! ## The dummy-fill round and loop bookkeeping -/

theorem fillRound_shape (Z first : Nat) (pairs : List (Block V × Nat))
    (cts : List Nat) :
    (fillRound Z first pairs cts).1
      = pairs.take first ++ (fillSweep Z ((pairs.drop first).dropLast) cts).1
        ++ (pairs.drop first).drop ((pairs.drop first).dropLast).length
    ∧ (fillRound Z first pairs cts).2
      = (fillSweep Z ((pairs.drop first).dropLast) cts).2 := by
  unfold fillRound
  exact ⟨rfl, rfl⟩

theorem countP_key_replicate_dummy [Inhabited V] {d : Nat} (hd : d < unassignedKey)
    (g : Nat) :
    (List.replicate g ((Block.dummy : Block V), unassignedKey)).countP
      (fun p => p.2 == d) = 0 := by
  apply List.countP_eq_zero.mpr
  intro p hp
  rw [List.eq_of_mem_replicate hp]
  intro hc
  rw [beq_iff_eq] at hc
  have hc2 : unassignedKey = d := hc
  omega

theorem fillRound_keyCount (Z first : Nat) (pairs : List (Block V × Nat))
    (cts : List Nat)
    (hW : ∀ p ∈ pairs.drop first, p.1.isDummy = true → p.2 = unassignedKey)
    {d : Nat} (hd : d < unassignedKey) :
    (fillRound Z first pairs cts).1.countP (fun p => p.2 == d) + cts.getD d 0
      = pairs.countP (fun p => p.2 == d) + (fillRound Z first pairs cts).2.getD d 0 := by
  obtain ⟨h1, h2⟩ := fillRound_shape Z first pairs cts
  rw [h1, h2]
  have hsw := fillSweep_keyCount Z ((pairs.drop first).dropLast) cts
    (fun p hp => hW p (List.dropLast_subset _ hp)) d hd
  have hdecomp : pairs.countP (fun p => p.2 == d)
      = (pairs.take first).countP (fun p => p.2 == d)
        + ((pairs.drop first).dropLast).countP (fun p => p.2 == d)
        + ((pairs.drop first).drop ((pairs.drop first).dropLast).length).countP
            (fun p => p.2 == d) := by
    conv_lhs => rw [← seg_decomposition first pairs]
    rw [List.countP_append, List.countP_append]
    omega
  rw [List.countP_append, List.countP_append, hdecomp]
  omega

theorem fillRound_goodKeys (Z first h posTarget : Nat)
    (pairs : List (Block V × Nat)) (cts : List Nat)
    (hlen : cts.length ≤ h + 1)
    (hgood : ∀ p ∈ pairs, goodKey h posTarget p) :
    ∀ p ∈ (fillRound Z first pairs cts).1, goodKey h posTarget p := by
  obtain ⟨h1, _⟩ := fillRound_shape Z first pairs cts
  rw [h1]
  intro p hp
  rcases List.mem_append.mp hp with hp1 | hp2
  · rcases List.mem_append.mp hp1 with hpa | hpb
    · exact hgood p (List.mem_of_mem_take hpa)
    · exact fillSweep_goodKeys Z h posTarget _ cts hlen
        (fun q hq => hgood q (List.mem_of_mem_drop (List.dropLast_subset _ hq))) p hpb
  · exact hgood p (List.mem_of_mem_drop (List.mem_of_mem_drop hp2))

theorem fillRound_lastSeg (Z first : Nat) (pairs : List (Block V × Nat))
    (cts : List Nat) (hb : ∀ c ∈ cts, c ≤ Z)
    (hfl : first < pairs.length ∨ pairs = []) :
    ∀ p ∈ (fillRound Z first pairs cts).1.drop (pairs.length - 1),
      p ∈ pairs.drop first := by
  rcases hfl with hfl | hfl
  · obtain ⟨h1, _⟩ := fillRound_shape Z first pairs cts
    rw [h1]
    have hlen1 : (pairs.take first).length = first := by
      rw [List.length_take]
      omega
    have hlen2 : (fillSweep Z ((pairs.drop first).dropLast) cts).1.length
        = (pairs.drop first).dropLast.length :=
      (fillSweep_counts Z ((pairs.drop first).dropLast) cts hb).2.2.1
    have hlen3 : ((pairs.drop first).dropLast).length = pairs.length - first - 1 := by
      rw [List.length_dropLast, List.length_drop]
    have hfront : ((pairs.take first) ++ (fillSweep Z ((pairs.drop first).dropLast) cts).1).length
        = pairs.length - 1 := by
      rw [List.length_append, hlen1, hlen2, hlen3]
      omega
    rw [List.drop_left' hfront]
    intro p hp
    exact List.mem_of_mem_drop hp
  · subst hfl
    intro p hp
    simp [fillRound, fillSweep] at hp

theorem fillLoop_bundle [Inhabited V] (Z h posTarget : Nat) :
    ∀ (fuel first : Nat) (pairs : List (Block V × Nat)) (cts : List Nat),
      (∀ c ∈ cts, c ≤ Z) →
      cts.length ≤ h + 1 →
      (∀ p ∈ pairs, goodKey h posTarget p) →
      (∀ p ∈ pairs.drop first, p.1.isDummy = true → p.2 = unassignedKey) →
      (first < pairs.length ∨ pairs = []) →
      (∀ p ∈ (fillLoop Z fuel first pairs cts).1, goodKey h posTarget p)
      ∧ (fillLoop Z fuel first pairs cts).2.length = cts.length
      ∧ (∀ d, d < unassignedKey →
          (fillLoop Z fuel first pairs cts).1.countP (fun p => p.2 == d) + cts.getD d 0
            = pairs.countP (fun p => p.2 == d)
              + (fillLoop Z fuel first pairs cts).2.getD d 0)
      ∧ (∃ g, (fillLoop Z fuel first pairs cts).1.map Prod.fst
          = pairs.map Prod.fst ++ List.replicate g (Block.dummy : Block V)) := by
  intro fuel
  induction fuel with
  | zero =>
    intro first pairs cts hb hlen hgood hW hfl
    exact ⟨hgood, rfl, fun d _ => rfl, 0, by simp [fillLoop]⟩
  | succ n ih =>
    intro first pairs cts hb hlen hgood hW hfl
    simp only [fillLoop]
    rcases hr : fillRound Z first pairs cts with ⟨pairs', cts'⟩
    simp only []
    have hshape := fillRound_shape Z first pairs cts
    have hgood' : ∀ p ∈ pairs', goodKey h posTarget p := by
      have hq := fillRound_goodKeys Z first h posTarget pairs cts hlen hgood
      rw [hr] at hq
      exact hq
    have hb' : ∀ c ∈ cts', c ≤ Z := by
      have hq := (fillRound_counts Z first pairs cts hb).1
      rw [hr] at hq
      exact hq
    have hlen' : cts'.length = cts.length := by
      have hq := hshape.2
      rw [hr] at hq
      simp only at hq
      rw [hq]
      exact fillSweep_counts_length Z _ cts
    have hkc : ∀ d, d < unassignedKey →
        pairs'.countP (fun p => p.2 == d) + cts.getD d 0
          = pairs.countP (fun p => p.2 == d) + cts'.getD d 0 := by
      intro d hd
      have hq := fillRound_keyCount Z first pairs cts hW hd
      rw [hr] at hq
      exact hq
    have hmap : pairs'.map Prod.fst = pairs.map Prod.fst := by
      have hq := (fillRound_counts Z first pairs cts hb).2.2.2
      rw [hr] at hq
      exact hq
    have hplen : pairs'.length = pairs.length := by
      have hq := (fillRound_counts Z first pairs cts hb).2.2.1
      rw [hr] at hq
      exact hq
    by_cases hfull : (cts'.all (fun c => c == Z)) = true
    · rw [if_pos hfull]
      exact ⟨hgood', hlen', fun d hd => hkc d hd, 0, by simp [hmap]⟩
    · rw [if_neg hfull]
      have hlastseg : ∀ p ∈ pairs'.drop (pairs.length - 1), p ∈ pairs.drop first := by
        have hq := fillRound_lastSeg Z first pairs cts hb hfl
        rw [hr] at hq
        exact hq
      obtain ⟨ih1, ih2, ih3, g, ih4⟩ := ih (pairs'.length - 1)
        (pairs' ++ List.replicate stashGrowthIncrement
          ((Block.dummy : Block V), unassignedKey)) cts'
        hb'
        (by omega)
        (by
          intro p hp
          rcases List.mem_append.mp hp with hp | hp
          · exact hgood' p hp
          · rw [List.eq_of_mem_replicate hp]
            exact ⟨fun _ => Or.inl rfl, fun hc => by simp [Block.dummy, Block.isDummy] at hc,
              fun _ => rfl⟩)
        (by
          intro p hp
          rw [List.drop_append_eq_append_drop] at hp
          rcases List.mem_append.mp hp with hp | hp
          · have hsub : p ∈ pairs.drop first := by
              apply hlastseg
              rw [hplen] at hp
              exact hp
            exact hW p hsub
          · rw [List.eq_of_mem_replicate (List.mem_of_mem_drop hp)]
            intro _
            rfl)
        (by
          left
          rw [List.length_append, List.length_replicate]
          have hpos : 0 < stashGrowthIncrement := by decide
          omega)
      refine ⟨ih1, by omega, ?_, ?_⟩
      · intro d hd
        have h3 := ih3 d hd
        rw [List.countP_append, countP_key_replicate_dummy hd] at h3
        have h2 := hkc d hd
        omega
      · refine ⟨stashGrowthIncrement + g, ?_⟩
        rw [ih4, List.map_append, hmap, List.map_replicate]
        rw [List.append_assoc, ← List.replicate_add]

end Oram

namespace Oram

variable {V : Type}

/-! ## The fill loop after the first assignment pass -/

theorem deficit_le_mul (Z : Nat) : ∀ (cts : List Nat), deficit Z cts ≤ Z * cts.length := by
  intro cts
  induction cts with
  | nil => simp [deficit]
  | cons c rest ih =>
    simp only [deficit, List.map_cons, List.sum_cons, List.length_cons]
    simp only [deficit] at ih
    have hc : Z - c ≤ Z := Nat.sub_le Z c
    have hm : Z * (rest.length + 1) = Z * rest.length + Z := by ring
    omega

theorem zip_countP_snd {α β : Type} (pred : β → Bool) :
    ∀ (l₁ : List α) (l₂ : List β), l₁.length = l₂.length →
      (l₁.zip l₂).countP (fun p => pred p.2) = l₂.countP pred := by
  intro l₁
  induction l₁ with
  | nil =>
    intro l₂ h
    cases l₂ with
    | nil => rfl
    | cons b bs => simp at h
  | cons a as ih =>
    intro l₂ h
    cases l₂ with
    | nil => simp at h
    | cons b bs =>
      simp only [List.zip_cons_cons, List.countP_cons]
      rw [ih bs (by simpa using h)]

theorem fillLoop_length_mult [Inhabited V] (Z : Nat) :
    ∀ (fuel first : Nat) (pairs : List (Block V × Nat)) (cts : List Nat),
      (∀ c ∈ cts, c ≤ Z) →
      ∃ k, (fillLoop Z fuel first pairs cts).1.length
        = pairs.length + stashGrowthIncrement * k := by
  intro fuel
  induction fuel with
  | zero =>
    intro first pairs cts hb
    exact ⟨0, by simp [fillLoop]⟩
  | succ n ih =>
    intro first pairs cts hb
    simp only [fillLoop]
    rcases hr : fillRound Z first pairs cts with ⟨pairs', cts'⟩
    simp only []
    have hb' : ∀ c ∈ cts', c ≤ Z := by
      have hq := (fillRound_counts Z first pairs cts hb).1
      rw [hr] at hq
      exact hq
    have hplen : pairs'.length = pairs.length := by
      have hq := (fillRound_counts Z first pairs cts hb).2.2.1
      rw [hr] at hq
      exact hq
    by_cases hfull : (cts'.all (fun c => c == Z)) = true
    · rw [if_pos hfull]
      exact ⟨0, by simpa using hplen⟩
    · rw [if_neg hfull]
      obtain ⟨k, hk⟩ := ih (pairs'.length - 1)
        (pairs' ++ List.replicate stashGrowthIncrement
          ((Block.dummy : Block V), unassignedKey)) cts' hb'
      refine ⟨k + 1, ?_⟩
      rw [List.length_append, List.length_replicate] at hk
      have h10 : stashGrowthIncrement = 10 := rfl
      rw [h10] at hk ⊢
      omega

theorem getD_replicate_zero (n d : Nat) : (List.replicate n (0 : Nat)).getD d 0 = 0 := by
  rcases getD_mem_or_default (List.replicate n (0 : Nat)) d 0 with h | h
  · exact List.eq_of_mem_replicate h
  · exact h

theorem fill_after_assign [Inhabited V] (Z h posTarget : Nat)
    (blocks : List (Block V)) (hh : h < overflowKey) :
    (∀ c ∈ (fillLoop Z (Z * (h + 1) + 1) 0
        (blocks.zip (assignPass Z h posTarget blocks (List.replicate (h + 1) 0)).1)
        (assignPass Z h posTarget blocks (List.replicate (h + 1) 0)).2).2, c = Z)
    ∧ (∀ d, d ≤ h →
        (fillLoop Z (Z * (h + 1) + 1) 0
          (blocks.zip (assignPass Z h posTarget blocks (List.replicate (h + 1) 0)).1)
          (assignPass Z h posTarget blocks (List.replicate (h + 1) 0)).2).1.countP
            (fun p => p.2 == d) = Z)
    ∧ (∃ k, (fillLoop Z (Z * (h + 1) + 1) 0
        (blocks.zip (assignPass Z h posTarget blocks (List.replicate (h + 1) 0)).1)
        (assignPass Z h posTarget blocks (List.replicate (h + 1) 0)).2).1.length
        = blocks.length + stashGrowthIncrement * k) := by
  have hb0 : ∀ c ∈ List.replicate (h + 1) (0 : Nat), c ≤ Z := by
    intro c hc
    rw [List.eq_of_mem_replicate hc]
    omega
  obtain ⟨hbc, hctslen, hkeyslen, hctsgetD⟩ :=
    assignPass_bundle Z h posTarget blocks (List.replicate (h + 1) 0) hb0
  rw [List.length_replicate] at hctslen
  have hou : overflowKey < unassignedKey := by decide
  have hgoodW := assignPass_keys Z h posTarget hh blocks (List.replicate (h + 1) 0)
  have hgood : ∀ p ∈ blocks.zip (assignPass Z h posTarget blocks (List.replicate (h + 1) 0)).1,
      goodKey h posTarget p := by
    intro p hp
    obtain ⟨k1, k2, k3⟩ := hgoodW p hp
    exact ⟨fun hd => Or.inl (k1 hd), k2, k3⟩
  have hW : ∀ p ∈ (blocks.zip (assignPass Z h posTarget blocks (List.replicate (h + 1) 0)).1).drop 0,
      p.1.isDummy = true → p.2 = unassignedKey := by
    intro p hp
    rw [List.drop_zero] at hp
    exact (hgoodW p hp).1
  have hfl : 0 < (blocks.zip (assignPass Z h posTarget blocks (List.replicate (h + 1) 0)).1).length
      ∨ blocks.zip (assignPass Z h posTarget blocks (List.replicate (h + 1) 0)).1 = [] := by
    cases hz : blocks.zip (assignPass Z h posTarget blocks (List.replicate (h + 1) 0)).1 with
    | nil => exact Or.inr rfl
    | cons q rest => exact Or.inl (by simp)
  have hdef : deficit Z (assignPass Z h posTarget blocks (List.replicate (h + 1) 0)).2
      < Z * (h + 1) + 1 := by
    have hle := deficit_le_mul Z (assignPass Z h posTarget blocks (List.replicate (h + 1) 0)).2
    rw [hctslen] at hle
    omega
  have hA := fillLoop_counts_full Z (Z * (h + 1) + 1) 0
    (blocks.zip (assignPass Z h posTarget blocks (List.replicate (h + 1) 0)).1)
    (assignPass Z h posTarget blocks (List.replicate (h + 1) 0)).2 hbc hdef
  obtain ⟨hg, hlen2, hkc, hmap⟩ := fillLoop_bundle Z h posTarget (Z * (h + 1) + 1) 0
    (blocks.zip (assignPass Z h posTarget blocks (List.replicate (h + 1) 0)).1)
    (assignPass Z h posTarget blocks (List.replicate (h + 1) 0)).2 hbc (by omega) hgood hW hfl
  refine ⟨hA, ?_, ?_⟩
  · intro d hd
    have hdu : d < unassignedKey := by omega
    have hkcd := hkc d hdu
    have hdlen : d < (fillLoop Z (Z * (h + 1) + 1) 0
        (blocks.zip (assignPass Z h posTarget blocks (List.replicate (h + 1) 0)).1)
        (assignPass Z h posTarget blocks (List.replicate (h + 1) 0)).2).2.length := by
      rw [hlen2, hctslen]
      omega
    have hgetZ : (fillLoop Z (Z * (h + 1) + 1) 0
        (blocks.zip (assignPass Z h posTarget blocks (List.replicate (h + 1) 0)).1)
        (assignPass Z h posTarget blocks (List.replicate (h + 1) 0)).2).2.getD d 0 = Z := by
      rw [List.getD_eq_getElem _ 0 hdlen]
      exact hA _ (List.getElem_mem hdlen)
    have hcget : (assignPass Z h posTarget blocks (List.replicate (h + 1) 0)).2.getD d 0
        = (assignPass Z h posTarget blocks (List.replicate (h + 1) 0)).1.countP
            (fun k => k == d) := by
      have hq := hctsgetD d (by simpa using (by omega : d < h + 1)) (by omega) (by omega)
      rw [getD_replicate_zero] at hq
      omega
    have hzc : (blocks.zip (assignPass Z h posTarget blocks (List.replicate (h + 1) 0)).1).countP
        (fun p => p.2 == d)
        = (assignPass Z h posTarget blocks (List.replicate (h + 1) 0)).1.countP
            (fun k => k == d) :=
      zip_countP_snd (fun k => k == d) blocks
        (assignPass Z h posTarget blocks (List.replicate (h + 1) 0)).1 hkeyslen.symm
    rw [hgetZ, hcget, ← hzc] at hkcd
    omega
  · obtain ⟨k, hk⟩ := fillLoop_length_mult Z (Z * (h + 1) + 1) 0
      (blocks.zip (assignPass Z h posTarget blocks (List.replicate (h + 1) 0)).1)
      (assignPass Z h posTarget blocks (List.replicate (h + 1) 0)).2 hbc
    refine ⟨k, ?_⟩
    rw [hk, List.length_zip, hkeyslen, Nat.min_self]

end Oram

namespace Oram

variable {V : Type}

/-- C9: write_to_path never returns an error because of stash overflow. In
the embedding ObliviousStash.writeToPath is total, and this theorem shows
the dummy-fill loop it runs (with fuel Z*(h+1)+1, which the deficit bound
shows is never exhausted) behaves as claimed: starting from the counters
left by the first assignment pass, it terminates with every level
0..h = depthOf position holding a counter of exactly Z; at that point, for
every level d the sorted stash holds exactly Z blocks assigned to level d
(the sorted prefix written back to the path); and along the way the stash
only ever grew by whole increments of STASH_GROWTH_INCREMENT = 10 dummy
blocks, as witnessed by the length of the stash writeToPath returns. -/
theorem write_to_path_overflow_recovery [Inhabited V] (Z : Nat) (stash : Stash V)
    (mem : List (List (Block V))) (position : Nat)
    (hh : depthOf position < overflowKey) :
    (∀ c ∈ (fillLoop Z (Z * (depthOf position + 1) + 1) 0
        (stash.blocks.zip (assignPass Z (depthOf position) position stash.blocks
          (List.replicate (depthOf position + 1) 0)).1)
        (assignPass Z (depthOf position) position stash.blocks
          (List.replicate (depthOf position + 1) 0)).2).2, c = Z)
    ∧ (∀ d, d ≤ depthOf position →
        (List.insertionSort keyLe (fillLoop Z (Z * (depthOf position + 1) + 1) 0
          (stash.blocks.zip (assignPass Z (depthOf position) position stash.blocks
            (List.replicate (depthOf position + 1) 0)).1)
          (assignPass Z (depthOf position) position stash.blocks
            (List.replicate (depthOf position + 1) 0)).2).1).countP
              (fun p => p.2 == d) = Z)
    ∧ (∃ k, (ObliviousStash.writeToPath Z stash mem position).1.blocks.length
        = stash.blocks.length + stashGrowthIncrement * k) := by
  obtain ⟨hA, hB, hC⟩ := fill_after_assign Z (depthOf position) position stash.blocks hh
  refine ⟨hA, ?_, ?_⟩
  · intro d hd
    rw [(List.perm_insertionSort keyLe _).countP_eq]
    exact hB d hd
  · obtain ⟨k, hk⟩ := hC
    refine ⟨k, ?_⟩
    have hblocks : (ObliviousStash.writeToPath Z stash mem position).1.blocks
        = (List.insertionSort keyLe (fillLoop Z (Z * (depthOf position + 1) + 1) 0
            (stash.blocks.zip (assignPass Z (depthOf position) position stash.blocks
              (List.replicate (depthOf position + 1) 0)).1)
            (assignPass Z (depthOf position) position stash.blocks
              (List.replicate (depthOf position + 1) 0)).2).1).map Prod.fst := rfl
    rw [hblocks, List.length_map, (List.perm_insertionSort keyLe _).length_eq, hk]

/-- C9 witness: the theorem applied to a one-block stash with Z = 1 at
position 1 (a tree of height 0). -/
theorem write_to_path_overflow_recovery_witness :
    depthOf 1 < overflowKey
    ∧ (∃ k, (ObliviousStash.writeToPath 1 (⟨[(Block.dummy : Block Nat)], 0⟩ : Stash Nat)
        [[]] 1).1.blocks.length
        = (⟨[(Block.dummy : Block Nat)], 0⟩ : Stash Nat).blocks.length
          + stashGrowthIncrement * k) :=
  ⟨by decide,
    (write_to_path_overflow_recovery 1 ⟨[(Block.dummy : Block Nat)], 0⟩ [[]] 1 (by decide)).2.2⟩

end Oram

namespace Oram

variable {V : Type}

/-! ## Slices of the key-sorted stash -/

theorem sorted_get_key_le {s : List (Block V × Nat)} (hs : List.Sorted keyLe s)
    (i j : Nat) (hij : i ≤ j) (hj : j < s.length) :
    (s.get ⟨i, by omega⟩).2 ≤ (s.get ⟨j, hj⟩).2 := by
  rcases Nat.lt_or_ge i j with h | h
  · have hij2 : (⟨i, by omega⟩ : Fin s.length) < ⟨j, hj⟩ := h
    exact hs.rel_get_of_lt hij2
  · have hieq : i = j := by omega
    subst hieq
    exact le_rfl

theorem sorted_prefix_key_lt {s : List (Block V × Nat)} (hs : List.Sorted keyLe s)
    (d i : Nat) (hl : i < s.length)
    (hi : i < s.countP (fun p => decide (p.2 < d))) :
    (s.get ⟨i, hl⟩).2 < d := by
  by_contra hcon
  push_neg at hcon
  have hsplit : s.countP (fun p => decide (p.2 < d))
      = (s.take i).countP (fun p => decide (p.2 < d))
        + (s.drop i).countP (fun p => decide (p.2 < d)) := by
    conv_lhs => rw [← List.take_append_drop i s]
    rw [List.countP_append]
  have hdrop : (s.drop i).countP (fun p => decide (p.2 < d)) = 0 := by
    apply List.countP_eq_zero.mpr
    intro p hp
    obtain ⟨j, hjlen, hpj⟩ := List.mem_iff_getElem.mp hp
    have hlen2 : i + j < s.length := by
      simp only [List.length_drop] at hjlen
      omega
    have hpe : p = s.get ⟨i + j, hlen2⟩ := by
      rw [← hpj]
      simp [List.getElem_drop]
    have hkey : (s.get ⟨i, hl⟩).2 ≤ (s.get ⟨i + j, hlen2⟩).2 :=
      sorted_get_key_le hs i (i + j) (by omega) hlen2
    rw [hpe]
    simp only [decide_eq_true_eq]
    omega
  have htake : (s.take i).countP (fun p => decide (p.2 < d)) ≤ i := by
    have h1 : (s.take i).countP (fun (p : Block V × Nat) => decide (p.2 < d))
        ≤ (s.take i).length :=
      List.countP_le_length (fun (p : Block V × Nat) => decide (p.2 < d))
    have h2 : (s.take i).length ≤ i := by
      simp [List.length_take]
    omega
  omega

theorem sorted_suffix_key_ge {s : List (Block V × Nat)} (hs : List.Sorted keyLe s)
    (d i : Nat) (hl : i < s.length)
    (hge : s.countP (fun p => decide (p.2 < d)) ≤ i) :
    d ≤ (s.get ⟨i, hl⟩).2 := by
  by_contra hcon
  push_neg at hcon
  have htake : (s.take (i + 1)).countP (fun p => decide (p.2 < d)) = i + 1 := by
    have hlt : (s.take (i + 1)).length = i + 1 := by
      simp [List.length_take]
      omega
    have hall : ∀ p ∈ s.take (i + 1), (fun p => decide (p.2 < d)) p = true := ?_
    case _ =>
      have := List.countP_eq_length.mpr hall
      rw [hlt] at this
      exact this
    intro p hp
    obtain ⟨j, hjlen, hpj⟩ := List.mem_iff_getElem.mp hp
    have hjb : j < i + 1 := by
      simp only [List.length_take] at hjlen
      omega
    have hlen2 : j < s.length := by omega
    have hpe : p = s.get ⟨j, hlen2⟩ := by
      rw [← hpj]
      simp [List.getElem_take]
    have hkey : (s.get ⟨j, hlen2⟩).2 ≤ (s.get ⟨i, hl⟩).2 :=
      sorted_get_key_le hs j i (by omega) hl
    rw [hpe]
    simp only [decide_eq_true_eq]
    omega
  have hsplit : s.countP (fun p => decide (p.2 < d))
      = (s.take (i + 1)).countP (fun p => decide (p.2 < d))
        + (s.drop (i + 1)).countP (fun p => decide (p.2 < d)) := by
    conv_lhs => rw [← List.take_append_drop (i + 1) s]
    rw [List.countP_append]
  omega

theorem countP_key_lt_succ (d : Nat) (l : List (Block V × Nat)) :
    l.countP (fun p => decide (p.2 < d + 1))
      = l.countP (fun p => decide (p.2 < d)) + l.countP (fun p => p.2 == d) := by
  induction l with
  | nil => rfl
  | cons q rest ih =>
    simp only [List.countP_cons, ih]
    rcases Nat.lt_trichotomy q.2 d with h | h | h
    · have e1 : decide (q.2 < d + 1) = true := by simp; omega
      have e2 : decide (q.2 < d) = true := by simp; omega
      have e3 : ((q.2 == d) : Bool) = false := by simp; omega
      rw [e1, e2, e3]
      simp
      omega
    · have e1 : decide (q.2 < d + 1) = true := by simp; omega
      have e2 : decide (q.2 < d) = false := by simp; omega
      have e3 : ((q.2 == d) : Bool) = true := by simp; omega
      rw [e1, e2, e3]
      simp
      omega
    · have e1 : decide (q.2 < d + 1) = false := by simp; omega
      have e2 : decide (q.2 < d) = false := by simp; omega
      have e3 : ((q.2 == d) : Bool) = false := by simp; omega
      rw [e1, e2, e3]
      simp

theorem countP_key_lt_of_counts {Z h : Nat} (s : List (Block V × Nat))
    (hcnt : ∀ e, e ≤ h → s.countP (fun p => p.2 == e) = Z) :
    ∀ d, d ≤ h + 1 → s.countP (fun p => decide (p.2 < d)) = Z * d := by
  intro d
  induction d with
  | zero =>
    intro _
    simp
  | succ e ih =>
    intro hde
    rw [countP_key_lt_succ, ih (by omega), hcnt e (by omega)]
    ring

theorem sorted_length_ge {Z h : Nat} {s : List (Block V × Nat)}
    (hcnt : ∀ e, e ≤ h → s.countP (fun p => p.2 == e) = Z) :
    Z * (h + 1) ≤ s.length := by
  have h1 := countP_key_lt_of_counts s hcnt (h + 1) (le_refl _)
  have h2 : s.countP (fun (p : Block V × Nat) => decide (p.2 < h + 1)) ≤ s.length :=
    List.countP_le_length (fun (p : Block V × Nat) => decide (p.2 < h + 1))
  omega

theorem sorted_slice_key_eq {Z h : Nat} {s : List (Block V × Nat)}
    (hs : List.Sorted keyLe s)
    (hcnt : ∀ e, e ≤ h → s.countP (fun p => p.2 == e) = Z) :
    ∀ d, d ≤ h → ∀ p ∈ (s.drop (Z * d)).take Z, p.2 = d := by
  intro d hd p hp
  obtain ⟨j, hjlen, hpj⟩ := List.mem_iff_getElem.mp hp
  have hjZ : j < Z := by
    have := List.length_take_le Z (s.drop (Z * d))
    omega
  have hlen : Z * d + j < s.length := by
    simp only [List.length_take, List.length_drop] at hjlen
    omega
  have hpe : p = s.get ⟨Z * d + j, hlen⟩ := by
    rw [← hpj]
    simp [List.getElem_take, List.getElem_drop]
  have h1 : d ≤ (s.get ⟨Z * d + j, hlen⟩).2 := by
    apply sorted_suffix_key_ge hs d (Z * d + j) hlen
    rw [countP_key_lt_of_counts s hcnt d (by omega)]
    omega
  have h2 : (s.get ⟨Z * d + j, hlen⟩).2 < d + 1 := by
    apply sorted_prefix_key_lt hs (d + 1) (Z * d + j) hlen
    rw [countP_key_lt_of_counts s hcnt (d + 1) (by omega)]
    have : Z * (d + 1) = Z * d + Z := by ring
    omega
  rw [hpe]
  omega

theorem sorted_suffix_overflow {Z h : Nat} {s : List (Block V × Nat)}
    (hs : List.Sorted keyLe s)
    (hcnt : ∀ e, e ≤ h → s.countP (fun p => p.2 == e) = Z)
    (hrange : ∀ p ∈ s, p.2 ≤ h ∨ overflowKey ≤ p.2) :
    ∀ p ∈ s.drop (Z * (h + 1)), overflowKey ≤ p.2 := by
  intro p hp
  obtain ⟨j, hjlen, hpj⟩ := List.mem_iff_getElem.mp hp
  have hlen : Z * (h + 1) + j < s.length := by
    simp only [List.length_drop] at hjlen
    omega
  have hpe : p = s.get ⟨Z * (h + 1) + j, hlen⟩ := by
    rw [← hpj]
    simp [List.getElem_drop]
  have h1 : h + 1 ≤ (s.get ⟨Z * (h + 1) + j, hlen⟩).2 := by
    apply sorted_suffix_key_ge hs (h + 1) (Z * (h + 1) + j) hlen
    rw [countP_key_lt_of_counts s hcnt (h + 1) (by omega)]
    omega
  have hmem : s.get ⟨Z * (h + 1) + j, hlen⟩ ∈ s := List.get_mem s _ hlen
  rcases hrange _ hmem with hc | hc
  · omega
  · rw [hpe]
    exact hc

theorem take_mul_succ {α : Type} (Z d : Nat) (s : List α) :
    s.take (Z * (d + 1)) = s.take (Z * d) ++ (s.drop (Z * d)).take Z := by
  rw [Nat.mul_succ, List.take_add]

end Oram

namespace Oram

variable {V : Type}

/-! ## Last-slot bookkeeping through the eviction -/

theorem getLastD_congr {α : Type} (l : List α) (d d' : α) (h : l ≠ []) :
    l.getLastD d = l.getLastD d' := by
  cases l with
  | nil => exact absurd rfl h
  | cons x xs => rw [List.getLastD_cons, List.getLastD_cons]

theorem getLastD_append {α : Type} {l l' : List α} (d : α) (h : l' ≠ []) :
    (l ++ l').getLastD d = l'.getLastD d := by
  rw [List.getLastD_eq_getLast?, List.getLastD_eq_getLast?,
    List.getLast?_append_of_ne_nil l h]

theorem getLastD_mem {α : Type} (l : List α) (d : α) (h : l ≠ []) :
    l.getLastD d ∈ l := by
  cases l with
  | nil => exact absurd rfl h
  | cons x xs =>
    rw [List.getLastD_cons]
    exact List.getLastD_mem_cons xs x

theorem getLastD_eq_getD {α : Type} :
    ∀ (l : List α) (d : α), l.getLastD d = l.getD (l.length - 1) d := by
  intro l
  induction l with
  | nil => intro d; rfl
  | cons x xs ih =>
    intro d
    rw [List.getLastD_cons]
    cases xs with
    | nil => rfl
    | cons y ys =>
      have h1 : (x :: y :: ys).length - 1 = (y :: ys).length - 1 + 1 := by
        simp
      rw [h1]
      have h2 : (x :: y :: ys).getD ((y :: ys).length - 1 + 1) d
          = (y :: ys).getD ((y :: ys).length - 1) d := rfl
      rw [h2, ← ih]
      exact getLastD_congr _ _ _ (by simp)

theorem getLastD_map {α β : Type} (f : α → β) :
    ∀ (l : List α) (d : α), (l.map f).getLastD (f d) = f (l.getLastD d) := by
  intro l
  induction l with
  | nil => intro d; rfl
  | cons x xs ih =>
    intro d
    rw [List.map_cons, List.getLastD_cons, List.getLastD_cons, ih]

theorem getLastD_drop {α : Type} :
    ∀ (l : List α) (k : Nat) (d : α), k < l.length →
      (l.drop k).getLastD d = l.getLastD d := by
  intro l
  induction l with
  | nil =>
    intro k d hk
    simp at hk
  | cons x xs ih =>
    intro k d hk
    cases k with
    | zero => rfl
    | succ k =>
      have h1 : (x :: xs).drop (k + 1) = xs.drop k := rfl
      rw [h1, ih k d (by simp at hk; omega), List.getLastD_cons]
      exact getLastD_congr _ _ _ (by intro hc; rw [hc] at hk; simp at hk)

theorem fillRound_lastD (Z first : Nat) (pairs : List (Block V × Nat))
    (cts : List Nat) [Inhabited V] (hfl : first < pairs.length ∨ pairs = []) :
    (fillRound Z first pairs cts).1.getLastD ((Block.dummy : Block V), unassignedKey)
      = pairs.getLastD ((Block.dummy : Block V), unassignedKey) := by
  rcases hfl with hfl | hfl
  · obtain ⟨h1, _⟩ := fillRound_shape Z first pairs cts
    rw [h1]
    have hlp : (pairs.drop first).drop ((pairs.drop first).dropLast).length ≠ [] := by
      intro hc
      have h2 := congrArg List.length hc
      simp only [List.length_drop, List.length_dropLast, List.length_nil] at h2
      omega
    rw [getLastD_append _ hlp]
    have hlast1 : (pairs.drop first).drop ((pairs.drop first).dropLast).length
        = (pairs.drop first).drop ((pairs.drop first).length - 1) := by
      rw [List.length_dropLast]
    rw [hlast1, getLastD_drop _ _ _ (by simp only [List.length_drop]; omega),
      getLastD_drop _ _ _ (by omega)]
  · subst hfl
    simp [fillRound, fillSweep]

theorem fillLoop_lastD [Inhabited V] (Z : Nat) :
    ∀ (fuel first : Nat) (pairs : List (Block V × Nat)) (cts : List Nat),
      (first < pairs.length ∨ pairs = []) →
      (fillLoop Z fuel first pairs cts).1.getLastD ((Block.dummy : Block V), unassignedKey)
          = pairs.getLastD ((Block.dummy : Block V), unassignedKey)
      ∨ (fillLoop Z fuel first pairs cts).1.getLastD ((Block.dummy : Block V), unassignedKey)
          = ((Block.dummy : Block V), unassignedKey) := by
  intro fuel
  induction fuel with
  | zero =>
    intro first pairs cts hfl
    exact Or.inl rfl
  | succ n ih =>
    intro first pairs cts hfl
    simp only [fillLoop]
    rcases hr : fillRound Z first pairs cts with ⟨pairs', cts'⟩
    simp only []
    have hlast : pairs'.getLastD ((Block.dummy : Block V), unassignedKey)
        = pairs.getLastD ((Block.dummy : Block V), unassignedKey) := by
      have hq := fillRound_lastD Z first pairs cts hfl
      rw [hr] at hq
      exact hq
    by_cases hfull : (cts'.all (fun c => c == Z)) = true
    · rw [if_pos hfull]
      exact Or.inl hlast
    · rw [if_neg hfull]
      have hgrow : (pairs' ++ List.replicate stashGrowthIncrement
          ((Block.dummy : Block V), unassignedKey)).getLastD
            ((Block.dummy : Block V), unassignedKey)
          = ((Block.dummy : Block V), unassignedKey) := by
        rw [getLastD_append _ (by simp [stashGrowthIncrement])]
        have hm := getLastD_mem (List.replicate stashGrowthIncrement
          ((Block.dummy : Block V), unassignedKey))
          ((Block.dummy : Block V), unassignedKey) (by simp [stashGrowthIncrement])
        exact List.eq_of_mem_replicate hm
      rcases ih (pairs'.length - 1)
        (pairs' ++ List.replicate stashGrowthIncrement
          ((Block.dummy : Block V), unassignedKey)) cts'
        (by
          left
          rw [List.length_append, List.length_replicate]
          have hpos : 0 < stashGrowthIncrement := by decide
          omega) with hc | hc
      · right
        rw [hc, hgrow]
      · right
        exact hc

theorem writeToPath_eq [Inhabited V] (Z : Nat) (stash : Stash V)
    (mem : List (List (Block V))) (pos : Nat) :
    ObliviousStash.writeToPath Z stash mem pos
      = ({ stash with
            blocks := (wtpSorted Z (depthOf pos) pos stash.blocks).map Prod.fst },
         wtpMem Z (depthOf pos) pos stash.blocks mem) := rfl

end Oram

namespace Oram

variable {V : Type}

/-! ## The sorted stash that write_to_path builds -/

theorem getLastD_zip {α β : Type} :
    ∀ (l₁ : List α) (l₂ : List β) (d₁ : α) (d₂ : β), l₁.length = l₂.length →
      (l₁.zip l₂).getLastD (d₁, d₂) = (l₁.getLastD d₁, l₂.getLastD d₂) := by
  intro l₁
  induction l₁ with
  | nil =>
    intro l₂ d₁ d₂ hlen
    cases l₂ with
    | nil => rfl
    | cons y ys => simp at hlen
  | cons x xs ih =>
    intro l₂ d₁ d₂ hlen
    cases l₂ with
    | nil => simp at hlen
    | cons y ys =>
      simp only [List.zip_cons_cons, List.getLastD_cons]
      have hlen2 : xs.length = ys.length := by simpa using hlen
      by_cases hxse : xs = []
      · have hyse : ys = [] := by
          rw [hxse] at hlen2
          simp only [List.length_nil] at hlen2
          exact List.length_eq_zero.mp hlen2.symm
        subst hxse
        subst hyse
        rfl
      · have hyse : ys ≠ [] := by
          intro hc
          rw [hc] at hlen2
          simp only [List.length_nil] at hlen2
          exact hxse (List.length_eq_zero.mp hlen2)
        have hzipne : xs.zip ys ≠ [] := by
          intro hc
          have hlc := congrArg List.length hc
          simp only [List.length_zip, hlen2, Nat.min_self, List.length_nil] at hlc
          exact hyse (List.length_eq_zero.mp hlc)
        rw [getLastD_congr (xs.zip ys) (x, y) (d₁, d₂) hzipne, ih ys d₁ d₂ hlen2,
          getLastD_congr xs x d₁ hxse, getLastD_congr ys y d₂ hyse]

theorem wtp_sorted_facts [Inhabited V] (Z h pos : Nat) (B : List (Block V))
    (keys cts : List Nat) (res : List (Block V × Nat))
    (hh : h < overflowKey)
    (hkeq : keys = (assignPass Z h pos B (List.replicate (h + 1) 0)).1)
    (hceq : cts = (assignPass Z h pos B (List.replicate (h + 1) 0)).2)
    (hreq : res = (fillLoop Z (Z * (h + 1) + 1) 0 (B.zip keys) cts).1) :
    List.Sorted keyLe (List.insertionSort keyLe res)
    ∧ (∀ e, e ≤ h → (List.insertionSort keyLe res).countP (fun p => p.2 == e) = Z)
    ∧ (∀ p ∈ List.insertionSort keyLe res, goodKey h pos p)
    ∧ (∃ g, ((List.insertionSort keyLe res).map Prod.fst).Perm
          (B ++ List.replicate g (Block.dummy : Block V))
        ∧ (List.insertionSort keyLe res).length = B.length + g)
    ∧ (B ≠ [] → (B.getLastD (Block.dummy : Block V)).isDummy = true →
        ((List.insertionSort keyLe res).getLastD
          ((Block.dummy : Block V), unassignedKey)).2 = unassignedKey) := by
  have hou : overflowKey < unassignedKey := by decide
  have hb0 : ∀ c ∈ List.replicate (h + 1) (0 : Nat), c ≤ Z := by
    intro c hc
    rw [List.eq_of_mem_replicate hc]
    omega
  obtain ⟨hbc, hctslen, hkeyslen, hctsgetD⟩ :=
    assignPass_bundle Z h pos B (List.replicate (h + 1) 0) hb0
  rw [← hceq] at hbc hctslen
  rw [← hkeq] at hkeyslen
  rw [List.length_replicate] at hctslen
  have hgoodW : ∀ p ∈ B.zip keys,
      (p.1.isDummy = true → p.2 = unassignedKey)
      ∧ (p.1.isDummy = false →
          p.2 = overflowKey
          ∨ (p.2 ≤ h ∧ nodeOnPath p.1.position p.2 h = nodeOnPath pos p.2 h))
      ∧ (p.2 = unassignedKey → p.1.isDummy = true) := by
    rw [hkeq]
    exact assignPass_keys Z h pos hh B (List.replicate (h + 1) 0)
  have hgood : ∀ p ∈ B.zip keys, goodKey h pos p := by
    intro p hp
    obtain ⟨k1, k2, k3⟩ := hgoodW p hp
    exact ⟨fun hd => Or.inl (k1 hd), k2, k3⟩
  have hW : ∀ p ∈ (B.zip keys).drop 0, p.1.isDummy = true → p.2 = unassignedKey := by
    intro p hp
    rw [List.drop_zero] at hp
    exact (hgoodW p hp).1
  have hfl : 0 < (B.zip keys).length ∨ B.zip keys = [] := by
    cases hz : B.zip keys with
    | nil => exact Or.inr rfl
    | cons q rest => exact Or.inl (by simp)
  obtain ⟨hgd, hlen2, hkc, g, hmap⟩ := fillLoop_bundle Z h pos (Z * (h + 1) + 1) 0
    (B.zip keys) cts hbc (by omega) hgood hW hfl
  rw [← hreq] at hgd hmap
  have hzipfst : (B.zip keys).map Prod.fst = B := List.map_fst_zip _ _ (by omega)
  have hziplen : (B.zip keys).length = B.length := by
    rw [List.length_zip, hkeyslen, Nat.min_self]
  have hreslen : res.length = B.length + g := by
    have h2 := congrArg List.length hmap
    simp only [List.length_map, List.length_append, List.length_replicate] at h2
    rw [hziplen] at h2
    exact h2
  have hperm : (List.insertionSort keyLe res).Perm res := List.perm_insertionSort keyLe res
  have hsorted : List.Sorted keyLe (List.insertionSort keyLe res) :=
    List.sorted_insertionSort keyLe res
  have hcnt : ∀ e, e ≤ h →
      (List.insertionSort keyLe res).countP (fun p => p.2 == e) = Z := by
    intro e he
    rw [hperm.countP_eq]
    have hq := (fill_after_assign Z h pos B hh).2.1 e he
    rw [← hkeq, ← hceq, ← hreq] at hq
    exact hq
  refine ⟨hsorted, hcnt, ?_, ?_, ?_⟩
  · intro p hp
    exact hgd p (hperm.mem_iff.mp hp)
  · refine ⟨g, ?_, ?_⟩
    · have h1 := hperm.map Prod.fst
      rw [hmap, hzipfst] at h1
      exact h1
    · rw [hperm.length_eq, hreslen]
  · intro hne hlastB
    have hBlen : 0 < B.length := List.length_pos.mpr hne
    have hzipne : B.zip keys ≠ [] := by
      intro hc
      have hlc := congrArg List.length hc
      rw [hziplen] at hlc
      simp only [List.length_nil] at hlc
      omega
    have hqeq : (B.zip keys).getLastD ((Block.dummy : Block V), unassignedKey)
        = (B.getLastD (Block.dummy : Block V), keys.getLastD unassignedKey) :=
      getLastD_zip B keys _ _ hkeyslen.symm
    have hqmem : (B.zip keys).getLastD ((Block.dummy : Block V), unassignedKey)
        ∈ B.zip keys := getLastD_mem _ _ hzipne
    have hqkey : ((B.zip keys).getLastD ((Block.dummy : Block V), unassignedKey)).2
        = unassignedKey := by
      apply (hgoodW _ hqmem).1
      rw [hqeq]
      exact hlastB
    have hreskey : (res.getLastD ((Block.dummy : Block V), unassignedKey)).2
        = unassignedKey := by
      rcases fillLoop_lastD Z (Z * (h + 1) + 1) 0 (B.zip keys) cts hfl with hc | hc
      · rw [← hreq] at hc
        rw [hc]
        exact hqkey
      · rw [← hreq] at hc
        rw [hc]
    have hresne : res ≠ [] := by
      intro hc
      have hlc := congrArg List.length hc
      rw [hreslen] at hlc
      simp only [List.length_nil] at hlc
      omega
    have hresmem : res.getLastD ((Block.dummy : Block V), unassignedKey) ∈ res :=
      getLastD_mem _ _ hresne
    have hsmem : res.getLastD ((Block.dummy : Block V), unassignedKey)
        ∈ List.insertionSort keyLe res := hperm.mem_iff.mpr hresmem
    obtain ⟨k, hk, hqk⟩ := List.mem_iff_getElem.mp hsmem
    have hslen : 0 < (List.insertionSort keyLe res).length := by
      rw [hperm.length_eq, hreslen]
      omega
    have hlt : (List.insertionSort keyLe res).length - 1
        < (List.insertionSort keyLe res).length := by omega
    rw [getLastD_eq_getD, List.getD_eq_getElem _ _ hlt]
    have hle := sorted_get_key_le hsorted k ((List.insertionSort keyLe res).length - 1)
      (by omega) hlt
    simp only [List.get_eq_getElem] at hle
    rw [hqk, hreskey] at hle
    have hlastmem : (List.insertionSort keyLe res).get
        ⟨(List.insertionSort keyLe res).length - 1, hlt⟩ ∈ List.insertionSort keyLe res :=
      List.get_mem _ _ hlt
    have hgk := hgd _ (hperm.mem_iff.mp hlastmem)
    simp only [List.get_eq_getElem] at hgk
    have hub : ((List.insertionSort keyLe res).get
        ⟨(List.insertionSort keyLe res).length - 1, hlt⟩).2 ≤ unassignedKey := by
      simp only [List.get_eq_getElem]
      by_cases hdm : (((List.insertionSort keyLe res).get
          ⟨(List.insertionSort keyLe res).length - 1, hlt⟩)).1.isDummy = true
      · rcases hgk.1 hdm with hc | hc
        · omega
        · omega
      · rcases hgk.2.1 (by simpa using hdm) with hc | hc
        · omega
        · rcases hc with ⟨hc1, _⟩
          omega
    simp only [List.get_eq_getElem] at hub
    omega

theorem wtp_facts [Inhabited V] (Z h pos : Nat) (B : List (Block V))
    (hh : h < overflowKey) :
    List.Sorted keyLe (wtpSorted Z h pos B)
    ∧ (∀ e, e ≤ h → (wtpSorted Z h pos B).countP (fun p => p.2 == e) = Z)
    ∧ (∀ p ∈ wtpSorted Z h pos B, goodKey h pos p)
    ∧ (∃ g, ((wtpSorted Z h pos B).map Prod.fst).Perm
          (B ++ List.replicate g (Block.dummy : Block V))
        ∧ (wtpSorted Z h pos B).length = B.length + g)
    ∧ (B ≠ [] → (B.getLastD (Block.dummy : Block V)).isDummy = true →
        ((wtpSorted Z h pos B).getLastD ((Block.dummy : Block V), unassignedKey)).2
          = unassignedKey) :=
  wtp_sorted_facts Z h pos B _ _ _ hh rfl rfl rfl

end Oram

namespace Oram

variable {V : Type}

/-! ## Writing the per-level slices into distinct buckets -/

theorem foldl_set_spec {α : Type} (idx : Nat → Nat) (g : Nat → α) (dflt : α) :
    ∀ (ds : List Nat) (m : List α), (ds.map idx).Nodup →
      (∀ d ∈ ds, idx d < m.length) →
      (ds.foldl (fun m d => m.set (idx d) (g d)) m).length = m.length
      ∧ (∀ d ∈ ds, (ds.foldl (fun m d => m.set (idx d) (g d)) m).getD (idx d) dflt = g d)
      ∧ (∀ i, (∀ d ∈ ds, i ≠ idx d) →
          (ds.foldl (fun m d => m.set (idx d) (g d)) m).getD i dflt = m.getD i dflt) := by
  intro ds
  induction ds with
  | nil =>
    intro m _ _
    exact ⟨rfl, fun d hd => absurd hd (by simp), fun i _ => rfl⟩
  | cons a ds ih =>
    intro m hnd hlt
    simp only [List.foldl_cons]
    have hnd2 : (ds.map idx).Nodup := by
      rw [List.map_cons] at hnd
      exact hnd.of_cons
    have hanotin : idx a ∉ ds.map idx := by
      rw [List.map_cons] at hnd
      exact (List.nodup_cons.mp hnd).1
    have hlt2 : ∀ d ∈ ds, idx d < (m.set (idx a) (g a)).length := by
      intro d hd
      rw [List.length_set]
      exact hlt d (by simp [hd])
    obtain ⟨ih1, ih2, ih3⟩ := ih (m.set (idx a) (g a)) hnd2 hlt2
    refine ⟨by rw [ih1, List.length_set], ?_, ?_⟩
    · intro d hd
      rcases List.mem_cons.mp hd with hda | hds
      · subst hda
        rw [ih3 (idx d) ?hfresh]
        case hfresh =>
          intro e he hceq
          exact hanotin (hceq ▸ List.mem_map_of_mem idx he)
        exact getD_set_self m (idx d) (g d) dflt (hlt d (by simp))
      · exact ih2 d hds
    · intro i hi
      rw [ih3 i (fun d hd => hi d (by simp [hd]))]
      exact getD_set_other m (hi a (by simp)).symm (g a) dflt

theorem map_eq_range_getD {α β : Type} (f : α → β) (dflt : α) :
    ∀ (l : List α), l.map f
      = (List.range l.length).map (fun i => f (l.getD i dflt)) := by
  intro l
  induction l with
  | nil => rfl
  | cons x xs ih =>
    simp only [List.map_cons, List.length_cons, List.range_succ_eq_map, List.map_map]
    have hfun : ((fun i => f ((x :: xs).getD i dflt)) ∘ Nat.succ)
        = fun i => f (xs.getD i dflt) := by
      funext i
      rfl
    rw [hfun, ← ih]
    rfl

theorem pathIdx_nodup {pos h : Nat} (hp : IsLeaf pos h) :
    ((List.range (h + 1)).map (fun d => nodeOnPath pos d h)).Nodup := by
  apply List.Nodup.map_on
  · intro d1 hd1 d2 hd2 heq
    rw [List.mem_range] at hd1 hd2
    have h1 := depthOf_nodeOnPath hp (by omega : d1 ≤ h)
    have h2 := depthOf_nodeOnPath hp (by omega : d2 ≤ h)
    rw [← h1, ← h2, heq]
  · exact List.nodup_range (h + 1)

theorem wtpMem_spec [Inhabited V] (Z h pos : Nat) (B : List (Block V))
    (mem : List (List (Block V))) (hp : IsLeaf pos h)
    (hmemlen : mem.length = 2 ^ (h + 1)) :
    (wtpMem Z h pos B mem).length = mem.length
    ∧ (∀ d, d ≤ h → (wtpMem Z h pos B mem).getD (nodeOnPath pos d h) []
        = (((wtpSorted Z h pos B).map Prod.fst).drop (Z * d)).take Z)
    ∧ (∀ i, (∀ d, d ≤ h → i ≠ nodeOnPath pos d h) →
        (wtpMem Z h pos B mem).getD i [] = mem.getD i []) := by
  have hlt : ∀ d ∈ List.range (h + 1), nodeOnPath pos d h < mem.length := by
    intro d hd
    rw [List.mem_range] at hd
    rw [hmemlen]
    exact nodeOnPath_lt hp (by omega)
  obtain ⟨h1, h2, h3⟩ := foldl_set_spec (fun d => nodeOnPath pos d h)
    (fun d => (((wtpSorted Z h pos B).map Prod.fst).drop (Z * d)).take Z)
    ([] : List (Block V)) (List.range (h + 1)) mem (pathIdx_nodup hp) hlt
  refine ⟨h1, ?_, ?_⟩
  · intro d hd
    exact h2 d (List.mem_range.mpr (by omega))
  · intro i hi
    exact h3 i (fun d hd => hi d (by rw [List.mem_range] at hd; omega))

theorem sum_partition_path (F : Nat → Nat) (C : Nat) (ixs : List Nat)
    (hnd : ixs.Nodup) (hsub : ∀ i ∈ ixs, i < C) :
    ((List.range C).map F).sum
      = (ixs.map F).sum
        + (((List.range C).filter (fun i => decide (i ∉ ixs))).map F).sum := by
  have hperm : (List.range C).Perm
      (ixs ++ (List.range C).filter (fun i => decide (i ∉ ixs))) := by
    refine (List.perm_ext_iff_of_nodup (List.nodup_range C) ?nd).mpr ?mem
    case nd =>
      apply List.Nodup.append hnd (List.Nodup.filter _ (List.nodup_range C))
      intro a ha hfa
      rw [List.mem_filter] at hfa
      exact (decide_eq_true_eq.mp hfa.2) ha
    case mem =>
      intro a
      simp only [List.mem_range, List.mem_append, List.mem_filter, decide_eq_true_eq]
      constructor
      · intro ha
        by_cases hmem : a ∈ ixs
        · exact Or.inl hmem
        · exact Or.inr ⟨ha, hmem⟩
      · rintro (hc | hc)
        · exact hsub a hc
        · exact hc.1
  rw [(hperm.map F).sum_eq, List.map_append, List.sum_append]

end Oram

namespace Oram

variable {V : Type}

/-! ## Counting the content moved by write_to_path -/

theorem countP_concat {α : Type} (p : α → Bool) :
    ∀ (ls : List (List α)),
      (ls.foldr (fun a b => a ++ b) []).countP p
        = (ls.map (fun l => l.countP p)).sum := by
  intro ls
  induction ls with
  | nil => rfl
  | cons l ls ih =>
    simp only [List.foldr_cons, List.countP_append, List.map_cons, List.sum_cons, ih]

theorem countP_take_slices {α : Type} (p : α → Bool) (Z : Nat) (s : List α) :
    ∀ n, ((List.range n).map (fun d => ((s.drop (Z * d)).take Z).countP p)).sum
      = (s.take (Z * n)).countP p := by
  intro n
  induction n with
  | zero => simp
  | succ n ih =>
    rw [List.range_succ, List.map_append, List.sum_append, take_mul_succ Z n s,
      List.countP_append, ih]
    simp

theorem countP_dummy_blocks_replicate [Inhabited V] (p : Block V → Bool)
    (hpd : p (Block.dummy : Block V) = false) (g : Nat) :
    (List.replicate g (Block.dummy : Block V)).countP p = 0 := by
  apply List.countP_eq_zero.mpr
  intro b hb
  rw [List.eq_of_mem_replicate hb, hpd]
  simp

theorem countP_pathConcat (p : Block V → Bool) (mem : List (List (Block V)))
    (pos h : Nat) :
    (pathConcat mem pos h).countP p
      = ((List.range (h + 1)).map
          (fun d => (mem.getD (nodeOnPath pos d h) []).countP p)).sum := by
  unfold pathConcat
  rw [countP_concat, List.map_map]
  congr 1

theorem wtp_content [Inhabited V] (Z h pos : Nat) (B : List (Block V))
    (mem : List (List (Block V))) (hp : IsLeaf pos h) (hh : h < overflowKey)
    (hmemlen : mem.length = 2 ^ (h + 1))
    (hBlen : Z * (h + 1) ≤ B.length)
    (p : Block V → Bool) (hpd : p (Block.dummy : Block V) = false) :
    (allBlocks (wtpMem Z h pos B mem)).countP p
      + (((wtpSorted Z h pos B).map Prod.fst).drop (Z * (h + 1))).countP p
      + (pathConcat mem pos h).countP p
      = (allBlocks mem).countP p + B.countP p := by
  obtain ⟨hsorted, hcnt, hgood, ⟨g, hpermB, hslen⟩, hlastf⟩ := wtp_facts Z h pos B hh
  obtain ⟨hmlen, hmpath, hmoff⟩ := wtpMem_spec Z h pos B mem hp hmemlen
  have hSlen : ((wtpSorted Z h pos B).map Prod.fst).length = B.length + g := by
    rw [List.length_map, hslen]
  have hScount : ((wtpSorted Z h pos B).map Prod.fst).countP p = B.countP p := by
    rw [hpermB.countP_eq, List.countP_append, countP_dummy_blocks_replicate p hpd]
    omega
  have hnd : ((List.range (h + 1)).map (fun d => nodeOnPath pos d h)).Nodup :=
    pathIdx_nodup hp
  have hsub : ∀ i ∈ (List.range (h + 1)).map (fun d => nodeOnPath pos d h),
      i < 2 ^ (h + 1) := by
    intro i hi
    obtain ⟨d, hd, hdi⟩ := List.mem_map.mp hi
    rw [List.mem_range] at hd
    rw [← hdi]
    exact nodeOnPath_lt hp (by omega)
  have hold : (allBlocks mem).countP p
      = ((List.range (2 ^ (h + 1))).map
          (fun i => (mem.getD i []).countP p)).sum := by
    rw [countP_allBlocks, map_eq_range_getD (fun bkt => bkt.countP p) [] mem, hmemlen]
  have hnew : (allBlocks (wtpMem Z h pos B mem)).countP p
      = ((List.range (2 ^ (h + 1))).map
          (fun i => ((wtpMem Z h pos B mem).getD i []).countP p)).sum := by
    rw [countP_allBlocks, map_eq_range_getD (fun bkt => bkt.countP p) [] _, hmlen,
      hmemlen]
  have holdsplit := sum_partition_path (fun i => (mem.getD i []).countP p)
    (2 ^ (h + 1)) ((List.range (h + 1)).map (fun d => nodeOnPath pos d h)) hnd hsub
  have hnewsplit := sum_partition_path
    (fun i => ((wtpMem Z h pos B mem).getD i []).countP p)
    (2 ^ (h + 1)) ((List.range (h + 1)).map (fun d => nodeOnPath pos d h)) hnd hsub
  have hoffeq : (((List.range (2 ^ (h + 1))).filter
        (fun i => decide (i ∉ (List.range (h + 1)).map (fun d => nodeOnPath pos d h)))).map
          (fun i => ((wtpMem Z h pos B mem).getD i []).countP p)).sum
      = (((List.range (2 ^ (h + 1))).filter
        (fun i => decide (i ∉ (List.range (h + 1)).map (fun d => nodeOnPath pos d h)))).map
          (fun i => (mem.getD i []).countP p)).sum := by
    congr 1
    apply List.map_congr_left
    intro i hi
    rw [List.mem_filter] at hi
    have hnotin := decide_eq_true_eq.mp hi.2
    have hne : ∀ d, d ≤ h → i ≠ nodeOnPath pos d h := by
      intro d hd hceq
      exact hnotin (List.mem_map.mpr ⟨d, List.mem_range.mpr (by omega), hceq.symm⟩)
    rw [hmoff i hne]
  have hpatheq : (((List.range (h + 1)).map (fun d => nodeOnPath pos d h)).map
        (fun i => ((wtpMem Z h pos B mem).getD i []).countP p)).sum
      = ((List.range (h + 1)).map
          (fun d => ((((wtpSorted Z h pos B).map Prod.fst).drop (Z * d)).take Z).countP p)).sum := by
    rw [List.map_map]
    congr 1
    apply List.map_congr_left
    intro d hd
    rw [List.mem_range] at hd
    simp only [Function.comp]
    rw [hmpath d (by omega)]
  have hpatholde : (((List.range (h + 1)).map (fun d => nodeOnPath pos d h)).map
        (fun i => (mem.getD i []).countP p)).sum
      = (pathConcat mem pos h).countP p := by
    rw [countP_pathConcat, List.map_map]
    congr 1
  have hslices := countP_take_slices p Z ((wtpSorted Z h pos B).map Prod.fst) (h + 1)
  have htd : (((wtpSorted Z h pos B).map Prod.fst).take (Z * (h + 1))).countP p
      + (((wtpSorted Z h pos B).map Prod.fst).drop (Z * (h + 1))).countP p
      = B.countP p := by
    rw [← hScount]
    conv_rhs => rw [← List.take_append_drop (Z * (h + 1)) ((wtpSorted Z h pos B).map Prod.fst)]
    rw [List.countP_append]
  rw [hnew, hnewsplit, hpatheq, hoffeq, hslices]
  rw [hold, holdsplit, hpatholde] 
  omega

end Oram

namespace Oram

variable {V : Type}

/-! ## The pieces of one ORAM access -/

theorem getD_default_irrel {α : Type} (l : List α) (i : Nat) (d d' : α)
    (h : i < l.length) : l.getD i d = l.getD i d' := by
  rw [List.getD_eq_getElem l d h, List.getD_eq_getElem l d' h]

theorem writeToPath_eq_leaf [Inhabited V] (Z h : Nat) (stash : Stash V)
    (mem : List (List (Block V))) (pos : Nat) (hp : IsLeaf pos h) :
    ObliviousStash.writeToPath Z stash mem pos
      = ({ stash with blocks := (wtpSorted Z h pos stash.blocks).map Prod.fst },
         wtpMem Z h pos stash.blocks mem) := by
  rw [writeToPath_eq, depthOf_leaf hp]

theorem readFromPath_eq [Inhabited V] (Z h : Nat) (stash : Stash V)
    (mem : List (List (Block V))) (pos : Nat) (hp : IsLeaf pos h)
    (hps : stash.pathSize = Z * (h + 1)) (hZ : 0 < Z)
    (hmemlen : mem.length = 2 ^ (h + 1)) :
    ObliviousStash.readFromPath Z stash mem pos
      = { stash with blocks := pathConcat mem pos h ++ stashOverflowRegion stash } := by
  unfold ObliviousStash.readFromPath
  rw [depthOf_leaf hp, hps]
  have hn : Z * (h + 1) / Z = h + 1 := Nat.mul_div_cancel_left (h + 1) hZ
  rw [hn]
  dsimp only
  congr 1
  congr 1
  · unfold pathConcat
    congr 1
    apply List.map_congr_left
    intro d hd
    rw [List.mem_range] at hd
    exact getD_default_irrel mem _ _ [] (by rw [hmemlen]; exact nodeOnPath_lt hp (by omega))
  · unfold stashOverflowRegion
    rw [hps]

theorem wtp_slice_facts [Inhabited V] (Z h pos : Nat) (B : List (Block V))
    (hh : h < overflowKey) (hBlen : Z * (h + 1) ≤ B.length) :
    ∀ d, d ≤ h →
      ((((wtpSorted Z h pos B).map Prod.fst).drop (Z * d)).take Z).length = Z
      ∧ ∀ b ∈ (((wtpSorted Z h pos B).map Prod.fst).drop (Z * d)).take Z,
          (b ∈ B ∨ b = (Block.dummy : Block V))
          ∧ (b.isDummy = false → nodeOnPath b.position d h = nodeOnPath pos d h) := by
  obtain ⟨hsorted, hcnt, hgood, ⟨g, hpermB, hslen⟩, hlastf⟩ := wtp_facts Z h pos B hh
  intro d hd
  have hmt : ((wtpSorted Z h pos B).map Prod.fst).drop (Z * d)
      = ((wtpSorted Z h pos B).drop (Z * d)).map Prod.fst := by
    rw [List.map_drop]
  have hmt2 : (((wtpSorted Z h pos B).map Prod.fst).drop (Z * d)).take Z
      = (((wtpSorted Z h pos B).drop (Z * d)).take Z).map Prod.fst := by
    rw [hmt, List.map_take]
  constructor
  · rw [List.length_take, List.length_drop, List.length_map, hslen]
    have hZd : Z * d + Z ≤ Z * (h + 1) := by
      rw [← Nat.mul_succ]
      exact Nat.mul_le_mul (le_refl Z) (by omega)
    omega
  · intro b hb
    rw [hmt2] at hb
    obtain ⟨q, hq, hqb⟩ := List.mem_map.mp hb
    have hqs : q ∈ wtpSorted Z h pos B :=
      List.mem_of_mem_drop (List.mem_of_mem_take hq)
    have hqkey : q.2 = d := sorted_slice_key_eq hsorted hcnt d hd q hq
    have hprov : b ∈ B ∨ b = (Block.dummy : Block V) := by
      have hmem : b ∈ (wtpSorted Z h pos B).map Prod.fst := by
        rw [← hqb]
        exact List.mem_map_of_mem Prod.fst hqs
      have := hpermB.mem_iff.mp hmem
      rcases List.mem_append.mp this with hc | hc
      · exact Or.inl hc
      · exact Or.inr (List.eq_of_mem_replicate hc)
    refine ⟨hprov, ?_⟩
    intro hreal
    have hgk := hgood q hqs
    have hqreal : q.1.isDummy = false := by
      rw [hqb]
      exact hreal
    rcases hgk.2.1 hqreal with hc | hc
    · rw [hqkey] at hc
      omega
    · rw [hqkey] at hc
      rw [← hqb]
      exact hc.2

theorem wtp_stash_mem [Inhabited V] (Z h pos : Nat) (B : List (Block V))
    (hh : h < overflowKey) :
    ∀ b ∈ (wtpSorted Z h pos B).map Prod.fst, b ∈ B ∨ b = (Block.dummy : Block V) := by
  obtain ⟨hsorted, hcnt, hgood, ⟨g, hpermB, hslen⟩, hlastf⟩ := wtp_facts Z h pos B hh
  intro b hb
  have := hpermB.mem_iff.mp hb
  rcases List.mem_append.mp this with hc | hc
  · exact Or.inl hc
  · exact Or.inr (List.eq_of_mem_replicate hc)

theorem wtp_lastSlot [Inhabited V] (Z h pos : Nat) (B : List (Block V))
    (hh : h < overflowKey) (hne : B ≠ [])
    (hlastB : (B.getLastD (Block.dummy : Block V)).isDummy = true) :
    (((wtpSorted Z h pos B).map Prod.fst).getLastD (Block.dummy : Block V)).isDummy
      = true := by
  obtain ⟨hsorted, hcnt, hgood, ⟨g, hpermB, hslen⟩, hlastf⟩ := wtp_facts Z h pos B hh
  have hkey := hlastf hne hlastB
  have hsne : wtpSorted Z h pos B ≠ [] := by
    intro hc
    have hlc := congrArg List.length hc
    rw [hslen] at hlc
    simp only [List.length_nil] at hlc
    have : 0 < B.length := List.length_pos.mpr hne
    omega
  have hqmem : (wtpSorted Z h pos B).getLastD ((Block.dummy : Block V), unassignedKey)
      ∈ wtpSorted Z h pos B := getLastD_mem _ _ hsne
  have hgk := hgood _ hqmem
  have hdum := hgk.2.2 hkey
  have hmapl : ((wtpSorted Z h pos B).map Prod.fst).getLastD (Block.dummy : Block V)
      = ((wtpSorted Z h pos B).getLastD ((Block.dummy : Block V), unassignedKey)).1 :=
    getLastD_map Prod.fst (wtpSorted Z h pos B) ((Block.dummy : Block V), unassignedKey)
  rw [hmapl]
  exact hdum

end Oram

namespace Oram

variable {V : Type}

/-! ## Helpers for the access invariant -/

theorem countP_one_split {α : Type} (p : α → Bool) :
    ∀ (l : List α), l.countP p = 1 →
      ∃ l₁ b l₂, l = l₁ ++ b :: l₂ ∧ p b = true
        ∧ l₁.countP p = 0 ∧ l₂.countP p = 0 := by
  intro l
  induction l with
  | nil => intro hc; simp [List.countP_nil] at hc
  | cons x xs ih =>
    intro hc
    rw [List.countP_cons] at hc
    by_cases hx : p x = true
    · refine ⟨[], x, xs, rfl, hx, rfl, ?_⟩
      rw [hx] at hc
      simpa using hc
    · have hx0 : (if p x = true then 1 else 0) = 0 := by simp [hx]
      rw [hx0] at hc
      obtain ⟨l₁, b, l₂, hsp, hb, h1, h2⟩ := ih (by omega)
      refine ⟨x :: l₁, b, l₂, by rw [hsp, List.cons_append], hb, ?_, h2⟩
      rw [List.countP_cons]
      simp [hx, h1]

theorem pathConcat_eq_allBlocks (mem : List (List (Block V))) (pos h : Nat) :
    pathConcat mem pos h
      = allBlocks ((List.range (h + 1)).map
          (fun d => mem.getD (nodeOnPath pos d h) [])) := rfl

theorem leaf_ne_zero {p h : Nat} (hp : IsLeaf p h) : p ≠ 0 := by
  obtain ⟨h1, _⟩ := hp
  have h2p : (1 : Nat) ≤ 2 ^ h := Nat.one_le_two_pow
  omega

theorem realWithAddr_dummy [Inhabited V] (a : Nat) :
    realWithAddr a (Block.dummy : Block V) = false := rfl

theorem isDummy_of_position_ne {b : Block V} (hb : b.position ≠ 0) :
    b.isDummy = false := by
  unfold Block.isDummy
  simp [hb]

theorem getD_bucket_mem {mem : List (List (Block V))} {i : Nat}
    (hi : i < mem.length) : mem.getD i [] ∈ mem := by
  rw [List.getD_eq_getElem mem [] hi]
  exact List.getElem_mem hi

theorem mem_allBlocks_of_bucket {b : Block V} {mem : List (List (Block V))}
    {i : Nat} (hi : i < mem.length) (hb : b ∈ mem.getD i []) :
    b ∈ allBlocks mem :=
  mem_allBlocks.mpr ⟨mem.getD i [], getD_bucket_mem hi, hb⟩

theorem h_lt_overflowKey {h : Nat} (hb64 : 2 ^ (h + 1) < dummyAddress) :
    h < overflowKey := by
  have h1 : h < 2 ^ (h + 1) := by
    have := Nat.lt_two_pow h
    have h2 : (2 : Nat) ^ h ≤ 2 ^ (h + 1) := Nat.pow_le_pow_right (by omega) (by omega)
    omega
  have h3 : dummyAddress = overflowKey + 1 := by decide
  omega

end Oram

namespace Oram

variable {V : Type}

/-! ## The stash after reading the path -/

theorem allBlocks_length (ls : List (List (Block V))) :
    (allBlocks ls).length = (ls.map List.length).sum := by
  induction ls with
  | nil => rfl
  | cons l ls ih => simp [allBlocks_cons, ih]

theorem pathConcat_length (mem : List (List (Block V))) (pos h Z : Nat)
    (hmemlen : mem.length = 2 ^ (h + 1)) (hp : IsLeaf pos h)
    (hbkt : ∀ bkt ∈ mem, bkt.length = Z) :
    (pathConcat mem pos h).length = Z * (h + 1) := by
  rw [pathConcat_eq_allBlocks, allBlocks_length, List.map_map]
  have hconst : ((List.range (h + 1)).map
      (List.length ∘ fun d => mem.getD (nodeOnPath pos d h) []))
      = (List.range (h + 1)).map (fun d => Z) := by
    apply List.map_congr_left
    intro d hd
    rw [List.mem_range] at hd
    simp only [Function.comp]
    apply hbkt
    apply getD_bucket_mem
    rw [hmemlen]
    exact nodeOnPath_lt hp (by omega)
  rw [hconst]
  simp [List.map_const, List.sum_replicate, Nat.mul_comm]

theorem mem_pathConcat {b : Block V} {mem : List (List (Block V))} {pos h : Nat}
    (hb : b ∈ pathConcat mem pos h) :
    ∃ d, d ≤ h ∧ b ∈ mem.getD (nodeOnPath pos d h) [] := by
  rw [pathConcat_eq_allBlocks] at hb
  obtain ⟨bkt, hbkt, hbb⟩ := mem_allBlocks.mp hb
  obtain ⟨d, hd, hde⟩ := List.mem_map.mp hbkt
  rw [List.mem_range] at hd
  exact ⟨d, by omega, hde ▸ hbb⟩

theorem read_stage_facts [Inhabited V] (Z h : Nat) (ref : Nat → V) (st : PState V)
    (hInv : Inv Z h ref st) (addr : Nat) (ha : addr < 2 ^ (h + 1))
    (hb64 : 2 ^ (h + 1) < dummyAddress) :
    realCountAddr addr
      (pathConcat st.mem (st.posMap.getD addr 0) h ++ stashOverflowRegion st.stash) = 1
    ∧ (∀ b ∈ pathConcat st.mem (st.posMap.getD addr 0) h
          ++ stashOverflowRegion st.stash,
        b.isDummy = true → b.address = dummyAddress)
    ∧ (∀ b ∈ pathConcat st.mem (st.posMap.getD addr 0) h
          ++ stashOverflowRegion st.stash,
        b.isDummy = false →
          b.address < 2 ^ (h + 1)
          ∧ b.value = ref b.address
          ∧ b.position = st.posMap.getD b.address 0)
    ∧ ((pathConcat st.mem (st.posMap.getD addr 0) h
          ++ stashOverflowRegion st.stash).getLastD (Block.dummy : Block V)).isDummy
        = true
    ∧ (pathConcat st.mem (st.posMap.getD addr 0) h).length = Z * (h + 1)
    ∧ (∀ i, i < st.mem.length →
        (∀ d, d ≤ h → i ≠ nodeOnPath (st.posMap.getD addr 0) d h) →
        realCountAddr addr (st.mem.getD i []) = 0) := by
  obtain ⟨i1, i2, i3, i4, i5, i6, i6b, i7, i8, i9, i10, i11⟩ := hInv
  have hop : IsLeaf (st.posMap.getD addr 0) h := i6 addr ha
  have hpathmem : ∀ b ∈ pathConcat st.mem (st.posMap.getD addr 0) h,
      b ∈ allBlocks st.mem := by
    intro b hb
    obtain ⟨d, hd, hbd⟩ := mem_pathConcat hb
    exact mem_allBlocks_of_bucket (by rw [i2]; exact nodeOnPath_lt hop hd) hbd
  have hovmem : ∀ b ∈ stashOverflowRegion st.stash, b ∈ st.stash.blocks := by
    intro b hb
    exact List.drop_subset _ _ hb
  have hmemlog : ∀ b ∈ pathConcat st.mem (st.posMap.getD addr 0) h
      ++ stashOverflowRegion st.stash, b ∈ logicalContent st := by
    intro b hb
    rcases List.mem_append.mp hb with hb | hb
    · exact List.mem_append_left _ (hpathmem b hb)
    · exact List.mem_append_right _ hb
  have hoffzero : ∀ i, i < st.mem.length →
      (∀ d, d ≤ h → i ≠ nodeOnPath (st.posMap.getD addr 0) d h) →
      realCountAddr addr (st.mem.getD i []) = 0 := by
    intro i hi hne
    apply List.countP_eq_zero.mpr
    intro b hb hP
    have hbreal : b.isDummy = false ∧ b.address = addr := by
      unfold realWithAddr at hP
      simp only [Bool.and_eq_true, Bool.not_eq_true', beq_iff_eq] at hP
      exact hP
    have hblog : b ∈ logicalContent st :=
      List.mem_append_left _ (mem_allBlocks_of_bucket hi hb)
    obtain ⟨_, _, hbpos⟩ := i8 b hblog hbreal.1
    obtain ⟨d, hd, hid⟩ := i10 i hi b hb hbreal.1
    rw [hbpos, hbreal.2] at hid
    exact hne d hd hid
  refine ⟨?_, ?_, ?_, ?_, ?_, hoffzero⟩
  · -- exactly one block with the requested address
    have hlogsplit : realCountAddr addr (allBlocks st.mem)
        + realCountAddr addr (stashOverflowRegion st.stash) = 1 := by
      have := i7 addr ha
      unfold logicalContent realCountAddr at this
      rw [List.countP_append] at this
      exact this
    have htree : realCountAddr addr (allBlocks st.mem)
        = ((List.range (2 ^ (h + 1))).map
            (fun i => realCountAddr addr (st.mem.getD i []))).sum := by
      unfold realCountAddr
      rw [countP_allBlocks, map_eq_range_getD (fun bkt => bkt.countP (realWithAddr addr)) [] _, i2]
    have hnd := pathIdx_nodup hop
    have hsub : ∀ i ∈ (List.range (h + 1)).map
        (fun d => nodeOnPath (st.posMap.getD addr 0) d h), i < 2 ^ (h + 1) := by
      intro i hi
      obtain ⟨d, hd, hdi⟩ := List.mem_map.mp hi
      rw [List.mem_range] at hd
      rw [← hdi]
      exact nodeOnPath_lt hop (by omega)
    have hsplit := sum_partition_path
      (fun i => realCountAddr addr (st.mem.getD i []))
      (2 ^ (h + 1))
      ((List.range (h + 1)).map (fun d => nodeOnPath (st.posMap.getD addr 0) d h))
      hnd hsub
    have hoffs : (((List.range (2 ^ (h + 1))).filter
        (fun i => decide (i ∉ (List.range (h + 1)).map
          (fun d => nodeOnPath (st.posMap.getD addr 0) d h)))).map
        (fun i => realCountAddr addr (st.mem.getD i []))).sum = 0 := by
      apply List.sum_eq_zero
      intro x hx
      obtain ⟨i, hi, hxe⟩ := List.mem_map.mp hx
      rw [List.mem_filter] at hi
      have hir := List.mem_range.mp hi.1
      have hnotin := decide_eq_true_eq.mp hi.2
      rw [← hxe]
      apply hoffzero i (by omega)
      intro d hd hceq
      exact hnotin (List.mem_map.mpr ⟨d, List.mem_range.mpr (by omega), hceq.symm⟩)
    have hpathsum : (((List.range (h + 1)).map
        (fun d => nodeOnPath (st.posMap.getD addr 0) d h)).map
          (fun i => realCountAddr addr (st.mem.getD i []))).sum
        = realCountAddr addr (pathConcat st.mem (st.posMap.getD addr 0) h) := by
      unfold realCountAddr
      rw [pathConcat_eq_allBlocks, countP_allBlocks, List.map_map, List.map_map]
      congr 1
    unfold realCountAddr
    rw [List.countP_append]
    have hgoal := hlogsplit
    rw [htree, hsplit, hoffs, hpathsum] at hgoal
    unfold realCountAddr at hgoal
    omega
  · intro b hb hd
    rcases List.mem_append.mp hb with hbc | hbc
    · exact i9 b (List.mem_append_left _ (hpathmem b hbc)) hd
    · exact i9 b (List.mem_append_right _ (hovmem b hbc)) hd
  · intro b hb hreal
    exact i8 b (hmemlog b hb) hreal
  · have hovne : stashOverflowRegion st.stash ≠ [] := by
      unfold stashOverflowRegion
      intro hc
      have hlc := congrArg List.length hc
      simp only [List.length_drop, List.length_nil] at hlc
      omega
    rw [getLastD_append _ hovne]
    unfold stashOverflowRegion
    rw [getLastD_drop _ _ _ (by omega)]
    exact i11
  · exact pathConcat_length st.mem _ h Z i2 hop i3

end Oram

namespace Oram

variable {V : Type}

/-! ## The stash access stage -/

theorem access_stage_facts [Inhabited V] (S₁ : List (Block V)) (ps addr newPos : Nat)
    (f : V → V)
    (hcnt1 : realCountAddr addr S₁ = 1)
    (hdum1 : ∀ b ∈ S₁, b.isDummy = true → b.address = dummyAddress)
    (haddr : addr ≠ dummyAddress)
    (hlast1 : (S₁.getLastD (Block.dummy : Block V)).isDummy = true) :
    ∃ bb : Block V, bb ∈ S₁ ∧ bb.isDummy = false ∧ bb.address = addr
      ∧ (ObliviousStash.access (⟨S₁, ps⟩ : Stash V) addr newPos f).1 = bb.value
      ∧ (ObliviousStash.access (⟨S₁, ps⟩ : Stash V) addr newPos f).2.pathSize = ps
      ∧ (ObliviousStash.access (⟨S₁, ps⟩ : Stash V) addr newPos f).2.blocks.length
          = S₁.length
      ∧ (∀ p : Block V → Bool,
          p bb = p ({ bb with position := newPos, value := f bb.value }) →
          (ObliviousStash.access (⟨S₁, ps⟩ : Stash V) addr newPos f).2.blocks.countP p
            = S₁.countP p)
      ∧ (∀ b ∈ (ObliviousStash.access (⟨S₁, ps⟩ : Stash V) addr newPos f).2.blocks,
          b = { bb with position := newPos, value := f bb.value }
          ∨ (b ∈ S₁ ∧ b.address ≠ addr))
      ∧ (((ObliviousStash.access (⟨S₁, ps⟩ : Stash V) addr newPos f).2.blocks.getLastD
          (Block.dummy : Block V)).isDummy = true) := by
  obtain ⟨l₁, bb, l₂, hsp, hbb, hc1, hc2⟩ :=
    countP_one_split (realWithAddr addr) S₁ hcnt1
  have hbbreal : bb.isDummy = false ∧ bb.address = addr := by
    unfold realWithAddr at hbb
    simp only [Bool.and_eq_true, Bool.not_eq_true', beq_iff_eq] at hbb
    exact hbb
  have hl₁ : ∀ b ∈ l₁, b.address ≠ addr := by
    intro b hbmem hceq
    by_cases hdm : b.isDummy = true
    · have hda := hdum1 b (by rw [hsp]; exact List.mem_append_left _ hbmem) hdm
      rw [hda] at hceq
      exact haddr hceq.symm
    · have hP : realWithAddr addr b = true := by
        unfold realWithAddr
        simp only [Bool.and_eq_true, Bool.not_eq_true', beq_iff_eq]
        exact ⟨by simpa using hdm, hceq⟩
      exact (List.countP_eq_zero.mp hc1 b hbmem) hP
  have hl₂ : ∀ b ∈ l₂, b.address ≠ addr := by
    intro b hbmem hceq
    by_cases hdm : b.isDummy = true
    · have hda := hdum1 b
        (by rw [hsp]; exact List.mem_append_right _ (List.mem_cons_of_mem bb hbmem)) hdm
      rw [hda] at hceq
      exact haddr hceq.symm
    · have hP : realWithAddr addr b = true := by
        unfold realWithAddr
        simp only [Bool.and_eq_true, Bool.not_eq_true', beq_iff_eq]
        exact ⟨by simpa using hdm, hceq⟩
      exact (List.countP_eq_zero.mp hc2 b hbmem) hP
  have hra := stash_access_correct (⟨S₁, ps⟩ : Stash V) addr newPos f
    (le_of_eq hcnt1)
    (by
      intro b hb hdm
      rw [hdum1 b hb hdm]
      exact fun hceq => haddr hceq.symm)
    hlast1
  obtain ⟨hv, hblocks, hps⟩ := hra.1 l₁ bb l₂ hsp hbbreal.2 hl₁ hl₂
  have hl₂ne : l₂ ≠ [] := by
    intro hc
    rw [hc] at hsp
    have hS₁b : S₁.getLastD (Block.dummy : Block V) = bb := by
      rw [hsp, getLastD_append _ (by simp)]
      rfl
    rw [hS₁b, hbbreal.1] at hlast1
    cases hlast1
  refine ⟨bb, by rw [hsp]; exact List.mem_append_right _ (List.mem_cons_self bb l₂),
    hbbreal.1, hbbreal.2, hv, hps, ?_, ?_, ?_, ?_⟩
  · rw [hblocks, hsp]
    simp [List.length_append]
  · intro p hpe
    rw [hblocks, hsp, List.countP_append, List.countP_append, List.countP_cons,
      List.countP_cons, ← hpe]
  · intro b hb
    rw [hblocks] at hb
    rcases List.mem_append.mp hb with hbc | hbc
    · exact Or.inr ⟨by rw [hsp]; exact List.mem_append_left _ hbc, hl₁ b hbc⟩
    · rcases List.mem_cons.mp hbc with hbc | hbc
      · exact Or.inl hbc
      · refine Or.inr ⟨?_, hl₂ b hbc⟩
        rw [hsp]
        exact List.mem_append_right _ (List.mem_cons_of_mem bb hbc)
  · have hS₁last : S₁.getLastD (Block.dummy : Block V)
        = l₂.getLastD (Block.dummy : Block V) := by
      rw [hsp, getLastD_append _ (by simp), List.getLastD_cons,
        getLastD_congr l₂ _ _ hl₂ne]
    rw [hblocks, getLastD_append _ (by simp), List.getLastD_cons,
      getLastD_congr l₂ _ _ hl₂ne, ← hS₁last]
    exact hlast1

end Oram

namespace Oram

variable {V : Type}

/-! ## The state after write_to_path satisfies the invariant -/

theorem post_state_Inv [Inhabited V] (Z h addr newPos : Nat) (f : V → V)
    (ref : Nat → V) (st : PState V) (B₂ : List (Block V)) (bb : Block V)
    (i1 : st.height = h)
    (i2 : st.mem.length = 2 ^ (h + 1))
    (i3 : ∀ bkt ∈ st.mem, bkt.length = Z)
    (i4 : st.stash.pathSize = Z * (h + 1))
    (i5 : Z * (h + 1) + 1 ≤ st.stash.blocks.length)
    (i6 : ∀ a, a < 2 ^ (h + 1) → IsLeaf (st.posMap.getD a 0) h)
    (i6b : 2 ^ (h + 1) ≤ st.posMap.length)
    (i7 : ∀ a, a < 2 ^ (h + 1) → realCountAddr a (logicalContent st) = 1)
    (i8 : ∀ b ∈ logicalContent st, b.isDummy = false →
        b.address < 2 ^ (h + 1) ∧ b.value = ref b.address
        ∧ b.position = st.posMap.getD b.address 0)
    (i9 : ∀ b ∈ allBlocks st.mem ++ st.stash.blocks, b.isDummy = true →
        b.address = dummyAddress)
    (i10 : ∀ i, i < st.mem.length → ∀ b ∈ st.mem.getD i [], b.isDummy = false →
        ∃ d, d ≤ h ∧ i = nodeOnPath b.position d h)
    (hb64 : 2 ^ (h + 1) < dummyAddress)
    (ha : addr < 2 ^ (h + 1)) (hnp : IsLeaf newPos h)
    (hop : IsLeaf (st.posMap.getD addr 0) h)
    (ha4 : B₂.length = (pathConcat st.mem (st.posMap.getD addr 0) h
        ++ stashOverflowRegion st.stash).length)
    (ha5 : ∀ p : Block V → Bool,
        p bb = p ({ bb with position := newPos, value := f bb.value }) →
        B₂.countP p = (pathConcat st.mem (st.posMap.getD addr 0) h
          ++ stashOverflowRegion st.stash).countP p)
    (ha6 : ∀ b ∈ B₂, b = { bb with position := newPos, value := f bb.value }
        ∨ (b ∈ pathConcat st.mem (st.posMap.getD addr 0) h
            ++ stashOverflowRegion st.stash ∧ b.address ≠ addr))
    (ha7 : (B₂.getLastD (Block.dummy : Block V)).isDummy = true)
    (hbbdum : bb.isDummy = false) (hbbaddr : bb.address = addr)
    (hbbv : bb.value = ref addr)
    (r4 : ∀ b ∈ pathConcat st.mem (st.posMap.getD addr 0) h
        ++ stashOverflowRegion st.stash, b.isDummy = false →
        b.address < 2 ^ (h + 1) ∧ b.value = ref b.address
        ∧ b.position = st.posMap.getD b.address 0)
    (r6 : (pathConcat st.mem (st.posMap.getD addr 0) h).length = Z * (h + 1))
    (r7 : ∀ i, i < st.mem.length →
        (∀ d, d ≤ h → i ≠ nodeOnPath (st.posMap.getD addr 0) d h) →
        realCountAddr addr (st.mem.getD i []) = 0) :
    Inv Z h (refUpd ref ⟨addr, f, newPos⟩)
      ⟨wtpMem Z h (st.posMap.getD addr 0) B₂ st.mem,
       ⟨(wtpSorted Z h (st.posMap.getD addr 0) B₂).map Prod.fst, st.stash.pathSize⟩,
       st.posMap.set addr newPos, st.height⟩ := by
  have hh : h < overflowKey := h_lt_overflowKey hb64
  have hnp0 : newPos ≠ 0 := leaf_ne_zero hnp
  have hbb2dum : ({ bb with position := newPos, value := f bb.value } : Block V).isDummy
      = false := isDummy_of_position_ne hnp0
  have hB2ge : Z * (h + 1) + 1 ≤ B₂.length := by
    rw [ha4, List.length_append, r6]
    unfold stashOverflowRegion
    rw [List.length_drop, i4]
    omega
  have hBlen : Z * (h + 1) ≤ B₂.length := by omega
  have hB2ne : B₂ ≠ [] := by
    intro hc
    rw [hc] at hB2ge
    simp only [List.length_nil] at hB2ge
    omega
  have hsl := wtp_slice_facts Z h (st.posMap.getD addr 0) B₂ hh hBlen
  have hsm := wtp_stash_mem Z h (st.posMap.getD addr 0) B₂ hh
  have hls := wtp_lastSlot Z h (st.posMap.getD addr 0) B₂ hh hB2ne ha7
  obtain ⟨hmlen, hmpath, hmoff⟩ := wtpMem_spec Z h (st.posMap.getD addr 0) B₂ st.mem hop i2
  obtain ⟨hsorted, hcnt, hgood, ⟨g, hpermB, hslen⟩, hlastf⟩ :=
    wtp_facts Z h (st.posMap.getD addr 0) B₂ hh
  have hS2len : ((wtpSorted Z h (st.posMap.getD addr 0) B₂).map Prod.fst).length
      = B₂.length + g := by
    rw [List.length_map, hslen]
  have hS₁sub : ∀ b ∈ pathConcat st.mem (st.posMap.getD addr 0) h
      ++ stashOverflowRegion st.stash, b ∈ allBlocks st.mem ++ st.stash.blocks := by
    intro b hb
    rcases List.mem_append.mp hb with hb | hb
    · obtain ⟨d, hd, hbd⟩ := mem_pathConcat hb
      exact List.mem_append_left _
        (mem_allBlocks_of_bucket (by rw [i2]; exact nodeOnPath_lt hop hd) hbd)
    · exact List.mem_append_right _ (List.drop_subset _ _ hb)
  have hdum2 : ∀ b ∈ B₂, b.isDummy = true → b.address = dummyAddress := by
    intro b hb hdm
    rcases ha6 b hb with hc | hc
    · exfalso
      rw [hc, hbb2dum] at hdm
      cases hdm
    · exact i9 b (hS₁sub b hc.1) hdm
  have hreal2 : ∀ b ∈ B₂, b.isDummy = false →
      b.address < 2 ^ (h + 1)
      ∧ b.value = refUpd ref ⟨addr, f, newPos⟩ b.address
      ∧ b.position = (st.posMap.set addr newPos).getD b.address 0 := by
    intro b hb hreal
    rcases ha6 b hb with hc | hc
    · have hba : b.address = addr := by
        rw [hc]
        exact hbbaddr
      refine ⟨by rw [hba]; exact ha, ?_, ?_⟩
      · have hbv : b.value = f (ref addr) := by
          rw [hc]
          show f bb.value = f (ref addr)
          rw [hbbv]
        rw [hbv, hba]
        simp only [refUpd]
        simp
      · have hbp : b.position = newPos := by
          rw [hc]
        rw [hbp, hba]
        exact (getD_set_self st.posMap addr newPos 0 (by omega)).symm
    · obtain ⟨hmem, hne⟩ := hc
      obtain ⟨hlt, hv, hp⟩ := r4 b hmem hreal
      refine ⟨hlt, ?_, ?_⟩
      · rw [hv]
        simp only [refUpd]
        rw [if_neg hne]
      · rw [hp]
        exact (getD_set_other st.posMap (Ne.symm hne) newPos 0).symm
  have hbucket : ∀ i, i < (wtpMem Z h (st.posMap.getD addr 0) B₂ st.mem).length →
      (∃ d, d ≤ h ∧ i = nodeOnPath (st.posMap.getD addr 0) d h
        ∧ (wtpMem Z h (st.posMap.getD addr 0) B₂ st.mem).getD i []
            = ((((wtpSorted Z h (st.posMap.getD addr 0) B₂).map Prod.fst).drop
                (Z * d)).take Z))
      ∨ ((∀ d, d ≤ h → i ≠ nodeOnPath (st.posMap.getD addr 0) d h)
        ∧ (wtpMem Z h (st.posMap.getD addr 0) B₂ st.mem).getD i []
            = st.mem.getD i []) := by
    intro i hi
    by_cases hcase : ∀ d, d ≤ h → i ≠ nodeOnPath (st.posMap.getD addr 0) d h
    · exact Or.inr ⟨hcase, hmoff i hcase⟩
    · push_neg at hcase
      obtain ⟨d, hd, hde⟩ := hcase
      refine Or.inl ⟨d, hd, hde, ?_⟩
      rw [hde]
      exact hmpath d hd
  refine ⟨i1, ?_, ?_, i4, ?_, ?_, ?_, ?_, ?_, ?_, ?_, ?_⟩
  · -- memory length
    show (wtpMem Z h (st.posMap.getD addr 0) B₂ st.mem).length = 2 ^ (h + 1)
    rw [hmlen, i2]
  · -- bucket lengths
    intro bkt hbkt
    obtain ⟨i, hi, hie⟩ := List.mem_iff_getElem.mp hbkt
    have hgd : (wtpMem Z h (st.posMap.getD addr 0) B₂ st.mem).getD i [] = bkt := by
      rw [List.getD_eq_getElem _ _ hi]
      exact hie
    rcases hbucket i hi with ⟨d, hd, hde, heq⟩ | ⟨hoff, heq⟩
    · rw [← hgd, heq]
      exact (hsl d hd).1
    · rw [← hgd, heq]
      apply i3
      apply getD_bucket_mem
      rw [← hmlen]
      exact hi
  · -- stash length
    show Z * (h + 1) + 1
      ≤ ((wtpSorted Z h (st.posMap.getD addr 0) B₂).map Prod.fst).length
    rw [hS2len]
    omega
  · -- position map entries are leaves
    intro a haC
    by_cases hae : a = addr
    · subst hae
      show IsLeaf ((st.posMap.set a newPos).getD a 0) h
      rw [getD_set_self st.posMap a newPos 0 (by omega)]
      exact hnp
    · show IsLeaf ((st.posMap.set addr newPos).getD a 0) h
      rw [getD_set_other st.posMap (fun hceq => hae hceq.symm) newPos 0]
      exact i6 a haC
  · -- position map length
    show 2 ^ (h + 1) ≤ (st.posMap.set addr newPos).length
    rw [List.length_set]
    exact i6b
  · -- exactly one real block per address
    intro a haC
    have hpe : realWithAddr a bb
        = realWithAddr a ({ bb with position := newPos, value := f bb.value }) := by
      unfold realWithAddr
      rw [hbbdum, hbb2dum]
    have hcontent := wtp_content Z h (st.posMap.getD addr 0) B₂ st.mem hop hh i2 hBlen
      (realWithAddr a) (realWithAddr_dummy a)
    have hB2cnt : B₂.countP (realWithAddr a)
        = (pathConcat st.mem (st.posMap.getD addr 0) h).countP (realWithAddr a)
          + (stashOverflowRegion st.stash).countP (realWithAddr a) := by
      rw [ha5 (realWithAddr a) hpe, List.countP_append]
    have hold : (allBlocks st.mem).countP (realWithAddr a)
        + (stashOverflowRegion st.stash).countP (realWithAddr a) = 1 := by
      have hq := i7 a haC
      unfold logicalContent realCountAddr at hq
      rw [List.countP_append] at hq
      exact hq
    unfold logicalContent realCountAddr stashOverflowRegion
    rw [List.countP_append]
    show (allBlocks (wtpMem Z h (st.posMap.getD addr 0) B₂ st.mem)).countP (realWithAddr a)
      + (((wtpSorted Z h (st.posMap.getD addr 0) B₂).map Prod.fst).drop
          st.stash.pathSize).countP (realWithAddr a) = 1
    rw [i4]
    omega
  · -- real blocks carry reference values at their mapped leaves
    intro b hb hreal
    unfold logicalContent at hb
    rcases List.mem_append.mp hb with hbm | hbm
    · obtain ⟨bkt, hbkt, hbb2⟩ := mem_allBlocks.mp hbm
      obtain ⟨i, hi, hie⟩ := List.mem_iff_getElem.mp hbkt
      have hgd : (wtpMem Z h (st.posMap.getD addr 0) B₂ st.mem).getD i [] = bkt := by
        rw [List.getD_eq_getElem _ _ hi]
        exact hie
      rcases hbucket i hi with ⟨d, hd, hde, heq⟩ | ⟨hoff, heq⟩
      · rw [← hgd, heq] at hbb2
        rcases ((hsl d hd).2 b hbb2).1 with hcB | hcD
        · exact hreal2 b hcB hreal
        · exfalso
          rw [hcD] at hreal
          simp [Block.isDummy, Block.dummy] at hreal
      · rw [← hgd, heq] at hbb2
        have hi2 : i < st.mem.length := by
          rw [← hmlen]
          exact hi
        have hne : b.address ≠ addr := by
          intro hceq
          apply List.countP_eq_zero.mp (r7 i hi2 hoff) b hbb2
          unfold realWithAddr
          simp [hreal, hceq]
        obtain ⟨hlt, hv, hp⟩ := i8 b
          (List.mem_append_left _ (mem_allBlocks_of_bucket hi2 hbb2)) hreal
        refine ⟨hlt, ?_, ?_⟩
        · rw [hv]
          simp only [refUpd]
          rw [if_neg hne]
        · rw [hp]
          exact (getD_set_other st.posMap (Ne.symm hne) newPos 0).symm
    · have hbm2 : b ∈ (wtpSorted Z h (st.posMap.getD addr 0) B₂).map Prod.fst :=
        List.drop_subset _ _ hbm
      rcases hsm b hbm2 with hcB | hcD
      · exact hreal2 b hcB hreal
      · exfalso
        rw [hcD] at hreal
        simp [Block.isDummy, Block.dummy] at hreal
  · -- dummies carry the dummy address
    intro b hb hdm
    rcases List.mem_append.mp hb with hbm | hbm
    · obtain ⟨bkt, hbkt, hbb2⟩ := mem_allBlocks.mp hbm
      obtain ⟨i, hi, hie⟩ := List.mem_iff_getElem.mp hbkt
      have hgd : (wtpMem Z h (st.posMap.getD addr 0) B₂ st.mem).getD i [] = bkt := by
        rw [List.getD_eq_getElem _ _ hi]
        exact hie
      rcases hbucket i hi with ⟨d, hd, hde, heq⟩ | ⟨hoff, heq⟩
      · rw [← hgd, heq] at hbb2
        rcases ((hsl d hd).2 b hbb2).1 with hcB | hcD
        · exact hdum2 b hcB hdm
        · rw [hcD]
          rfl
      · rw [← hgd, heq] at hbb2
        have hi2 : i < st.mem.length := by
          rw [← hmlen]
          exact hi
        exact i9 b (List.mem_append_left _ (mem_allBlocks_of_bucket hi2 hbb2)) hdm
    · rcases hsm b hbm with hcB | hcD
      · exact hdum2 b hcB hdm
      · rw [hcD]
        rfl
  · -- path residence in the tree
    intro i hi b hb hreal
    rcases hbucket i hi with ⟨d, hd, hde, heq⟩ | ⟨hoff, heq⟩
    · rw [heq] at hb
      have := ((hsl d hd).2 b hb).2 hreal
      exact ⟨d, hd, by rw [hde, ← this]⟩
    · rw [heq] at hb
      have hi2 : i < st.mem.length := by
        rw [← hmlen]
        exact hi
      exact i10 i hi2 b hb hreal
  · -- last stash slot is a dummy
    show (((wtpSorted Z h (st.posMap.getD addr 0) B₂).map Prod.fst).getLastD
      (Block.dummy : Block V)).isDummy = true
    exact hls

end Oram

namespace Oram

variable {V : Type}

/-! ## One in-bounds access preserves the protocol invariant -/

theorem access_preserves_Inv [Inhabited V] (Z h : Nat) (hZ : 0 < Z)
    (hb64 : 2 ^ (h + 1) < dummyAddress) (ref : Nat → V) (st : PState V)
    (hInv : Inv Z h ref st) (addr : Nat) (ha : addr < 2 ^ (h + 1))
    (f : V → V) (newPos : Nat) (hnp : IsLeaf newPos h) :
    ∃ st', PathOram.access Z st addr f newPos = .ok (ref addr, st')
      ∧ Inv Z h (refUpd ref ⟨addr, f, newPos⟩) st' := by
  have hh : h < overflowKey := h_lt_overflowKey hb64
  obtain ⟨r1, r3, r4, r5, r6, r7⟩ := read_stage_facts Z h ref st hInv addr ha hb64
  obtain ⟨i1, i2, i3, i4, i5, i6, i6b, i7, i8, i9, i10, i11⟩ := hInv
  have hop : IsLeaf (st.posMap.getD addr 0) h := i6 addr ha
  have hng : ¬ (addr > st.mem.length) := by
    rw [i2]
    omega
  have haddr : addr ≠ dummyAddress := by omega
  have hnp0 : newPos ≠ 0 := leaf_ne_zero hnp
  have hread := readFromPath_eq Z h st.stash st.mem (st.posMap.getD addr 0) hop i4 hZ i2
  have hacc : PathOram.access Z st addr f newPos
      = .ok ((ObliviousStash.access (ObliviousStash.readFromPath Z st.stash st.mem
            (st.posMap.getD addr 0)) addr newPos f).1,
          ⟨(ObliviousStash.writeToPath Z (ObliviousStash.access
              (ObliviousStash.readFromPath Z st.stash st.mem (st.posMap.getD addr 0))
              addr newPos f).2 st.mem (st.posMap.getD addr 0)).2,
           (ObliviousStash.writeToPath Z (ObliviousStash.access
              (ObliviousStash.readFromPath Z st.stash st.mem (st.posMap.getD addr 0))
              addr newPos f).2 st.mem (st.posMap.getD addr 0)).1,
           st.posMap.set addr newPos, st.height⟩) := by
    unfold PathOram.access
    rw [if_neg hng]
  rw [hread] at hacc
  obtain ⟨bb, hbbmem, hbbdum, hbbaddr, ha1, ha3, ha4, ha5, ha6, ha7⟩ :=
    access_stage_facts
      (pathConcat st.mem (st.posMap.getD addr 0) h ++ stashOverflowRegion st.stash)
      st.stash.pathSize addr newPos f r1 r3 haddr r5
  have hbbv : bb.value = ref addr := by
    obtain ⟨_, hv, _⟩ := r4 bb hbbmem hbbdum
    rw [hv, hbbaddr]
  have hbb2dum : ({ bb with position := newPos, value := f bb.value } : Block V).isDummy
      = false := isDummy_of_position_ne hnp0
  have hwtp := writeToPath_eq_leaf Z h
    (ObliviousStash.access
      (⟨pathConcat st.mem (st.posMap.getD addr 0) h ++ stashOverflowRegion st.stash,
        st.stash.pathSize⟩ : Stash V) addr newPos f).2 st.mem (st.posMap.getD addr 0) hop
  have hw2 : (ObliviousStash.writeToPath Z (ObliviousStash.access
      (⟨pathConcat st.mem (st.posMap.getD addr 0) h ++ stashOverflowRegion st.stash,
        st.stash.pathSize⟩ : Stash V) addr newPos f).2 st.mem (st.posMap.getD addr 0)).2
      = wtpMem Z h (st.posMap.getD addr 0)
          (ObliviousStash.access
            (⟨pathConcat st.mem (st.posMap.getD addr 0) h ++ stashOverflowRegion st.stash,
              st.stash.pathSize⟩ : Stash V) addr newPos f).2.blocks st.mem := by
    rw [hwtp]
  have hw1 : (ObliviousStash.writeToPath Z (ObliviousStash.access
      (⟨pathConcat st.mem (st.posMap.getD addr 0) h ++ stashOverflowRegion st.stash,
        st.stash.pathSize⟩ : Stash V) addr newPos f).2 st.mem (st.posMap.getD addr 0)).1
      = ⟨(wtpSorted Z h (st.posMap.getD addr 0)
            (ObliviousStash.access
              (⟨pathConcat st.mem (st.posMap.getD addr 0) h ++ stashOverflowRegion st.stash,
                st.stash.pathSize⟩ : Stash V) addr newPos f).2.blocks).map Prod.fst,
          st.stash.pathSize⟩ := by
    rw [hwtp, ha3]
  rw [hw2, hw1, ha1, hbbv] at hacc
  refine ⟨_, hacc, ?_⟩
  exact post_state_Inv Z h addr newPos f ref st _ bb i1 i2 i3 i4 i5 i6 i6b i7 i8 i9 i10
    hb64 ha hnp hop ha4 ha5 ha6 ha7 hbbdum hbbaddr hbbv r4 r6 r7

end Oram

namespace Oram

variable {V : Type}

/-! ## Traces of valid operations preserve the invariant -/

theorem execTrace_Inv [Inhabited V] (Z h : Nat) (hZ : 0 < Z)
    (hb64 : 2 ^ (h + 1) < dummyAddress) :
    ∀ (ops : List (Op V)) (ref : Nat → V) (st : PState V),
      Inv Z h ref st →
      (∀ op ∈ ops, validOp (2 ^ (h + 1)) h op) →
      ∃ stF, execTrace Z st ops = .ok (outsSpec ref ops, stF)
        ∧ Inv Z h (ops.foldl refUpd ref) stF := by
  intro ops
  induction ops with
  | nil =>
    intro ref st hInv _
    exact ⟨st, rfl, hInv⟩
  | cons op ops ih =>
    intro ref st hInv hval
    obtain ⟨ha, hnp⟩ := hval op (by simp)
    obtain ⟨st', hacc, hInv2⟩ := access_preserves_Inv Z h hZ hb64 ref st hInv
      op.addr ha op.f op.newPos hnp
    obtain ⟨stF, hexec, hInvF⟩ := ih (refUpd ref op) st' hInv2
      (fun o ho => hval o (by simp [ho]))
    refine ⟨stF, ?_, ?_⟩
    · show execTrace Z st (op :: ops) = .ok (outsSpec ref (op :: ops), stF)
      unfold execTrace
      rw [hacc]
      dsimp only
      rw [hexec]
      rfl
    · exact hInvF

end Oram

namespace Oram

variable {V : Type}

/-! ## The freshly constructed ORAM satisfies the invariant -/

theorem perm_indexOf_getD {π : List Nat} {C i : Nat} (hπ : π.Perm (List.range C))
    (hi : i < π.length) : π.indexOf (π.getD i 0) = i := by
  have hmem : π.getD i 0 ∈ π := by
    rw [List.getD_eq_getElem π 0 hi]
    exact List.getElem_mem hi
  have haC : π.getD i 0 < C := by
    have := hπ.mem_iff.mp hmem
    rw [List.mem_range] at this
    exact this
  have hidx := perm_getD_indexOf hπ haC
  have hnd : π.Nodup := (hπ.nodup_iff).mpr (List.nodup_range C)
  have hlt : π.indexOf (π.getD i 0) < π.length :=
    List.indexOf_lt_length.mpr hmem
  have h2 : π.get ⟨π.indexOf (π.getD i 0), hlt⟩ = π.get ⟨i, hi⟩ := by
    simp only [List.get_eq_getElem]
    rw [← List.getD_eq_getElem π 0 hlt, ← List.getD_eq_getElem π 0 hi]
    exact hidx
  simp only [List.get_eq_getElem] at h2
  exact (List.Nodup.getElem_inj_iff hnd).mp h2

theorem initLeafBucket_cases [Inhabited V] {b : Block V} {Z FL k : Nat} (π : List Nat)
    (hb : b ∈ (initLeafBucket Z FL π k : List (Block V))) :
    b = (⟨π.getD (2 * k) 0, FL + k, (default : V)⟩ : Block V)
    ∨ b = (⟨π.getD (2 * k + 1) 0, FL + k, (default : V)⟩ : Block V)
    ∨ b = (Block.dummy : Block V) := by
  unfold initLeafBucket at hb
  rcases List.mem_cons.mp hb with hc | hc
  · exact Or.inl hc
  · rcases List.mem_cons.mp hc with hc2 | hc2
    · exact Or.inr (Or.inl hc2)
    · exact Or.inr (Or.inr (List.eq_of_mem_replicate hc2))

theorem initial_Inv (V : Type) [Inhabited V] (Z AB C h : Nat) (π : List Nat)
    (hC : C = 2 ^ (h + 1)) (hZ : 2 ≤ Z) (hAB : 1 ≤ AB)
    (hπ : π.Perm (List.range C)) :
    ∃ st, PathOram.new Z AB V C π = .ok st
      ∧ Inv Z h (fun a => (default : V)) st := by
  have hdC : depthOf C = h + 1 := by
    rw [hC]
    exact depthOf_pow (h + 1)
  have hd1 : depthOf C - 1 = h := by omega
  have hCsum : C = 2 ^ h + 2 ^ h := by
    rw [hC, pow_succ, Nat.mul_two]
  have hFL : 1 ≤ 2 ^ h := Nat.one_le_two_pow
  have hπlen : π.length = C := by
    rw [hπ.length_eq, List.length_range]
  have h2C : 2 ≤ C := by
    rw [hC]
    calc (2 : Nat) = 2 ^ 1 := by omega
    _ ≤ 2 ^ (h + 1) := Nat.pow_le_pow_right (by omega) (by omega)
  have hblk : ∀ (k : Nat) (b : Block V), k < 2 ^ h →
      b ∈ (initLeafBucket Z (2 ^ h) π k : List (Block V)) → b.isDummy = false →
      (∃ j, j < 2 ∧ b = (⟨π.getD (2 * k + j) 0, 2 ^ h + k, (default : V)⟩ : Block V)
        ∧ b.address < C ∧ b.position = 2 ^ h + k) := by
    intro k b hk hb hreal
    have haddrC : ∀ j, j < 2 → π.getD (2 * k + j) 0 < C := by
      intro j hj
      have hilen : 2 * k + j < π.length := by
        rw [hπlen, hCsum]
        omega
      have hmem : π.getD (2 * k + j) 0 ∈ π := by
        rw [List.getD_eq_getElem π 0 hilen]
        exact List.getElem_mem hilen
      have := hπ.mem_iff.mp hmem
      rw [List.mem_range] at this
      exact this
    rcases initLeafBucket_cases π hb with hc | hc | hc
    · exact ⟨0, by omega, by rw [Nat.add_zero]; exact hc,
        by rw [hc]; exact haddrC 0 (by omega), by rw [hc]⟩
    · exact ⟨1, by omega, hc, by rw [hc]; exact haddrC 1 (by omega), by rw [hc]⟩
    · exfalso
      rw [hc] at hreal
      simp [Block.isDummy, Block.dummy] at hreal
  refine ⟨_, new_ok V Z AB C π ⟨h + 1, hC⟩ h2C, ?_⟩
  simp only [hd1]
  have hposmap : ∀ a, a < C →
      (initPosMap AB (2 ^ h) C π).getD a 0 = 2 ^ h + π.indexOf a / 2 := by
    intro a ha
    rw [initPosMap_getD hAB ha π hπlen, invPerm_getD (by omega : a < π.length)]
  refine ⟨rfl, ?_, ?_, rfl, ?_, ?_, ?_, ?_, ?_, ?_, ?_, ?_⟩
  · -- memory length
    show (initMem Z V (2 ^ h) C π).length = 2 ^ (h + 1)
    rw [initMem_length Z V π hCsum, hC]
  · -- bucket lengths
    intro bkt hbkt
    rw [initMem_eq Z V π hCsum] at hbkt
    rcases List.mem_append.mp hbkt with hc | hc
    · rw [List.eq_of_mem_replicate hc]
      simp
    · obtain ⟨k, hk, hke⟩ := List.mem_map.mp hc
      rw [← hke]
      unfold initLeafBucket
      simp only [List.length_cons, List.length_replicate]
      omega
  · -- stash length
    show Z * (h + 1) + 1
      ≤ (List.replicate (Z * (h + 1) + overflowSize) (Block.dummy : Block V)).length
    rw [List.length_replicate]
    have hof : overflowSize = 40 := rfl
    omega
  · -- position map entries are leaves
    intro a ha
    rw [← hC] at ha
    rw [hposmap a ha]
    have hidx : π.indexOf a < C := perm_indexOf_lt hπ ha
    have h2 : (2 : Nat) ^ (h + 1) = 2 ^ h + 2 ^ h := by
      rw [pow_succ, Nat.mul_two]
    rw [hC, h2] at hidx
    constructor
    · omega
    · rw [h2]
      omega
  · -- position map length
    show 2 ^ (h + 1) ≤ (initPosMap AB (2 ^ h) C π).length
    unfold initPosMap
    simp only [List.length_map, List.length_range]
    rw [← hC]
    exact numBlocks_bound hAB C
  · -- exactly one real block per address
    intro a ha
    rw [← hC] at ha
    unfold logicalContent realCountAddr stashOverflowRegion
    rw [List.countP_append]
    show (allBlocks (initMem Z V (2 ^ h) C π)).countP (realWithAddr a)
      + ((List.replicate (Z * (h + 1) + overflowSize)
          (Block.dummy : Block V)).drop (Z * (h + 1))).countP (realWithAddr a) = 1
    rw [List.drop_replicate, countP_dummy_replicate]
    have h1 := @initMem_realCountAddr V _ Z (2 ^ h) C hFL hCsum π hπlen a
    unfold realCountAddr at h1
    rw [h1, perm_count_eq_one hπ ha]
  · -- real blocks carry the default value at their mapped leaf
    intro b hb hreal
    unfold logicalContent at hb
    rcases List.mem_append.mp hb with hbm | hbm
    · rw [initMem_eq Z V π hCsum] at hbm
      obtain ⟨bkt, hbkt, hbb⟩ := mem_allBlocks.mp hbm
      rcases List.mem_append.mp hbkt with hc | hc
      · exfalso
        rw [List.eq_of_mem_replicate hc] at hbb
        rw [List.eq_of_mem_replicate hbb] at hreal
        simp [Block.isDummy, Block.dummy] at hreal
      · obtain ⟨k, hk, hke⟩ := List.mem_map.mp hc
        rw [List.mem_range] at hk
        rw [← hke] at hbb
        obtain ⟨j, hj, hbe, haC, hbp⟩ := hblk k b hk hbb hreal
        refine ⟨by rw [← hC]; exact haC, by rw [hbe], ?_⟩
        show b.position = (initPosMap AB (2 ^ h) C π).getD b.address 0
        rw [hposmap b.address haC, hbp]
        have hba : b.address = π.getD (2 * k + j) 0 := by rw [hbe]
        rw [hba, perm_indexOf_getD hπ (by rw [hπlen, hCsum]; omega)]
        congr 1
        omega
    · exfalso
      unfold stashOverflowRegion at hbm
      have hbm2 := List.drop_subset _ _ hbm
      rw [List.eq_of_mem_replicate hbm2] at hreal
      simp [Block.isDummy, Block.dummy] at hreal
  · -- dummies carry the dummy address
    intro b hb hdm
    rcases List.mem_append.mp hb with hbm | hbm
    · rw [initMem_eq Z V π hCsum] at hbm
      obtain ⟨bkt, hbkt, hbb⟩ := mem_allBlocks.mp hbm
      rcases List.mem_append.mp hbkt with hc | hc
      · rw [List.eq_of_mem_replicate hc] at hbb
        rw [List.eq_of_mem_replicate hbb]
        rfl
      · obtain ⟨k, hk, hke⟩ := List.mem_map.mp hc
        rw [List.mem_range] at hk
        rw [← hke] at hbb
        rcases initLeafBucket_cases π hbb with hc2 | hc2 | hc2
        · exfalso
          rw [hc2] at hdm
          unfold Block.isDummy at hdm
          simp at hdm
        · exfalso
          rw [hc2] at hdm
          unfold Block.isDummy at hdm
          simp at hdm
        · rw [hc2]
          rfl
    · rw [List.eq_of_mem_replicate hbm]
      rfl
  · -- real tree blocks reside on their paths
    intro i hi b hb hreal
    have hilen : i < C := by
      have := hi
      rw [initMem_length Z V π hCsum] at this
      exact this
    by_cases hleaf : i < 2 ^ h
    · exfalso
      rw [initMem_getD_nonleaf Z V π hCsum hleaf] at hb
      rw [List.eq_of_mem_replicate hb] at hreal
      simp [Block.isDummy, Block.dummy] at hreal
    · push_neg at hleaf
      rw [initMem_getD_leaf Z V π hCsum hleaf (by omega : i < 2 ^ h + 2 ^ h)] at hb
      obtain ⟨j, hj, hbe, haC, hbp⟩ := hblk (i - 2 ^ h) b (by omega) hb hreal
      refine ⟨h, le_rfl, ?_⟩
      rw [nodeOnPath_self, hbp]
      omega
  · -- last stash slot is a dummy
    show ((List.replicate (Z * (h + 1) + overflowSize)
        (Block.dummy : Block V)).getLastD (Block.dummy : Block V)).isDummy = true
    have hne : (List.replicate (Z * (h + 1) + overflowSize)
        (Block.dummy : Block V)) ≠ [] := by
      intro hc
      have := congrArg List.length hc
      simp only [List.length_replicate, List.length_nil] at this
      have hof : overflowSize = 40 := rfl
      omega
    rw [List.eq_of_mem_replicate (getLastD_mem _ _ hne)]
    rfl

end Oram

namespace Oram

/-! ## Reachable states: counting helpers and the claim theorems -/

theorem map_congr_mem {α β : Type} (l : List α) (f g : α → β)
    (h : ∀ a ∈ l, f a = g a) : l.map f = l.map g := by
  induction l with
  | nil => rfl
  | cons x l ih =>
    simp only [List.map_cons]
    rw [h x (by simp), ih (fun a ha => h a (by simp [ha]))]

theorem sum_map_one {α : Type} (l : List α) :
    (l.map (fun x => 1)).sum = l.length := by
  induction l with
  | nil => rfl
  | cons x l ih =>
    simp only [List.map_cons, List.sum_cons, List.length_cons]
    omega

theorem list_sum_map_add {α : Type} (l : List α) (f g : α → Nat) :
    (l.map (fun a => f a + g a)).sum = (l.map f).sum + (l.map g).sum := by
  induction l with
  | nil => rfl
  | cons x l ih =>
    simp only [List.map_cons, List.sum_cons]
    omega

theorem sum_indicator (C x : Nat) :
    ((List.range C).map (fun a => if (x == a) = true then 1 else 0)).sum
      = if x < C then 1 else 0 := by
  induction C with
  | zero => simp
  | succ C ih =>
    rw [List.range_succ, List.map_append, List.sum_append, ih]
    simp only [List.map_cons, List.map_nil, List.sum_cons, List.sum_nil]
    by_cases h1 : x < C
    · have h2 : (x == C) = false := by
        simp only [beq_eq_false_iff_ne, ne_eq]
        omega
      have h3 : x < C + 1 := by omega
      simp [h1, h2, h3]
    · by_cases h2 : x = C
      · subst h2
        simp [h1]
      · have h3 : (x == C) = false := by simp [h2]
        have h4 : ¬ x < C + 1 := by omega
        simp [h1, h3, h4]

theorem realCount_eq_sum {V : Type} (C : Nat) (l : List (Block V))
    (hb : ∀ b ∈ l, b.isDummy = false → b.address < C) :
    realCount l = ((List.range C).map (fun a => realCountAddr a l)).sum := by
  induction l with
  | nil =>
    simp only [realCount, List.countP_nil]
    rw [map_congr_mem (List.range C) (fun a => realCountAddr a ([] : List (Block V)))
      (fun a => 0) (fun a ha => rfl)]
    simp
  | cons b l ih =>
    have ihh := ih (fun x hx hd => hb x (List.mem_cons_of_mem b hx) hd)
    by_cases hd : b.isDummy = true
    · have h1 : realCount (b :: l) = realCount l := by
        simp [realCount, List.countP_cons, hd]
      have h2 : ∀ a ∈ List.range C, realCountAddr a (b :: l) = realCountAddr a l := by
        intro a ha
        simp [realCountAddr, List.countP_cons, realWithAddr, hd]
      rw [h1, ihh, map_congr_mem (List.range C) _ _ h2]
    · have hdf : b.isDummy = false := by
        cases hbd : b.isDummy
        · rfl
        · exact absurd hbd hd
      have haC : b.address < C := hb b (by simp) hdf
      have h1 : realCount (b :: l) = realCount l + 1 := by
        simp [realCount, List.countP_cons, hdf]
      have h2 : ∀ a ∈ List.range C, realCountAddr a (b :: l)
          = realCountAddr a l + (if (b.address == a) = true then 1 else 0) := by
        intro a ha
        by_cases he : (b.address == a) = true
        · simp [realCountAddr, List.countP_cons, realWithAddr, hdf, he]
        · have hef : (b.address == a) = false := by
            cases hq : (b.address == a)
            · rfl
            · exact absurd hq he
          simp [realCountAddr, List.countP_cons, realWithAddr, hdf, hef]
      rw [h1, ihh, map_congr_mem (List.range C) _ _ h2, list_sum_map_add]
      have h3 := sum_indicator C b.address
      rw [if_pos haC] at h3
      rw [h3]

/-- Any state reached from a successful construction by a trace of
well-formed operations satisfies the reachable-state invariant, with the
reference memory obtained by folding the operations over the all-default
initial reference. -/
theorem reachable_Inv (V : Type) [Inhabited V] (Z AB C h : Nat) (π : List Nat)
    (ops : List (Op V)) (st₀ : PState V) (vs : List V) (stF : PState V)
    (hC : C = 2 ^ (h + 1)) (hZ : 2 ≤ Z) (hAB : 1 ≤ AB)
    (hb64 : 2 ^ (h + 1) < dummyAddress) (hπ : π.Perm (List.range C))
    (hops : ∀ op ∈ ops, validOp C h op)
    (hnew : PathOram.new Z AB V C π = .ok st₀)
    (hexec : execTrace Z st₀ ops = .ok (vs, stF)) :
    Inv Z h (ops.foldl refUpd (fun a => (default : V))) stF := by
  obtain ⟨st1, hnew1, hInv⟩ := initial_Inv V Z AB C h π hC hZ hAB hπ
  rw [hnew] at hnew1
  injection hnew1 with he
  subst he
  obtain ⟨stF1, hexec1, hInvF⟩ := execTrace_Inv Z h (by omega) hb64 ops
    (fun a => (default : V)) st₀ hInv (by rw [← hC]; exact hops)
  rw [hexec] at hexec1
  injection hexec1 with hp
  have hsnd : stF = stF1 := congrArg Prod.snd hp
  rw [hsnd]
  exact hInvF

end Oram

namespace Oram

/-- C1: For every Path ORAM obtained from a successful construction and
every finite trace of in-bounds operations, the whole trace succeeds and
each access returns exactly the reference value of its address at that
point: the value supplied by the most recent preceding write to that
address, or the default value if no such write occurred (a write
returns the previous value and installs the new one). -/
theorem trace_read_your_write (V : Type) [Inhabited V] (Z AB C h : Nat)
    (π : List Nat) (ops : List (Op V))
    (hC : C = 2 ^ (h + 1)) (hZ : 2 ≤ Z) (hAB : 1 ≤ AB)
    (hb64 : 2 ^ (h + 1) < dummyAddress) (hπ : π.Perm (List.range C))
    (hops : ∀ op ∈ ops, validOp C h op) :
    ∃ st₀ stF, PathOram.new Z AB V C π = .ok st₀
      ∧ execTrace Z st₀ ops = .ok (outsSpec (fun a => (default : V)) ops, stF) := by
  obtain ⟨st₀, hnew, hInv⟩ := initial_Inv V Z AB C h π hC hZ hAB hπ
  obtain ⟨stF, hexec, hInvF⟩ := execTrace_Inv Z h (by omega) hb64 ops
    (fun a => (default : V)) st₀ hInv (by rw [← hC]; exact hops)
  exact ⟨st₀, stF, hnew, hexec⟩

theorem trace_read_your_write_witness :
    (2 = 2 ^ (0 + 1) ∧ 2 ≤ 2 ∧ 1 ≤ 1 ∧ 2 ^ (0 + 1) < dummyAddress
      ∧ ([1, 0] : List Nat).Perm (List.range 2)
      ∧ ∀ op ∈ [(⟨0, fun x => 5, 1⟩ : Op Nat), ⟨0, id, 1⟩], validOp 2 0 op)
    ∧ ∃ st₀ stF, PathOram.new 2 1 Nat 2 [1, 0] = .ok st₀
      ∧ execTrace 2 st₀ [(⟨0, fun x => 5, 1⟩ : Op Nat), ⟨0, id, 1⟩]
          = .ok (outsSpec (fun a => (default : Nat))
              [(⟨0, fun x => 5, 1⟩ : Op Nat), ⟨0, id, 1⟩], stF) := by
  have hops : ∀ op ∈ [(⟨0, fun x => 5, 1⟩ : Op Nat), ⟨0, id, 1⟩], validOp 2 0 op := by
    intro op hop
    simp only [List.mem_cons, List.not_mem_nil, or_false] at hop
    rcases hop with rfl | rfl
    · exact ⟨by decide, by decide, by decide⟩
    · exact ⟨by decide, by decide, by decide⟩
  exact ⟨⟨by decide, by decide, by decide, by decide, by decide, hops⟩,
    trace_read_your_write Nat 2 1 2 0 [1, 0] [⟨0, fun x => 5, 1⟩, ⟨0, id, 1⟩]
      (by decide) (by decide) (by decide) (by decide) (by decide) hops⟩

end Oram

namespace Oram

/-- C5: In every state reachable from a successful construction by a
trace of in-bounds operations, every real block stored in the bucket
tree resides in a bucket on the root-to-leaf path of the leaf named by
its position field. -/
theorem path_invariant_reachable (V : Type) [Inhabited V] (Z AB C h : Nat)
    (π : List Nat) (ops : List (Op V)) (st₀ : PState V) (vs : List V)
    (stF : PState V)
    (hC : C = 2 ^ (h + 1)) (hZ : 2 ≤ Z) (hAB : 1 ≤ AB)
    (hb64 : 2 ^ (h + 1) < dummyAddress) (hπ : π.Perm (List.range C))
    (hops : ∀ op ∈ ops, validOp C h op)
    (hnew : PathOram.new Z AB V C π = .ok st₀)
    (hexec : execTrace Z st₀ ops = .ok (vs, stF)) :
    ∀ i, i < stF.mem.length → ∀ b ∈ stF.mem.getD i [], b.isDummy = false →
      ∃ d, d ≤ h ∧ i = nodeOnPath b.position d h := by
  have hInvF := reachable_Inv V Z AB C h π ops st₀ vs stF
    hC hZ hAB hb64 hπ hops hnew hexec
  obtain ⟨_, _, _, _, _, _, _, _, _, _, i10, _⟩ := hInvF
  exact i10

theorem path_invariant_reachable_witness :
    (2 = 2 ^ (0 + 1) ∧ 2 ≤ 2 ∧ 1 ≤ 1 ∧ 2 ^ (0 + 1) < dummyAddress
      ∧ ([0, 1] : List Nat).Perm (List.range 2)
      ∧ (∀ op ∈ [(⟨0, id, 1⟩ : Op Nat)], validOp 2 0 op)
      ∧ PathOram.new 2 1 Nat 2 [0, 1] = .ok c6New
      ∧ execTrace 2 c6New [(⟨0, id, 1⟩ : Op Nat)] = .ok ([0], c6After))
    ∧ ∀ i, i < c6After.mem.length → ∀ b ∈ c6After.mem.getD i [],
        b.isDummy = false → ∃ d, d ≤ 0 ∧ i = nodeOnPath b.position d 0 := by
  have hops : ∀ op ∈ [(⟨0, id, 1⟩ : Op Nat)], validOp 2 0 op := by
    intro op hop
    simp only [List.mem_cons, List.not_mem_nil, or_false] at hop
    rcases hop with rfl
    exact ⟨by decide, by decide, by decide⟩
  have hnew : PathOram.new 2 1 Nat 2 [0, 1] = .ok c6New := by rfl
  have hexec : execTrace 2 c6New [(⟨0, id, 1⟩ : Op Nat)] = .ok ([0], c6After) := by
    rfl
  exact ⟨⟨by decide, by decide, by decide, by decide, by decide, hops, hnew, hexec⟩,
    path_invariant_reachable Nat 2 1 2 0 [0, 1] [⟨0, id, 1⟩] c6New [0] c6After
      (by decide) (by decide) (by decide) (by decide) (by decide) hops hnew hexec⟩

end Oram

namespace Oram

/-- C6 (counterexample): counting real blocks over the union of the
bucket tree and the WHOLE stash does not give C, and does not give one
block per address. On the capacity-2 ORAM, after one access the stash
path region still holds copies of the two real blocks just written back
to the accessed path, so address 0 is counted twice and the total is 4,
not C = 2. Only the stash overflow region (the slots past the path-sized
front, exactly what ObliviousStash::occupancy counts) may be joined with
the tree. -/
theorem tree_stash_count_counterexample :
    (PathOram.new 2 1 Nat 2 [0, 1]).toOption = some c6New
    ∧ (PathOram.access 2 c6New 0 id 1).toOption = some ((0 : Nat), c6After)
    ∧ realCountAddr 0 (allBlocks c6After.mem ++ c6After.stash.blocks) = 2
    ∧ realCount (allBlocks c6After.mem ++ c6After.stash.blocks) = 4
    ∧ realCount (allBlocks c6After.mem ++ c6After.stash.blocks) ≠ 2 :=
  ⟨by decide, by decide, by decide, by decide, by decide⟩

/-- C6 (amended): in every state reachable from a successful
construction by a trace of in-bounds operations, for every address a in
bounds exactly one real block with address a exists in the union of the
bucket tree and the stash OVERFLOW REGION (the stash slots past the
path-sized front, which is what survives between accesses and what
ObliviousStash::occupancy counts), and the total number of real blocks
in that union equals C. -/
theorem unique_block_occupancy_reachable (V : Type) [Inhabited V]
    (Z AB C h : Nat) (π : List Nat) (ops : List (Op V)) (st₀ : PState V)
    (vs : List V) (stF : PState V)
    (hC : C = 2 ^ (h + 1)) (hZ : 2 ≤ Z) (hAB : 1 ≤ AB)
    (hb64 : 2 ^ (h + 1) < dummyAddress) (hπ : π.Perm (List.range C))
    (hops : ∀ op ∈ ops, validOp C h op)
    (hnew : PathOram.new Z AB V C π = .ok st₀)
    (hexec : execTrace Z st₀ ops = .ok (vs, stF)) :
    (∀ a, a < C → realCountAddr a (logicalContent stF) = 1)
    ∧ realCount (logicalContent stF) = C := by
  have hInvF := reachable_Inv V Z AB C h π ops st₀ vs stF
    hC hZ hAB hb64 hπ hops hnew hexec
  obtain ⟨_, _, _, _, _, _, _, i7, i8, _, _, _⟩ := hInvF
  constructor
  · intro a ha
    exact i7 a (by omega)
  · have hbnd : ∀ b ∈ logicalContent stF, b.isDummy = false → b.address < C := by
      intro b hb hd
      rw [hC]
      exact (i8 b hb hd).1
    rw [realCount_eq_sum C _ hbnd]
    rw [map_congr_mem (List.range C) (fun a => realCountAddr a (logicalContent stF))
      (fun a => 1) (fun a ha => i7 a (by rw [← hC]; exact List.mem_range.mp ha))]
    rw [sum_map_one, List.length_range]

theorem unique_block_occupancy_reachable_witness :
    (2 = 2 ^ (0 + 1) ∧ 2 ≤ 2 ∧ 1 ≤ 1 ∧ 2 ^ (0 + 1) < dummyAddress
      ∧ ([0, 1] : List Nat).Perm (List.range 2)
      ∧ (∀ op ∈ [(⟨0, id, 1⟩ : Op Nat)], validOp 2 0 op)
      ∧ PathOram.new 2 1 Nat 2 [0, 1] = .ok c6New
      ∧ execTrace 2 c6New [(⟨0, id, 1⟩ : Op Nat)] = .ok ([0], c6After))
    ∧ (∀ a, a < 2 → realCountAddr a (logicalContent c6After) = 1)
    ∧ realCount (logicalContent c6After) = 2 := by
  have hops : ∀ op ∈ [(⟨0, id, 1⟩ : Op Nat)], validOp 2 0 op := by
    intro op hop
    simp only [List.mem_cons, List.not_mem_nil, or_false] at hop
    rcases hop with rfl
    exact ⟨by decide, by decide, by decide⟩
  have hnew : PathOram.new 2 1 Nat 2 [0, 1] = .ok c6New := by rfl
  have hexec : execTrace 2 c6New [(⟨0, id, 1⟩ : Op Nat)] = .ok ([0], c6After) := by
    rfl
  exact ⟨⟨by decide, by decide, by decide, by decide, by decide, hops, hnew, hexec⟩,
    unique_block_occupancy_reachable Nat 2 1 2 0 [0, 1] [⟨0, id, 1⟩] c6New [0] c6After
      (by decide) (by decide) (by decide) (by decide) (by decide) hops hnew hexec⟩

end Oram

namespace Oram

/-- C10: Whenever stash access is invoked by the Path ORAM protocol, the
last stash slot holds a dummy block, so the assertion guarding the
write-on-miss slot never fails: in every state reachable from a
successful construction by in-bounds accesses the last stash slot is a
dummy, and it is still a dummy after read_from_path on the path of any
in-bounds address (the point at which ObliviousStash::access runs). -/
theorem stash_access_precondition_reachable (V : Type) [Inhabited V]
    (Z AB C h : Nat) (π : List Nat) (ops : List (Op V)) (st₀ : PState V)
    (vs : List V) (stF : PState V)
    (hC : C = 2 ^ (h + 1)) (hZ : 2 ≤ Z) (hAB : 1 ≤ AB)
    (hb64 : 2 ^ (h + 1) < dummyAddress) (hπ : π.Perm (List.range C))
    (hops : ∀ op ∈ ops, validOp C h op)
    (hnew : PathOram.new Z AB V C π = .ok st₀)
    (hexec : execTrace Z st₀ ops = .ok (vs, stF)) :
    lastSlotDummy stF.stash = true
    ∧ ∀ addr, addr < C →
        lastSlotDummy (ObliviousStash.readFromPath Z stF.stash stF.mem
          (stF.posMap.getD addr 0)) = true := by
  have hInvF := reachable_Inv V Z AB C h π ops st₀ vs stF
    hC hZ hAB hb64 hπ hops hnew hexec
  have hcopy := hInvF
  obtain ⟨i1, i2, i3, i4, i5, i6, i6b, i7, i8, i9, i10, i11⟩ := hcopy
  refine ⟨i11, ?_⟩
  intro addr ha
  have ha2 : addr < 2 ^ (h + 1) := by rw [← hC]; exact ha
  have hr := read_stage_facts Z h _ stF hInvF addr ha2 hb64
  rw [readFromPath_eq Z h stF.stash stF.mem (stF.posMap.getD addr 0)
    (i6 addr ha2) i4 (by omega) i2]
  unfold lastSlotDummy
  exact hr.2.2.2.1

theorem stash_access_precondition_reachable_witness :
    (2 = 2 ^ (0 + 1) ∧ 2 ≤ 2 ∧ 1 ≤ 1 ∧ 2 ^ (0 + 1) < dummyAddress
      ∧ ([0, 1] : List Nat).Perm (List.range 2)
      ∧ (∀ op ∈ [(⟨0, id, 1⟩ : Op Nat)], validOp 2 0 op)
      ∧ PathOram.new 2 1 Nat 2 [0, 1] = .ok c6New
      ∧ execTrace 2 c6New [(⟨0, id, 1⟩ : Op Nat)] = .ok ([0], c6After))
    ∧ lastSlotDummy c6After.stash = true
    ∧ ∀ addr, addr < 2 →
        lastSlotDummy (ObliviousStash.readFromPath 2 c6After.stash c6After.mem
          (c6After.posMap.getD addr 0)) = true := by
  have hops : ∀ op ∈ [(⟨0, id, 1⟩ : Op Nat)], validOp 2 0 op := by
    intro op hop
    simp only [List.mem_cons, List.not_mem_nil, or_false] at hop
    rcases hop with rfl
    exact ⟨by decide, by decide, by decide⟩
  have hnew : PathOram.new 2 1 Nat 2 [0, 1] = .ok c6New := by rfl
  have hexec : execTrace 2 c6New [(⟨0, id, 1⟩ : Op Nat)] = .ok ([0], c6After) := by
    rfl
  exact ⟨⟨by decide, by decide, by decide, by decide, by decide, hops, hnew, hexec⟩,
    stash_access_precondition_reachable Nat 2 1 2 0 [0, 1] [⟨0, id, 1⟩] c6New [0]
      c6After (by decide) (by decide) (by decide) (by decide) (by decide)
      hops hnew hexec⟩

end Oram
